import Mathlib

set_option linter.unusedSectionVars false

/-!
Shallow embedding of the GRASS R-tree file-based index:
`lib/vector/rtree/indexf.c` (search / insert / delete over a node store)
and `lib/vector/rtree/split.c` (quadratic and R*-style node splitting).

Rectangle coordinates (C `RectReal`, a floating point type) are embedded
as rationals; machine `off_t` positions and `int` identifiers as `Int`.
The rectangle algebra (`rect.c`), the node store (`io.c` / `node.c`) and
a few helpers (`RTreeAddBranch`, `RTreePickBranch`, ...) are not part of
the given sources; those are modelled from the specification and say so
in their doc comments.  Everything else is translated directly from the
two C files.
-/
variable {α : Type} [LinearOrderedCommRing α]

/-- Modelled from the spec: an axis-aligned rectangle, a minimum and a
maximum coordinate per dimension (`rect.c` is not among the sources). -/
structure RTreeRect (α : Type) where
  lo : List α
  hi : List α
deriving DecidableEq

/-- Modelled from the spec: overlap test, true iff the two boxes intersect
on every axis; touching boundaries count as overlap. -/
def RTreeOverlap (a b : RTreeRect α) : Bool :=
  (List.zip (List.zip a.lo a.hi) (List.zip b.lo b.hi)).all
    (fun q => decide (q.1.1 ≤ q.2.2) && decide (q.2.1 ≤ q.1.2))

/-- Modelled from the spec: minimum bounding union, per-axis min of
minimums and max of maximums. -/
def RTreeCombineRect (a b : RTreeRect α) : RTreeRect α :=
  ⟨List.zipWith min a.lo b.lo, List.zipWith max a.hi b.hi⟩

/-- Modelled from the spec: exact per-component equality of rectangles,
used to decide whether a propagated bounding-rectangle change is a no-op. -/
def RTreeCompareRect (a b : RTreeRect α) : Bool := decide (a = b)

/-- Modelled from the spec: the margin is the sum of the per-axis edge
lengths of a rectangle. -/
def RTreeRectMargin (r : RTreeRect α) : α :=
  (List.zipWith (fun h l => h - l) r.hi r.lo).sum

/-- Modelled from the spec: the exact axis-aligned volume (product of the
per-axis edge lengths), used by the R*-style overlap tie-break. -/
def RTreeRectVolume (r : RTreeRect α) : α :=
  (List.zipWith (fun h l => h - l) r.hi r.lo).prod

/-- Rectangle containment, `a` inside `b`: used to state the hypotheses on
the monotone volume score the spec leaves abstract. -/
def SubRect (a b : RTreeRect α) : Prop :=
  a.lo.length = b.lo.length ∧ a.hi.length = b.hi.length ∧
  (∀ i, i < a.lo.length → b.lo.getD i 0 ≤ a.lo.getD i 0) ∧
  (∀ i, i < a.hi.length → a.hi.getD i 0 ≤ b.hi.getD i 0)

instance (a b : RTreeRect α) : Decidable (SubRect a b) := by
  unfold SubRect; infer_instance

/-- A rectangle of the given dimensionality whose bounds are all zero,
standing for the contents of freshly initialized branch slots. -/
def RTreeNullRect (d : Nat) : RTreeRect α :=
  ⟨List.replicate d 0, List.replicate d 0⟩

/-- A branch: a rectangle plus a child reference.  The C `union
RTree_Child` stores the internal-node position and the leaf identifier in
the same machine word; the embedding keeps that single word as an `Int`,
read as `pos` by internal-node code and as `id` by leaf code. -/
structure RTreeBranch (α : Type) where
  rect : RTreeRect α
  child : Int
deriving DecidableEq

/-- A node: its level (0 = leaf), the number of active branches and the
branch slots (`nodecard` or `leafcard` many, inactive slots included). -/
structure RTreeNode (α : Type) where
  level : Nat
  count : Nat
  branch : List (RTreeBranch α)
deriving DecidableEq

/-- Entry of the pending-reinsertion list produced by forced reinsertion
(C `struct RTree_ListBranch`). -/
structure RTreeListBranch (α : Type) where
  b : RTreeBranch α
  level : Nat
deriving DecidableEq

/-- The tree handle.  The `method` field embeds the compile-time `METHOD`
macro selecting the split strategy (0 = quadratic, 1 = R*); `overflow` is
the per-level initial value of the forced-reinsertion flags
(`t->overflow`).  The node store is an association list from positions to
nodes together with the next free position, modelled from the spec's
node-store contract. -/
structure RTree (α : Type) where
  ndims : Nat
  nodecard : Nat
  leafcard : Nat
  min_node_fill : Nat
  min_leaf_fill : Nat
  method : Nat
  overflow : Bool
  rootpos : Int
  rootlevel : Nat
  n_nodes : Int
  n_leafs : Int
  nextpos : Int
  store : List (Int × RTreeNode α)
deriving DecidableEq

/-- Modelled from the spec: read a node from the node store at a given
position (`RTreeGetNode`); the level argument of the C function only
names the buffer layout and is not needed here. -/
def RTreeGetNode (t : RTree α) (pos : Int) : Option (RTreeNode α) :=
  t.store.lookup pos

/-- Modelled from the spec: write a node back to the store at a given
position, overwriting the prior content (`RTreePutNode`). -/
def RTreePutNode (t : RTree α) (pos : Int) (n : RTreeNode α) : RTree α :=
  { t with store := (pos, n) :: t.store }

/-- Modelled from the spec: the position a subsequent `RTreeWriteNode`
will allocate (`RTreeGetNodePos`). -/
def RTreeGetNodePos (t : RTree α) : Int := t.nextpos

/-- Modelled from the spec: append a new node to the store at the next
free position (`RTreeWriteNode`); positions of reachable nodes are never
reused. -/
def RTreeWriteNode (t : RTree α) (n : RTreeNode α) : RTree α :=
  { t with store := (t.nextpos, n) :: t.store, nextpos := t.nextpos + 1 }

/-- Branch capacity by level: `nodecard` slots for internal nodes,
`leafcard` for leaves (C macro `MAXKIDS`). -/
def MAXKIDS (level : Nat) (t : RTree α) : Nat :=
  if level > 0 then t.nodecard else t.leafcard

/-- Minimum fill by level (C macro `MINFILL`). -/
def MINFILL (level : Nat) (t : RTree α) : Nat :=
  if level > 0 then t.min_node_fill else t.min_leaf_fill

/-- `indexf.c`: a child reference of an internal node is valid iff its
position is greater than -1. -/
def RTreeValidChildF (child : Int) : Bool := decide (child > -1)

/-- Slot occupancy test: internal slots are active iff `child.pos > -1`,
leaf slots iff `child.id` is nonzero, exactly as the scans in `indexf.c`
test them. -/
def validBranch (level : Nat) (b : RTreeBranch α) : Bool :=
  if level > 0 then RTreeValidChildF b.child else decide (b.child ≠ 0)

/-- The active branches of a node, in slot order. -/
def activeBranches (n : RTreeNode α) : List (RTreeBranch α) :=
  n.branch.filter (validBranch n.level)

/-- The branch stored in freshly initialized slots: null rectangle and an
invalid child reference for the node's level. -/
def emptyBranch (d : Nat) (level : Nat) : RTreeBranch α :=
  ⟨RTreeNullRect d, if level > 0 then -1 else 0⟩

/-- Modelled from the spec: initialize a node of the given level with
every branch slot inactive (`RTreeInitNode`). -/
def RTreeInitNode (t : RTree α) (level : Nat) : RTreeNode α :=
  ⟨level, 0, List.replicate (MAXKIDS level t) (emptyBranch t.ndims level)⟩

/-- Modelled from the spec: add a branch to a node that is not full - the
branch is placed in the first inactive slot and the count incremented
(the non-full path of `RTreeAddBranch`, also taken by every call site
that passes NULL for the split/reinsertion arguments). -/
def RTreeAddBranchSimple (b : RTreeBranch α) (n : RTreeNode α) : RTreeNode α :=
  match n.branch.findIdx? (fun br => !(validBranch n.level br)) with
  | some i => { n with branch := n.branch.set i b, count := n.count + 1 }
  | none => n

/-- Modelled from the spec: the minimum bounding rectangle of everything
in a node - the union of its active branches' rectangles
(`RTreeNodeCover`). -/
def RTreeNodeCover (n : RTreeNode α) : RTreeRect α :=
  match activeBranches n with
  | [] => ⟨[], []⟩
  | b :: bs => bs.foldl (fun acc br => RTreeCombineRect acc br.rect) b.rect

/-! ## Search (`RTreeSearchF`, indexf.c lines 39-99)

The C function traverses depth-first with an explicit stack of
`struct fstack` frames; the embedding makes the loop a step function on
the stack (head = top frame) plus the hit count. -/
/-- A traversal stack frame (C `struct fstack`): the open node, its
storage position, and the resume cursor into its branch slots. -/
structure fstack (α : Type) where
  sn : RTreeNode α
  pos : Int
  branch_id : Nat
deriving DecidableEq

/-- State of the search loop: the frame stack (head is `s[top]`) and the
hit count accumulated so far. -/
structure SearchState (α : Type) where
  stack : List (fstack α)
  hitCount : Nat
deriving DecidableEq

/-- Outcome of one iteration of the search loop. -/
inductive SearchStepRes (α : Type) where
  | done (hits : Nat)
  | cont (st : SearchState α)
  | stuck
deriving DecidableEq

/-- The internal-node scan of the search loop: the first slot index `i`
with `branch_id <= i < nodecard` whose child position is valid and whose
rectangle overlaps the query. -/
def internalFindFrom (r : RTreeRect α) (bs : List (RTreeBranch α))
    (start card : Nat) : Option Nat :=
  (List.range card).find? (fun i =>
    decide (start ≤ i) &&
      (match bs[i]? with
       | some b => RTreeValidChildF b.child && RTreeOverlap r b.rect
       | none => false))

/-- The leaf scan of the search loop: every slot whose id is nonzero and
whose rectangle overlaps the query bumps the hit count and invokes the
callback; a `false` callback stops the scan.  `Sum.inl` is the
early-terminated count, `Sum.inr` the count after a full scan. -/
def leafScanF (shcb : Int → RTreeRect α → Bool) (r : RTreeRect α) :
    List (RTreeBranch α) → Nat → Nat ⊕ Nat
  | [], hits => Sum.inr hits
  | b :: bs, hits =>
    if decide (b.child ≠ 0) && RTreeOverlap r b.rect then
      if shcb b.child b.rect then leafScanF shcb r bs (hits + 1)
      else Sum.inl (hits + 1)
    else leafScanF shcb r bs hits

/-- Number of leaf slots that overlap the query and carry a nonzero id. -/
def leafHits (r : RTreeRect α) (bs : List (RTreeBranch α)) : Nat :=
  (bs.filter (fun b => decide (b.child ≠ 0) && RTreeOverlap r b.rect)).length

/-- One iteration of the `while (top >= 0)` loop of `RTreeSearchF`:
at an internal frame descend into the first not-yet-visited overlapping
child (or pop); at a leaf frame scan every slot and pop, returning early
if the callback stopped the search.  An empty stack returns the count. -/
def searchStepF (t : RTree α) (r : RTreeRect α) (shcb : Int → RTreeRect α → Bool) :
    SearchState α → SearchStepRes α
  | ⟨[], hits⟩ => .done hits
  | ⟨f :: rest, hits⟩ =>
    if f.sn.level > 0 then
      match internalFindFrom r f.sn.branch f.branch_id t.nodecard with
      | some i =>
        let b := f.sn.branch.getD i ⟨⟨[], []⟩, 0⟩
        match RTreeGetNode t b.child with
        | some cn =>
          .cont ⟨⟨cn, b.child, 0⟩ :: { f with branch_id := i + 1 } :: rest, hits⟩
        | none => .stuck
      | none => .cont ⟨rest, hits⟩
    else
      match leafScanF shcb r (f.sn.branch.take t.leafcard) hits with
      | Sum.inl c => .done c
      | Sum.inr c => .cont ⟨rest, c⟩

/-- Run the search loop with the given amount of fuel. -/
def searchRunF (t : RTree α) (r : RTreeRect α) (shcb : Int → RTreeRect α → Bool) :
    Nat → SearchState α → Option Nat
  | 0, _ => none
  | fuel + 1, st =>
    match searchStepF t r shcb st with
    | .done hits => some hits
    | .cont st' => searchRunF t r shcb fuel st'
    | .stuck => none

/-- The initial state of `RTreeSearchF`: the root node alone on the
stack, cursor 0, no hits. -/
def searchInitF (t : RTree α) : Option (SearchState α) :=
  match RTreeGetNode t t.rootpos with
  | some n => some ⟨[⟨n, t.rootpos, 0⟩], 0⟩
  | none => none

/-- `RTreeSearchF`: search the index for all data rectangles overlapping
the argument rectangle, returning the number of qualifying entries
(`none` only if the store is inconsistent or the fuel too small). -/
def RTreeSearchF (t : RTree α) (r : RTreeRect α)
    (shcb : Int → RTreeRect α → Bool) (fuel : Nat) : Option Nat :=
  match searchInitF t with
  | some st => searchRunF t r shcb fuel st
  | none => none

/-- States reachable by the search loop. -/
def SearchReach (t : RTree α) (r : RTreeRect α) (shcb : Int → RTreeRect α → Bool)
    (a b : SearchState α) : Prop :=
  Relation.ReflTransGen (fun x y => searchStepF t r shcb x = .cont y) a b

/-- The per-frame invariant of the search stack: frame `k` (0 = top) sits
`stack.length - 1 - k` levels below the root, and its node is the stored
node at its position. -/
def searchInv (t : RTree α) (st : SearchState α) : Prop :=
  ∀ k (h : k < st.stack.length),
    (st.stack.get ⟨k, h⟩).sn.level + (st.stack.length - 1 - k) = t.rootlevel ∧
    RTreeGetNode t (st.stack.get ⟨k, h⟩).pos = some (st.stack.get ⟨k, h⟩).sn

/-- Store well-formedness: every valid child reference of a stored
internal node leads to a stored node one level further down. -/
def WFStore (t : RTree α) : Prop :=
  ∀ pos n, RTreeGetNode t pos = some n → n.level > 0 →
    ∀ b ∈ n.branch, RTreeValidChildF b.child = true →
      ∃ cn, RTreeGetNode t b.child = some cn ∧ cn.level + 1 = n.level

/-- A frame's node is exactly the stored node at the frame's position. -/
def frameStored (t : RTree α) (f : fstack α) : Prop :=
  RTreeGetNode t f.pos = some f.sn

/-- Structural form of the depth-first stack invariant: each frame is one
level below its parent frame, the bottom frame is the root level, and
every frame holds the stored node at its position. -/
def stackChain (t : RTree α) : List (fstack α) → Prop
  | [] => True
  | [f] => frameStored t f ∧ f.sn.level = t.rootlevel
  | f :: g :: rest => frameStored t f ∧ f.sn.level + 1 = g.sn.level ∧
      stackChain t (g :: rest)

/-! ## Split engine (`split.c`)

The C file keeps the branch buffer, its count and the partition variables
in globals; the embedding passes them explicitly.  `sv` stands for
`RTreeRectSphericalVolume`, which is not among the sources; the spec only
requires a monotonic size measure, so it is a parameter. -/
/-- Default branch used to read branch buffers out of bounds (C reads
from fixed-size arrays; in-bounds indices are the only ones reached). -/
def dfltBranch : RTreeBranch α := ⟨⟨[], []⟩, 0⟩

/-- The `DBL_MAX` approximation `split.c` defines as a fallback
(1.797693E308), used as an effectively-infinite sentinel. -/
def DBL_MAX : α := 1797693 * 10 ^ 302

/-- C `struct PartitionVars`: the partition assignment (-1 / 0 / 1) and
taken flag per buffered branch, the group counts, covers and areas, the
buffer size and the minimum fill. -/
structure PartitionVars (α : Type) where
  partition : List Int
  taken : List Bool
  count0 : Nat
  count1 : Nat
  cover0 : RTreeRect α
  cover1 : RTreeRect α
  area0 : α
  area1 : α
  total : Nat
  minfill : Nat
deriving DecidableEq

/-- `RTreeInitPVars`: reset the partition variables. -/
def RTreeInitPVars (maxrects minfill : Nat) : PartitionVars α :=
  ⟨List.replicate maxrects (-1), List.replicate maxrects false,
   0, 0, ⟨[], []⟩, ⟨[], []⟩, 0, 0, maxrects, minfill⟩

/-- Group count accessor (`p->count[group]`). -/
def pCount (p : PartitionVars α) (group : Nat) : Nat :=
  if group = 0 then p.count0 else p.count1

/-- `RTreeClassify`: put branch `i` of the buffer into a group; under the
quadratic method (`METHOD == 0`) also maintain the group cover and its
volume score. -/
def RTreeClassify (sv : RTreeRect α → α) (method : Nat)
    (buf : List (RTreeBranch α)) (i group : Nat) (p : PartitionVars α) :
    PartitionVars α :=
  let rect := (buf.getD i dfltBranch).rect
  let p1 := { p with partition := p.partition.set i (group : Int),
                     taken := p.taken.set i true }
  if group = 0 then
    let cover := if method = 0 then
        (if p.count0 = 0 then rect else RTreeCombineRect rect p.cover0)
      else p.cover0
    { p1 with cover0 := cover,
              area0 := if method = 0 then sv cover else p.area0,
              count0 := p.count0 + 1 }
  else
    let cover := if method = 0 then
        (if p.count1 = 0 then rect else RTreeCombineRect rect p.cover1)
      else p.cover1
    { p1 with cover1 := cover,
              area1 := if method = 0 then sv cover else p.area1,
              count1 := p.count1 + 1 }

/-- The `CoverSplit` global of `RTreeGetBranches`: the rectangle
containing every branch in the buffer. -/
def CoverSplitOf (buf : List (RTreeBranch α)) : RTreeRect α :=
  match buf with
  | [] => ⟨[], []⟩
  | b :: bs => bs.foldl (fun acc br => RTreeCombineRect acc br.rect) b.rect

/-- The index pairs `(i, j)`, `i < j`, in the order the double loop of
`RTreePickSeeds` visits them. -/
def seedPairs (total : Nat) : List (Nat × Nat) :=
  (List.range total).flatMap (fun i =>
    ((List.range total).filter (fun j => decide (i < j))).map (fun j => (i, j)))

/-- The double loop of `RTreePickSeeds`: the pair wasting the most
volume, seeded with `worst = -sv(CoverSplit) - 1`. -/
def seedBest (sv : RTreeRect α → α) (buf : List (RTreeBranch α))
    (total : Nat) : α × Nat × Nat :=
  (seedPairs total).foldl
    (fun (acc : α × Nat × Nat) pr =>
      let one_rect := RTreeCombineRect (buf.getD pr.1 dfltBranch).rect
        (buf.getD pr.2 dfltBranch).rect
      let waste := sv one_rect - sv (buf.getD pr.1 dfltBranch).rect -
        sv (buf.getD pr.2 dfltBranch).rect
      if waste > acc.1 then (waste, pr.1, pr.2) else acc)
    (-(sv (CoverSplitOf buf)) - 1, 0, 0)

/-- `RTreePickSeeds`: pick as seeds the two branches that would waste the
most volume if covered by a single rectangle, and classify them into
groups 0 and 1. -/
def RTreePickSeeds (sv : RTreeRect α → α) (buf : List (RTreeBranch α))
    (p : PartitionVars α) : PartitionVars α :=
  let best := seedBest sv buf p.total
  RTreeClassify sv 0 buf best.2.2 1 (RTreeClassify sv 0 buf best.2.1 0 p)

/-- The inner scan of `RTreeMethodZero`: among the not-yet-taken
branches, the one with the greatest difference in growth between the two
groups, with its preferred group; ties go to the smaller group. -/
def mzChoose (sv : RTreeRect α → α) (buf : List (RTreeBranch α))
    (p : PartitionVars α) : Nat × Nat :=
  let best := (List.range p.total).foldl
    (fun (acc : α × Nat × Nat) i =>
      if p.taken.getD i true then acc
      else
        let r := (buf.getD i dfltBranch).rect
        let rect_0 := RTreeCombineRect r p.cover0
        let rect_1 := RTreeCombineRect r p.cover1
        let growth0 := sv rect_0 - p.area0
        let growth1 := sv rect_1 - p.area1
        let diffRaw := growth1 - growth0
        let group := if 0 ≤ diffRaw then 0 else 1
        let diff := if 0 ≤ diffRaw then diffRaw else -diffRaw
        if diff > acc.1 then (diff, i, group)
        else if diff = acc.1 ∧ pCount p group < pCount p acc.2.2 then
          (acc.1, i, group)
        else acc)
    ((-1 : α), 0, 0)
  (best.2.1, best.2.2)

/-- The main loop of `RTreeMethodZero`: while both groups can still
accept branches without forcing the other below minimum fill, classify
the branch chosen by `mzChoose`. -/
def mzLoop (sv : RTreeRect α → α) (buf : List (RTreeBranch α)) :
    Nat → PartitionVars α → PartitionVars α
  | 0, p => p
  | fuel + 1, p =>
    if p.count0 + p.count1 < p.total ∧ p.count0 < p.total - p.minfill ∧
        p.count1 < p.total - p.minfill then
      let ch := mzChoose sv buf p
      mzLoop sv buf fuel (RTreeClassify sv 0 buf ch.1 ch.2 p)
    else p

/-- The tail of `RTreeMethodZero`: if one group got too full, the other
group receives every remaining branch. -/
def mzRest (sv : RTreeRect α → α) (buf : List (RTreeBranch α))
    (p : PartitionVars α) : PartitionVars α :=
  if p.count0 + p.count1 < p.total then
    let group := if p.count0 ≥ p.total - p.minfill then 1 else 0
    (List.range p.total).foldl
      (fun q i => if q.taken.getD i true then q
                  else RTreeClassify sv 0 buf i group q) p
  else p

/-- `RTreeMethodZero`: Guttman's quadratic partition of the branch
buffer. -/
def RTreeMethodZero (sv : RTreeRect α → α) (buf : List (RTreeBranch α))
    (minfill : Nat) : PartitionVars α :=
  mzRest sv buf (mzLoop sv buf buf.length
    (RTreePickSeeds sv buf (RTreeInitPVars buf.length minfill)))

/-- Access to `rect.boundary[side]` of the C code: sides below the
dimensionality are lower bounds, the rest upper bounds. -/
def boundarySide (d : Nat) (r : RTreeRect α) (side : Nat) : α :=
  if side < d then r.lo.getD side 0 else r.hi.getD (side - d) 0

/-- `RTreeCompareBranches`: compare two branches on a rectangle side
(1 / 0 / -1 as greater / equal / smaller). -/
def RTreeCompareBranches (d : Nat) (a b : RTreeBranch α) (side : Nat) : Int :=
  if boundarySide d a.rect side > boundarySide d b.rect side then 1
  else if boundarySide d a.rect side < boundarySide d b.rect side then -1
  else 0

/-- `RTreeSwapBranches` on the buffer, by indices. -/
def RTreeSwapBranches (buf : List (RTreeBranch α)) (i j : Nat) :
    List (RTreeBranch α) :=
  (buf.set i (buf.getD j dfltBranch)).set j (buf.getD i dfltBranch)

/-- `RTreeBranchBufIsSorted`: the buffer is sorted on a side between two
indices (no adjacent pair strictly descending). -/
def RTreeBranchBufIsSorted (d : Nat) (buf : List (RTreeBranch α))
    (first last side : Nat) : Bool :=
  (List.range' first (last - first)).all
    (fun i => !(RTreeCompareBranches d (buf.getD i dfltBranch)
        (buf.getD (i + 1) dfltBranch) side = 1))

/-- The scanning `while (first < last)` loop of
`RTreePartitionBranchBuf`, with the remaining scan length as fuel. -/
def partScan (d side last : Nat) :
    Nat → Nat → Nat → List (RTreeBranch α) → List (RTreeBranch α) × Nat
  | 0, _, piv, buf => (buf, piv)
  | fuel + 1, fir, piv, buf =>
    if fir < last then
      if ¬ (RTreeCompareBranches d (buf.getD fir dfltBranch)
          (buf.getD last dfltBranch) side = 1) then
        let buf' := if piv ≠ fir then RTreeSwapBranches buf piv fir else buf
        partScan d side last fuel (fir + 1) (piv + 1) buf'
      else partScan d side last fuel (fir + 1) piv buf
    else (buf, piv)

/-- The median-of-three pivot selection of `RTreePartitionBranchBuf`:
`larger`/`pivot`/`smaller` of `first` and `mid`, then compared against
`last`. -/
def partPivot (d : Nat) (buf : List (RTreeBranch α))
    (first last side : Nat) : Nat :=
  let mid := (first + last) / 2
  let lsp : Nat × Nat × Nat :=
    if RTreeCompareBranches d (buf.getD first dfltBranch)
        (buf.getD mid dfltBranch) side = 1 then (first, first, mid)
    else (mid, mid, first)
  if RTreeCompareBranches d (buf.getD lsp.1 dfltBranch)
      (buf.getD last dfltBranch) side = 1 then
    (if RTreeCompareBranches d (buf.getD lsp.2.2 dfltBranch)
        (buf.getD last dfltBranch) side = 1 then lsp.2.2 else last)
  else lsp.2.1

/-- `RTreePartitionBranchBuf`: median-of-three pivot selection, pivot
moved to `last`, scan, pivot swapped back; returns the buffer and the
pivot position. -/
def RTreePartitionBranchBuf (d : Nat) (buf : List (RTreeBranch α))
    (first last side : Nat) : List (RTreeBranch α) × Nat :=
  if last - first = 1 then
    if RTreeCompareBranches d (buf.getD first dfltBranch)
        (buf.getD last dfltBranch) side = 1 then
      (RTreeSwapBranches buf first last, last)
    else (buf, last)
  else
    let pivot1 := partPivot d buf first last side
    let buf1 := if pivot1 ≠ last then RTreeSwapBranches buf pivot1 last
      else buf
    let sp := partScan d side last (last - first) first first buf1
    let buf3 := if sp.2 ≠ last then RTreeSwapBranches sp.1 sp.2 last
      else sp.1
    (buf3, sp.2)

/-- The explicit-stack loop of `RTreeQuicksortBranchBuf`. -/
def qsLoop (d side : Nat) :
    Nat → List (Nat × Nat) → List (RTreeBranch α) → List (RTreeBranch α)
  | _, [], buf => buf
  | 0, _ :: _, buf => buf
  | fuel + 1, (first, last) :: stk, buf =>
    if first < last then
      if ¬ (RTreeBranchBufIsSorted d buf first last side = true) then
        let bp := RTreePartitionBranchBuf d buf first last side
        qsLoop d side fuel
          ((bp.2 + 1, last) :: (first, bp.2 - 1) :: stk) bp.1
      else qsLoop d side fuel stk buf
    else qsLoop d side fuel stk buf

/-- Fuel that dominates the number of iterations of the quicksort
stack loop. -/
def qsFuel (n : Nat) : Nat := 4 * n + 8

/-- `RTreeQuicksortBranchBuf`: quicksort the whole branch buffer along
the given side. -/
def RTreeQuicksortBranchBuf (d side branchCount : Nat)
    (buf : List (RTreeBranch α)) : List (RTreeBranch α) :=
  qsLoop d side (qsFuel branchCount) [(0, branchCount - 1)] buf

/-- The overlap volume of the two candidate covers in `RTreeMethodOne`:
zero if they are disjoint on some axis, else the volume of the
intersection rectangle `orect`. -/
def moOverlapVal (d : Nat) (t1 t2 : RTreeRect α) : α :=
  if (List.range d).all (fun k =>
      !(decide (t1.lo.getD k 0 > t2.hi.getD k 0) ||
        decide (t1.hi.getD k 0 < t2.lo.getD k 0))) then
    RTreeRectVolume
      ⟨(List.range d).map (fun k => max (t1.lo.getD k 0) (t2.lo.getD k 0)),
       (List.range d).map (fun k => min (t1.hi.getD k 0) (t2.hi.getD k 0))⟩
  else 0

/-- The upper-group cover for split point `j`: `upperrect` combined with
the buffer entries from `j + 1` up to `branchCount - minfill - 1`. -/
def suffixCombine (buf : List (RTreeBranch α)) (upper : RTreeRect α)
    (lo hi : Nat) : RTreeRect α :=
  (List.range' lo (hi - lo)).foldl
    (fun acc k => RTreeCombineRect acc (buf.getD k dfltBranch).rect) upper

/-- The initial `testrect1` before the distribution scan: the cover of
buffer entries `0 .. minfill1 - 1`. -/
def lowerInit (buf : List (RTreeBranch α)) (minfill1 : Nat) : RTreeRect α :=
  (List.range' 1 (minfill1 - 1)).foldl
    (fun acc j => RTreeCombineRect acc (buf.getD j dfltBranch).rect)
    (buf.getD 0 dfltBranch).rect

/-- The initial `upperrect` before the distribution scan: the cover of
the last `minfill` buffer entries. -/
def upperInit (buf : List (RTreeBranch α)) (maxkids minfill1 : Nat) :
    RTreeRect α :=
  let u1 := (List.range' 1 (minfill1 - 1)).foldl
    (fun acc j => RTreeCombineRect acc (buf.getD (maxkids - j) dfltBranch).rect)
    (buf.getD maxkids dfltBranch).rect
  RTreeCombineRect u1 (buf.getD (maxkids - minfill1) dfltBranch).rect

/-- State threaded through the distribution scan of `RTreeMethodOne`:
the growing lower cover, the margin minimum with its axis, and the
per-axis best distribution (overlap, volume, cut, side). -/
structure MOScan (α : Type) where
  testrect1 : RTreeRect α
  smargin : α
  baxis : Nat
  soverlap : α
  svol : α
  bcut : Nat
  bside : Nat
deriving DecidableEq

/-- One distribution `j` of the scan in `RTreeMethodOne`: grow the lower
cover, rebuild the upper cover, compare the summed margin against the
running margin minimum (remembering the axis), and the overlap volume
(ties by total volume) against the per-axis best cut. -/
def moDistStep (d axis side minfill branchCount : Nat)
    (buf : List (RTreeBranch α)) (upper : RTreeRect α) (st : MOScan α) (j : Nat) :
    MOScan α :=
  let t1 := RTreeCombineRect st.testrect1 (buf.getD j dfltBranch).rect
  let t2 := suffixCombine buf upper (j + 1) (branchCount - minfill)
  let margin := RTreeRectMargin t1 + RTreeRectMargin t2
  let st1 := if margin ≤ st.smargin then
      { st with testrect1 := t1, smargin := margin, baxis := axis }
    else { st with testrect1 := t1 }
  let overlap := moOverlapVal d t1 t2
  let vol := RTreeRectVolume t1 + RTreeRectVolume t2
  if overlap ≤ st1.soverlap then
    { st1 with soverlap := overlap, svol := vol, bcut := j, bside := side }
  else if overlap = st1.soverlap then
    (if vol ≤ st1.svol then { st1 with svol := vol, bcut := j, bside := side }
     else st1)
  else st1

/-- State of the axis-choice loops of `RTreeMethodOne`: the (possibly
re-sorted) buffer, the margin minimum and its axis, the per-axis
overlap/volume minima and the per-axis best cut and side arrays. -/
structure MOState (α : Type) where
  buf : List (RTreeBranch α)
  smargin : α
  baxis : Nat
  soverlap : α
  svol : α
  bcut : List Nat
  bside : List Nat
deriving DecidableEq

/-- One side (`s = 0`: lower bounds, `s = 1`: upper bounds) of one axis
of `RTreeMethodOne`: sort the buffer on the side, set up the initial
covers and run the distribution scan. -/
def moSide (d minfill branchCount maxkids : Nat) (axis s : Nat)
    (st : MOState α) : MOState α :=
  let buf1 := RTreeQuicksortBranchBuf d (axis + s * d) branchCount st.buf
  let minfill1 := minfill - 1
  let scan0 : MOScan α :=
    ⟨lowerInit buf1 minfill1, st.smargin, st.baxis, st.soverlap, st.svol,
     st.bcut.getD axis 0, st.bside.getD axis 0⟩
  let scanN := (List.range' minfill1 (branchCount - minfill - minfill1)).foldl
    (moDistStep d axis s minfill branchCount buf1
      (upperInit buf1 maxkids minfill1)) scan0
  ⟨buf1, scanN.smargin, scanN.baxis, scanN.soverlap, scanN.svol,
   st.bcut.set axis scanN.bcut, st.bside.set axis scanN.bside⟩

/-- One axis of `RTreeMethodOne`: reset the per-axis minima and best
cut/side, then scan both sides. -/
def moAxis (d minfill branchCount maxkids : Nat) (st : MOState α)
    (axis : Nat) : MOState α :=
  let st0 := { st with soverlap := DBL_MAX, svol := DBL_MAX,
                       bcut := st.bcut.set axis 0,
                       bside := st.bside.set axis 0 }
  moSide d minfill branchCount maxkids axis 1
    (moSide d minfill branchCount maxkids axis 0 st0)

/-- The axis-choice phase of `RTreeMethodOne`: all axes in order, with
the C locals' declared initial values (`smallest_margin = 0`,
`best_axis = 0`). -/
def moChooseAxis (d minfill branchCount maxkids : Nat)
    (buf : List (RTreeBranch α)) : MOState α :=
  (List.range d).foldl (moAxis d minfill branchCount maxkids)
    ⟨buf, 0, 0, -1, -1, List.replicate d 0, List.replicate d 0⟩

/-- `RTreeMethodOne`: the R*-style partition - choose an axis, re-sort
along the winning axis and side if the buffer is not already in that
order, and classify the buffer below the best cut into group 0 and the
rest into group 1.  Returns the partition variables and the final
buffer order. -/
def RTreeMethodOne (sv : RTreeRect α → α) (d : Nat) (buf : List (RTreeBranch α))
    (minfill maxkids : Nat) : PartitionVars α × List (RTreeBranch α) :=
  let p0 := RTreeInitPVars buf.length minfill
  let st := moChooseAxis d minfill buf.length maxkids buf
  let lastAxis := d - 1
  let lastSide := if d > 0 then 1 else 0
  let buf2 := if st.baxis ≠ lastAxis ∨ st.bside.getD st.baxis 0 ≠ lastSide then
      RTreeQuicksortBranchBuf d
        (st.baxis + (st.bside.getD st.baxis 0) * d) buf.length st.buf
    else st.buf
  let cut := st.bcut.getD st.baxis 0 + 1
  let p1 := (List.range cut).foldl
    (fun q i => RTreeClassify sv 1 buf2 i 0 q) p0
  let p2 := (List.range' cut (buf.length - cut)).foldl
    (fun q i => RTreeClassify sv 1 buf2 i 1 q) p1
  (p2, buf2)

/-- `RTreeGetBranches`: load the branch buffer with the node's branches
plus the extra branch, and reinitialize the node. -/
def RTreeGetBranches (t : RTree α) (n : RTreeNode α) (b : RTreeBranch α) :
    List (RTreeBranch α) × RTreeNode α :=
  ((n.branch.take (MAXKIDS n.level t)) ++ [b],
   { RTreeInitNode t n.level with level := n.level })

/-- `RTreeLoadNodes`: copy the buffered branches into the two nodes
according to the partition. -/
def RTreeLoadNodes (buf : List (RTreeBranch α)) (n q : RTreeNode α)
    (p : PartitionVars α) : RTreeNode α × RTreeNode α :=
  (List.range p.total).foldl
    (fun (acc : RTreeNode α × RTreeNode α) i =>
      if p.partition.getD i (-1) = 0 then
        (RTreeAddBranchSimple (buf.getD i dfltBranch) acc.1, acc.2)
      else if p.partition.getD i (-1) = 1 then
        (acc.1, RTreeAddBranchSimple (buf.getD i dfltBranch) acc.2)
      else acc)
    (n, q)

/-- `RTreeSplitNode`: divide the node's branches and the extra one
between the reinitialized node and a fresh node, using the strategy the
tree was compiled with (`METHOD`). -/
def RTreeSplitNode (sv : RTreeRect α → α) (t : RTree α) (n : RTreeNode α)
    (b : RTreeBranch α) : RTreeNode α × RTreeNode α :=
  let level := n.level
  let gb := RTreeGetBranches t n b
  let pb :=
    if t.method = 1 then
      RTreeMethodOne sv t.ndims gb.1 (MINFILL level t) (MAXKIDS level t)
    else (RTreeMethodZero sv gb.1 (MINFILL level t), gb.1)
  let nn0 := { RTreeInitNode t level with level := level }
  RTreeLoadNodes pb.2 { gb.2 with level := level } nn0 pb.1

/-! ## Insertion (`RTreeInsertRect2F` / `RTreeInsertRectF`, indexf.c
lines 110-315) -/
/-- Insertion sort on branches by a boolean order, used by the modelled
helpers (structural recursion, so it evaluates by kernel reduction). -/
def insertSorted (le : RTreeBranch α → RTreeBranch α → Bool) (b : RTreeBranch α) :
    List (RTreeBranch α) → List (RTreeBranch α)
  | [] => [b]
  | x :: xs => if le b x then b :: x :: xs else x :: insertSorted le b xs

/-- Insertion sort of a branch list. -/
def sortBranches (le : RTreeBranch α → RTreeBranch α → Bool)
    (l : List (RTreeBranch α)) : List (RTreeBranch α) :=
  l.foldr (insertSorted le) []

/-- Squared distance between the centers of two rectangles, used by the
forced-reinsertion selection. -/
def centerDist2 (a b : RTreeRect α) : α :=
  (List.zipWith (fun p q => (p - q) * (p - q))
    (List.zipWith (fun l h => l + h) a.lo a.hi)
    (List.zipWith (fun l h => l + h) b.lo b.hi)).sum

/-- Modelled from the spec: the configurable fraction (30 percent, at
least one) of an overflowing node's branches that forced reinsertion
removes. -/
def forceReinsertCount (total : Nat) : Nat := max 1 (total * 3 / 10)

/-- Modelled from the spec: `RTreeRemoveBranches` is not among the
sources - pick the configured fraction of the branches (node plus the
extra branch) farthest from the center of the covering rectangle, remove
them into the pending-reinsertion list, and refill the node with the
rest. -/
def RTreeRemoveBranches (t : RTree α) (n : RTreeNode α) (b : RTreeBranch α)
    (cover : Option (RTreeRect α)) : RTreeNode α × List (RTreeListBranch α) :=
  let buf := (n.branch.take (MAXKIDS n.level t)) ++ [b]
  let cov := match cover with
    | some c => c
    | none => CoverSplitOf buf
  let k := forceReinsertCount buf.length
  let sorted := sortBranches
    (fun x y => decide (centerDist2 y.rect cov ≤ centerDist2 x.rect cov)) buf
  let kept := sorted.drop k
  let n' := kept.foldl (fun acc br => RTreeAddBranchSimple br acc)
    { RTreeInitNode t n.level with level := n.level }
  (n', (sorted.take k).map (fun br => ⟨br, n.level⟩))

/-- Result record of `RTreeAddBranch`: the C result code (0 added,
1 split, 2 branches removed), the updated node, the new node on a split,
the pending-reinsertion entries, the updated overflow flags, and the
levels at which forced reinsertion fired (ghost event log). -/
structure ABOut (α : Type) where
  result : Nat
  n : RTreeNode α
  n2 : RTreeNode α
  ee : List (RTreeListBranch α)
  ov : List Bool
  events : List Nat
deriving DecidableEq

/-- Modelled from the spec: `RTreeAddBranch` is not among the sources -
a branch added to a non-full node is placed in a free slot; on a full
node, if this level's forced-reinsertion flag is still set the flag is
cleared and a fraction of the branches removed for reinsertion (result
2), otherwise the node is split (result 1). -/
def RTreeAddBranch (sv : RTreeRect α → α) (t : RTree α) (b : RTreeBranch α)
    (n : RTreeNode α) (cover : Option (RTreeRect α)) (ov : List Bool) : ABOut α :=
  if n.count < MAXKIDS n.level t then
    ⟨0, RTreeAddBranchSimple b n, RTreeInitNode t n.level, [], ov, []⟩
  else if ov.getD n.level false then
    let ne := RTreeRemoveBranches t n b cover
    ⟨2, ne.1, RTreeInitNode t n.level, ne.2, ov.set n.level false,
     [n.level]⟩
  else
    let sn := RTreeSplitNode sv t n b
    ⟨1, sn.1, sn.2, [], ov, []⟩

/-- Modelled from the spec: `RTreePickBranch` is not among the sources -
the index of the valid branch whose rectangle needs the least volume
enlargement to cover `r` (first such index on ties). -/
def RTreePickBranch (sv : RTreeRect α → α) (r : RTreeRect α) (n : RTreeNode α) :
    Option Nat :=
  (((List.range n.branch.length).filter
      (fun i => validBranch n.level (n.branch.getD i dfltBranch))).foldl
    (fun (acc : Option (Nat × α)) i =>
      let br := n.branch.getD i dfltBranch
      let growth := sv (RTreeCombineRect r br.rect) - sv br.rect
      match acc with
      | none => some (i, growth)
      | some jg => if growth < jg.2 then some (i, growth) else some jg)
    none).map (fun jg => jg.1)

/-- The descent of `RTreeInsertRect2F`: from the root down to the
insertion level, choosing the least-enlargement branch at each node and
remembering the chosen branch index in the frame. -/
def insertDescend (t : RTree α) (sv : RTreeRect α → α) (r : RTreeRect α)
    (level : Nat) : Nat → List (fstack α) → Option (List (fstack α))
  | 0, _ => none
  | _ + 1, [] => none
  | fuel + 1, f :: rest =>
    if f.sn.level > level then
      match RTreePickBranch sv r f.sn with
      | some i =>
        let b := f.sn.branch.getD i dfltBranch
        match RTreeGetNode t b.child with
        | some cn =>
          insertDescend t sv r level fuel
            (⟨cn, b.child, 0⟩ :: { f with branch_id := i } :: rest)
        | none => none
      | none => none
    else some (f :: rest)

/-- Modelled from the spec: `RTreeUpdateRect` is not among the sources -
replace the rectangle of branch `i` of the node and write the node back
at its position. -/
def RTreeUpdateRect (t : RTree α) (n : RTreeNode α) (pos : Int) (i : Nat)
    (nr : RTreeRect α) : RTreeNode α × RTree α :=
  let nb := n.branch.set i ⟨nr, (n.branch.getD i dfltBranch).child⟩
  let n' := { n with branch := nb }
  (n', RTreePutNode t pos n')

/-- The compare-then-rewrite idiom of the unwind loops: the branch
rectangle is rewritten (and the node written back) only if the
recomputed rectangle differs from the stored one. -/
def condUpdateRect (t : RTree α) (n : RTreeNode α) (pos : Int) (i : Nat)
    (nr : RTreeRect α) : RTreeNode α × RTree α :=
  if RTreeCompareRect nr ((n.branch.getD i dfltBranch).rect) then (n, t)
  else RTreeUpdateRect t n pos i nr

/-- State threaded through the insert unwind: result code, tree, new
node and its position, pending-reinsertion list, overflow flags and the
forced-reinsertion event log. -/
structure IUState (α : Type) where
  result : Nat
  t : RTree α
  n2 : RTreeNode α
  newnode_pos : Int
  ee : List (RTreeListBranch α)
  ov : List Bool
  events : List Nat
deriving DecidableEq

/-- The `while (top)` unwind loop of `RTreeInsertRect2F`: at every
ancestor frame, combine-and-rewrite the branch rectangle (result 0),
recompute-and-rewrite the child cover (result 2), or on a split update
the child cover and add a branch for the new sibling, which may split
or force-reinsert again. -/
def insertUnwind (sv : RTreeRect α → α) (r : RTreeRect α) :
    List (fstack α) → RTreeNode α → IUState α → IUState α
  | [], _, st => st
  | p :: rest, cnode, st =>
    let i := p.branch_id
    if st.result = 0 then
      let nr := RTreeCombineRect ((p.sn.branch.getD i dfltBranch).rect) r
      let nt := condUpdateRect st.t p.sn p.pos i nr
      insertUnwind sv r rest nt.1 { st with t := nt.2 }
    else if st.result = 2 then
      let nr := RTreeNodeCover cnode
      let nt := condUpdateRect st.t p.sn p.pos i nr
      insertUnwind sv r rest nt.1 { st with t := nt.2 }
    else
      let nb := p.sn.branch.set i
        ⟨RTreeNodeCover cnode, (p.sn.branch.getD i dfltBranch).child⟩
      let n1 := { p.sn with branch := nb }
      let b : RTreeBranch α := ⟨RTreeNodeCover st.n2, st.newnode_pos⟩
      let cover := match rest with
        | [] => none
        | g :: _ => some ((g.sn.branch.getD g.branch_id dfltBranch).rect)
      let ab := RTreeAddBranch sv st.t b n1 cover st.ov
      if ab.result = 1 then
        let pos2 := RTreeGetNodePos st.t
        let t2 := { RTreeWriteNode st.t ab.n2 with
          n_nodes := st.t.n_nodes + 1 }
        let t3 := RTreePutNode t2 p.pos ab.n
        insertUnwind sv r rest ab.n
          ⟨ab.result, t3, ab.n2, pos2, ab.ee ++ st.ee, ab.ov,
           st.events ++ ab.events⟩
      else
        let t2 := RTreePutNode st.t p.pos ab.n
        insertUnwind sv r rest ab.n
          ⟨ab.result, t2, ab.n2, st.newnode_pos, ab.ee ++ st.ee, ab.ov,
           st.events ++ ab.events⟩

/-- Result record of `RTreeInsertRect2F`. -/
structure I2Out (α : Type) where
  result : Nat
  t : RTree α
  newnode : RTreeNode α
  newnode_pos : Int
  ee : List (RTreeListBranch α)
  ov : List Bool
  events : List Nat
deriving DecidableEq

/-- `RTreeInsertRect2F`: descend to the insertion level, add the branch
(splitting or force-reinserting on overflow), write the affected nodes
and propagate rectangle updates and splits back up the stack. -/
def RTreeInsertRect2F (sv : RTreeRect α → α) (fuel : Nat) (r : RTreeRect α)
    (child : Int) (level : Nat) (t : RTree α) (ov : List Bool) :
    Option (I2Out α) :=
  match RTreeGetNode t t.rootpos with
  | none => none
  | some rootn =>
    match insertDescend t sv r level fuel [⟨rootn, t.rootpos, 0⟩] with
    | none => none
    | some [] => none
    | some (f :: parents) =>
      let b : RTreeBranch α := ⟨r, child⟩
      let cover := match parents with
        | [] => none
        | g :: _ => some ((g.sn.branch.getD g.branch_id dfltBranch).rect)
      let ab := RTreeAddBranch sv t b f.sn cover ov
      let tn :=
        if ab.result = 1 then
          ({ RTreeWriteNode t ab.n2 with n_nodes := t.n_nodes + 1 },
           RTreeGetNodePos t)
        else (t, (-1 : Int))
      let t2 := RTreePutNode tn.1 f.pos ab.n
      let stF := insertUnwind sv r parents ab.n
        ⟨ab.result, t2, ab.n2, tn.2, ab.ee, ab.ov, ab.events⟩
      some ⟨stF.result, stF.t, stF.n2, stF.newnode_pos, stF.ee, stF.ov,
        stF.events⟩

/-- C constant `MAXLEVEL`: size of the per-level overflow flag array. -/
def MAXLEVEL : Nat := 20

/-- The root-growth block of `RTreeInsertRectF`: on a root split, build
a new root one level taller holding one branch covering the old root and
one covering the new sibling, write it, and update the root position and
level. -/
def growRootF (t : RTree α) (newnode : RTreeNode α) (newnode_pos : Int) :
    Option (RTree α) :=
  match RTreeGetNode t t.rootpos with
  | none => none
  | some oldroot =>
    let t1 := { t with rootlevel := t.rootlevel + 1 }
    let newroot0 := RTreeInitNode t1 t1.rootlevel
    let newroot1 := RTreeAddBranchSimple
      ⟨RTreeNodeCover oldroot, t.rootpos⟩ newroot0
    let newroot2 := RTreeAddBranchSimple
      ⟨RTreeNodeCover newnode, newnode_pos⟩ newroot1
    let rootp := RTreeGetNodePos t1
    let t2 := RTreeWriteNode t1 newroot2
    some { t2 with rootpos := rootp, n_nodes := t2.n_nodes + 1 }

/-- The `while (reInsertList)` loop of `RTreeInsertRectF`: re-submit
every removed branch through `RTreeInsertRect2F` with the *same*
overflow flag array, growing the root when a reinsertion splits it. -/
def insertReinsertLoop (sv : RTreeRect α → α) (fuel0 : Nat) :
    Nat → List (RTreeListBranch α) → List Bool → RTree α → Nat → List Nat →
    Option (Nat × RTree α × List Nat)
  | 0, _, _, _, _, _ => none
  | _ + 1, [], _, t, res, evs => some (res, t, evs)
  | fuel + 1, e :: rest, ov, t, _, evs =>
    match RTreeInsertRect2F sv fuel0 e.b.rect e.b.child e.level t ov with
    | none => none
    | some out =>
      if out.result = 1 then
        match growRootF out.t out.newnode out.newnode_pos with
        | none => none
        | some t' =>
          insertReinsertLoop sv fuel0 fuel (out.ee ++ rest) out.ov t'
            out.result (evs ++ out.events)
      else
        insertReinsertLoop sv fuel0 fuel (out.ee ++ rest) out.ov out.t
          out.result (evs ++ out.events)

/-- `RTreeInsertRectF`: insert a data rectangle - reset the per-level
overflow flags, run the single-pass insertion, grow the root if it
split, and run any pending forced reinsertions to completion.  The
third component is the ghost log of levels at which forced reinsertion
fired during the whole call. -/
def RTreeInsertRectF (sv : RTreeRect α → α) (fuel : Nat) (r : RTreeRect α)
    (child : Int) (level : Nat) (t : RTree α) :
    Option (Nat × RTree α × List Nat) :=
  let ov := List.replicate MAXLEVEL t.overflow
  match RTreeInsertRect2F sv fuel r child level t ov with
  | none => none
  | some out =>
    if out.result = 1 then
      match growRootF out.t out.newnode out.newnode_pos with
      | none => none
      | some t' => some (1, t', out.events)
    else if out.result = 2 then
      insertReinsertLoop sv fuel fuel out.ee out.ov out.t 2 out.events
    else some (out.result, out.t, out.events)

/-! ## Deletion (`RTreeDeleteRect2F` / `RTreeDeleteRectF`, indexf.c
lines 323-495) -/
/-- The leaf scan of the delete descent: the first slot whose id is
nonzero and equals the requested child id.  The query rectangle plays no
part in this test. -/
def deleteLeafFind (card : Nat) (bs : List (RTreeBranch α)) (child : Int) :
    Option Nat :=
  (List.range card).find? (fun i =>
    match bs[i]? with
    | some b => decide (b.child ≠ 0) && decide (b.child = child)
    | none => false)

/-- Modelled from the spec: `RTreeDisconnectBranch` is not among the
sources - remove branch `i` by moving the last active branch into its
slot (keeping the slots dense), clearing that last slot, and
decrementing the count. -/
def RTreeDisconnectBranch (t : RTree α) (n : RTreeNode α) (i : Nat) :
    RTreeNode α :=
  let last := n.count - 1
  let moved := n.branch.getD last (emptyBranch t.ndims n.level)
  { n with
    branch := (n.branch.set i moved).set last (emptyBranch t.ndims n.level),
    count := n.count - 1 }

/-- Outcome of the delete descent loop. -/
inductive DelFound (α : Type) where
  | notfound
  | found (stack : List (fstack α)) (t' : RTree α)
deriving DecidableEq

/-- The `while (notfound && top >= 0)` descent loop of
`RTreeDeleteRect2F`: at internal frames descend into the next
overlapping valid branch (the same scan as the search); at leaf frames
look for the child id, and on a match disconnect the branch, write the
leaf back and decrement the leaf counter.  No part of the tree is
touched unless a match is found. -/
def deleteDescendF (t : RTree α) (r : RTreeRect α) (child : Int) :
    Nat → List (fstack α) → Option (DelFound α)
  | 0, _ => none
  | _ + 1, [] => some .notfound
  | fuel + 1, f :: rest =>
    if f.sn.level > 0 then
      match internalFindFrom r f.sn.branch f.branch_id t.nodecard with
      | some i =>
        let b := f.sn.branch.getD i dfltBranch
        match RTreeGetNode t b.child with
        | some cn =>
          deleteDescendF t r child fuel
            (⟨cn, b.child, 0⟩ :: { f with branch_id := i + 1 } :: rest)
        | none => none
      | none => deleteDescendF t r child fuel rest
    else
      match deleteLeafFind t.leafcard f.sn.branch child with
      | some i =>
        let n' := RTreeDisconnectBranch t f.sn i
        let t1 := RTreePutNode t f.pos n'
        some (.found ({ f with sn := n' } :: rest)
          { t1 with n_leafs := t1.n_leafs - 1 })
      | none => deleteDescendF t r child fuel rest

/-- The `while (top)` unwind loop of `RTreeDeleteRect2F`: at each
ancestor, if the child still meets its minimum fill only the cached
bounding rectangle is refreshed (rewritten only if changed); otherwise
the whole child node is disconnected from the ancestor and queued for
reinsertion. -/
def deleteUnwind (t : RTree α) :
    List (fstack α) → RTreeNode α → List (RTreeNode α) → RTree α × List (RTreeNode α)
  | [], _, ee => (t, ee)
  | p :: rest, cnode, ee =>
    let i := p.branch_id - 1
    let minfill := if cnode.level > 0 then t.min_node_fill
      else t.min_leaf_fill
    if cnode.count ≥ minfill then
      let nt := condUpdateRect t p.sn p.pos i (RTreeNodeCover cnode)
      deleteUnwind nt.2 rest nt.1 ee
    else
      let n' := RTreeDisconnectBranch t p.sn i
      let t1 := RTreePutNode t p.pos n'
      deleteUnwind t1 rest n' (cnode :: ee)

/-- `RTreeDeleteRect2F`: delete a rectangle from the non-root part of
the tree; returns the C result (1 = not found, 0 = success), the tree
and the list of eliminated nodes whose branches await reinsertion. -/
def RTreeDeleteRect2F (fuel : Nat) (r : RTreeRect α) (child : Int)
    (t : RTree α) : Option (Nat × RTree α × List (RTreeNode α)) :=
  match RTreeGetNode t t.rootpos with
  | none => none
  | some rootn =>
    match deleteDescendF t r child fuel [⟨rootn, t.rootpos, 0⟩] with
    | none => none
    | some .notfound => some (1, t, [])
    | some (.found [] _) => none
    | some (.found (leaf :: parents) t') =>
      let te := deleteUnwind t' parents leaf.sn []
      some (0, te.1, te.2)

/-- The reinsertion loop of `RTreeDeleteRectF`: every branch of every
eliminated node is fed back through `RTreeInsertRectF` at the node's
level, and the node counter decremented per eliminated node. -/
def deleteReinsert (sv : RTreeRect α → α) (fuel : Nat) :
    List (RTreeNode α) → RTree α → Option (RTree α)
  | [], t => some t
  | n :: rest, t =>
    let step := fun (acc : Option (RTree α)) (br : RTreeBranch α) =>
      match acc with
      | none => none
      | some tt =>
        if validBranch n.level br then
          match RTreeInsertRectF sv fuel br.rect br.child n.level tt with
          | none => none
          | some out => some out.2.1
        else some tt
    match n.branch.foldl step (some { t with n_nodes := t.n_nodes - 1 }) with
    | none => none
    | some t2 => deleteReinsert sv fuel rest t2

/-- The root-collapse check of `RTreeDeleteRectF`: a non-leaf root with
exactly one branch is eliminated, its single child becoming the root. -/
def rootCollapseF (t : RTree α) : Option (RTree α) :=
  match RTreeGetNode t t.rootpos with
  | none => none
  | some rn =>
    if rn.count = 1 ∧ rn.level > 0 then
      match rn.branch.findIdx? (fun b => RTreeValidChildF b.child) with
      | some i =>
        some { t with rootpos := (rn.branch.getD i dfltBranch).child,
                      rootlevel := t.rootlevel - 1 }
      | none => some t
    else some t

/-- `RTreeDeleteRectF`: delete a data rectangle; returns 1 and the
unchanged tree when the child id was not found, else 0 and the repaired
tree after reinsertion of orphaned branches and root collapse. -/
def RTreeDeleteRectF (sv : RTreeRect α → α) (fuel : Nat) (r : RTreeRect α)
    (child : Int) (t : RTree α) : Option (Nat × RTree α) :=
  match RTreeDeleteRect2F fuel r child t with
  | none => none
  | some (1, _, _) => some (1, t)
  | some (_, t1, ee) =>
    match deleteReinsert sv fuel ee t1 with
    | none => none
    | some t2 =>
      match rootCollapseF t2 with
      | none => none
      | some t3 => some (0, t3)

/-- Concrete tree for the id-only deletion demonstration: a root at
level 1 whose single branch (rectangle (0,0)-(5,5)) leads to a leaf
holding id 7 with rectangle (0,0)-(1,1) and id 8 with (4,4)-(5,5). -/
def exTreeC9 : RTree ℤ :=
  ⟨2, 4, 4, 1, 1, 0, false, 0, 1, 2, 2, 2,
   [(0, ⟨1, 1, [⟨⟨[0, 0], [5, 5]⟩, 1⟩, ⟨⟨[0, 0], [0, 0]⟩, -1⟩,
                ⟨⟨[0, 0], [0, 0]⟩, -1⟩, ⟨⟨[0, 0], [0, 0]⟩, -1⟩]⟩),
    (1, ⟨0, 2, [⟨⟨[0, 0], [1, 1]⟩, 7⟩, ⟨⟨[4, 4], [5, 5]⟩, 8⟩,
                ⟨⟨[0, 0], [0, 0]⟩, 0⟩, ⟨⟨[0, 0], [0, 0]⟩, 0⟩]⟩)]⟩

/-- The tree-handle fields the insertion pass never touches: geometry
parameters, split strategy and the root coordinates. -/
def sameShape (t1 t2 : RTree α) : Prop :=
  t1.ndims = t2.ndims ∧ t1.nodecard = t2.nodecard ∧
  t1.leafcard = t2.leafcard ∧ t1.min_node_fill = t2.min_node_fill ∧
  t1.min_leaf_fill = t2.min_leaf_fill ∧ t1.method = t2.method ∧
  t1.overflow = t2.overflow ∧ t1.rootpos = t2.rootpos ∧
  t1.rootlevel = t2.rootlevel

/-- Concrete full one-leaf tree (capacity 2) for the root-split
demonstration. -/
def exTreeC7 : RTree ℤ := ⟨2, 2, 2, 1, 1, 0, false, 0, 0, 1, 2, 1,
  [(0, ⟨0, 2, [⟨⟨[0, 0], [1, 1]⟩, 1⟩, ⟨⟨[2, 2], [3, 3]⟩, 2⟩]⟩)]⟩

/-- The descent-pass outcome of inserting a third rectangle into
`exTreeC7`: the root leaf splits. -/
def exOutC7 : I2Out ℤ :=
  ⟨1,
   ⟨2, 2, 2, 1, 1, 0, false, 0, 0, 2, 2, 2,
    [(0, ⟨0, 2, [⟨⟨[0, 0], [1, 1]⟩, 1⟩, ⟨⟨[2, 2], [3, 3]⟩, 2⟩]⟩),
     (1, ⟨0, 1, [⟨⟨[5, 5], [6, 6]⟩, 3⟩, ⟨⟨[0, 0], [0, 0]⟩, 0⟩]⟩),
     (0, ⟨0, 2, [⟨⟨[0, 0], [1, 1]⟩, 1⟩, ⟨⟨[2, 2], [3, 3]⟩, 2⟩]⟩)]⟩,
   ⟨0, 1, [⟨⟨[5, 5], [6, 6]⟩, 3⟩, ⟨⟨[0, 0], [0, 0]⟩, 0⟩]⟩,
   1, [], List.replicate 20 false, []⟩

/-- The forced-reinsertion accounting relation between the overflow
flags before and after a piece of the insertion and its event log: each
level fires at most once, a fired level had its flag set and comes out
cleared, and a flag still set afterwards was set before and did not
fire. -/
def OverflowOK (ov ov' : List Bool) (evs : List Nat) : Prop :=
  (∀ l, evs.count l ≤ 1) ∧
  (∀ l ∈ evs, ov.getD l false = true ∧ ov'.getD l false = false) ∧
  (∀ l, ov'.getD l false = true → ov.getD l false = true ∧ l ∉ evs)

/-- Reference definition following the spec's words for the R*-style
axis choice: for each axis, sort the branches by the lower and then by
the upper bound on that axis, sum the margins (perimeter of the lower
cover plus perimeter of the upper cover) over every split point
respecting minimum fill, and compare these per-axis totals. -/
def specAxisTotalMargin (d : Nat) (buf : List (RTreeBranch α))
    (minfill axis : Nat) : α :=
  ((List.range 2).map (fun s =>
    let sbuf := sortBranches (fun a b =>
      decide (boundarySide d a.rect (axis + s * d) ≤
        boundarySide d b.rect (axis + s * d))) buf
    ((List.range' (minfill - 1)
        (buf.length - minfill - (minfill - 1))).map
      (fun j => RTreeRectMargin (CoverSplitOf (sbuf.take (j + 1))) +
        RTreeRectMargin (CoverSplitOf (sbuf.drop (j + 1))))).sum)).sum

/-- A 2-dimensional overflowed buffer (leaf capacity 4 plus the extra
branch, minimum fill 2): five boxes of identical x-extent stacked along
the y axis in scrambled order, so every margin is positive and the
y axis (axis 1) has the strictly smaller total margin sum. -/
def bufC1 : List (RTreeBranch ℤ) :=
  [⟨⟨[0, 8], [10, 9]⟩, 1⟩, ⟨⟨[0, 0], [10, 1]⟩, 2⟩, ⟨⟨[0, 4], [10, 5]⟩, 3⟩,
   ⟨⟨[0, 2], [10, 3]⟩, 4⟩, ⟨⟨[0, 6], [10, 7]⟩, 5⟩]

/-- Well-formedness of a rectangle for the split analysis: dimension
`d`, all coordinates within `[-M, M]`, lower bounds below upper
bounds. -/
def RectGood (d : Nat) (M : α) (r : RTreeRect α) : Prop :=
  r.lo.length = d ∧ r.hi.length = d ∧
  ∀ i, i < d → -M ≤ r.lo.getD i 0 ∧ r.hi.getD i 0 ≤ M ∧
    r.lo.getD i 0 ≤ r.hi.getD i 0

instance (d : Nat) (M : α) (r : RTreeRect α) :
    Decidable (RectGood d M r) := by
  unfold RectGood
  infer_instance

/-- Invariant of `struct PartitionVars` maintained by `RTreeClassify`:
lists sized to `total`, partition entries in -1/0/1, the taken flag
mirroring assignment, and the group counters counting the partition
entries. -/
def pvInv (p : PartitionVars α) : Prop :=
  p.partition.length = p.total ∧ p.taken.length = p.total ∧
  (∀ x ∈ p.partition, x = -1 ∨ x = 0 ∨ x = 1) ∧
  (∀ i, i < p.total →
    (p.taken.getD i true = true ↔ ¬ p.partition.getD i (-1) = -1)) ∧
  p.count0 = p.partition.count 0 ∧
  p.count1 = p.partition.count 1

/-- The indices below `j` that the partition assigns to group `g`, in
order. -/
def selIdx (l : List Int) (g : Int) (j : Nat) : List Nat :=
  (List.range j).filter (fun i => decide (l.getD i (-1) = g))

/-- The buffered branches assigned to group `g` among the first `j`
slots, in order. -/
def selBr (buf : List (RTreeBranch α)) (l : List Int) (g : Int) (j : Nat) :
    List (RTreeBranch α) :=
  (selIdx l g j).map (fun i => buf.getD i dfltBranch)

/-- A concrete one-dimensional tree for exercising the split: three
branches per node, minimum fill 1, quadratic split strategy. -/
def tC2 : RTree ℤ :=
  ⟨1, 3, 3, 1, 1, 0, false, 0, 0, 1, 3, 1, []⟩

/-- A full leaf of `tC2`: three valid single-interval entries. -/
def nC2 : RTreeNode ℤ :=
  ⟨0, 3, [⟨⟨[0], [1]⟩, 1⟩, ⟨⟨[2], [3]⟩, 2⟩, ⟨⟨[4], [5]⟩, 3⟩]⟩

/-- The extra branch pushed into the full leaf `nC2`. -/
def bC2 : RTreeBranch ℤ := ⟨⟨[6], [7]⟩, 4⟩

theorem stackChain_head (t : RTree α) :
    ∀ (rest : List (fstack α)) (f : fstack α), stackChain t (f :: rest) →
      f.sn.level + rest.length = t.rootlevel := by
  intro rest
  induction rest with
  | nil => intro f h; simpa [stackChain] using h.2
  | cons g rest' ih =>
    intro f h
    rcases h with ⟨-, hlev, hch⟩
    have := ih g hch
    simp only [List.length_cons]
    omega

theorem stackChain_length (t : RTree α) (l : List (fstack α))
    (h : stackChain t l) : l.length ≤ t.rootlevel + 1 := by
  cases l with
  | nil => simp
  | cons f rest =>
    have := stackChain_head t rest f h
    simp only [List.length_cons]
    omega

theorem stackChain_replaceHead (t : RTree α) (rest : List (fstack α))
    (f f2 : fstack α) (h : stackChain t (f :: rest)) (hst : frameStored t f2)
    (hsn : f2.sn = f.sn) : stackChain t (f2 :: rest) := by
  cases rest with
  | nil => exact ⟨hst, by rw [hsn]; exact h.2⟩
  | cons g rest' => exact ⟨hst, by rw [hsn]; exact h.2.1, h.2.2⟩

theorem stackChain_pop (t : RTree α) (f : fstack α) (rest : List (fstack α))
    (h : stackChain t (f :: rest)) : stackChain t rest := by
  cases rest with
  | nil => trivial
  | cons g rest' => exact h.2.2

theorem stackChain_stored (t : RTree α) (f : fstack α) (rest : List (fstack α))
    (h : stackChain t (f :: rest)) : frameStored t f := by
  cases rest with
  | nil => exact h.1
  | cons g rest' => exact h.1

theorem searchStep_chain (t : RTree α) (r : RTreeRect α)
    (shcb : Int → RTreeRect α → Bool) (hWF : WFStore t) (a b : SearchState α)
    (hstep : searchStepF t r shcb a = .cont b)
    (hch : stackChain t a.stack) : stackChain t b.stack := by
  obtain ⟨st, hits⟩ := a
  cases st with
  | nil => simp [searchStepF] at hstep
  | cons f rest =>
    simp only [searchStepF] at hstep
    by_cases hl : f.sn.level > 0
    · rw [if_pos hl] at hstep
      cases hfind : internalFindFrom r f.sn.branch f.branch_id t.nodecard with
      | none =>
        rw [hfind] at hstep
        cases hstep
        exact stackChain_pop t f rest hch
      | some i =>
        rw [hfind] at hstep
        simp only at hstep
        cases hget : RTreeGetNode t (f.sn.branch.getD i ⟨⟨[], []⟩, 0⟩).child with
        | none => rw [hget] at hstep; cases hstep
        | some cn =>
          rw [hget] at hstep
          cases hstep
          have hp := List.find?_some hfind
          cases hbi : f.sn.branch[i]? with
          | none => rw [hbi] at hp; simp at hp
          | some br =>
            rw [hbi] at hp
            simp only [Bool.and_eq_true, decide_eq_true_eq] at hp
            have hbd : f.sn.branch.getD i ⟨⟨[], []⟩, 0⟩ = br := by
              rw [List.getD_eq_getElem?_getD, hbi]; rfl
            have hmem : br ∈ f.sn.branch := List.getElem?_mem hbi
            have hstored := stackChain_stored t f rest hch
            obtain ⟨cn', hcn', hlv⟩ :=
              hWF f.pos f.sn hstored hl br hmem hp.2.1
            rw [hbd] at hget
            have hcc : cn' = cn := by
              rw [hcn'] at hget; exact Option.some.inj hget
            rw [hcc] at hlv
            refine ⟨?_, ?_, ?_⟩
            · show RTreeGetNode t (f.sn.branch.getD i ⟨⟨[], []⟩, 0⟩).child =
                some cn
              rw [hbd]; exact hget
            · simpa using hlv
            · exact stackChain_replaceHead t rest f _ hch hstored rfl
    · rw [if_neg hl] at hstep
      cases hscan : leafScanF shcb r (f.sn.branch.take t.leafcard) hits with
      | inl c => rw [hscan] at hstep; cases hstep
      | inr c =>
        rw [hscan] at hstep
        cases hstep
        exact stackChain_pop t f rest hch

theorem leafScanF_inl (shcb : Int → RTreeRect α → Bool) (r : RTreeRect α) :
    ∀ (bs : List (RTreeBranch α)) (hits c : Nat),
      leafScanF shcb r bs hits = Sum.inl c →
      ∃ l b l2, bs = l ++ b :: l2 ∧
        (decide (b.child ≠ 0) && RTreeOverlap r b.rect) = true ∧
        shcb b.child b.rect = false ∧
        c = hits + leafHits r l + 1 ∧
        ∀ b' ∈ l, (decide (b'.child ≠ 0) && RTreeOverlap r b'.rect) = true →
          shcb b'.child b'.rect = true := by
  intro bs
  induction bs with
  | nil => intro hits c h; simp [leafScanF] at h
  | cons b tl ih =>
    intro hits c h
    simp only [leafScanF] at h
    by_cases hhit : (decide (b.child ≠ 0) && RTreeOverlap r b.rect) = true
    · rw [if_pos hhit] at h
      by_cases hcb : shcb b.child b.rect = true
      · rw [if_pos hcb] at h
        obtain ⟨l, b', l2, he, h1, h2, h3, h4⟩ := ih (hits + 1) c h
        refine ⟨b :: l, b', l2, by rw [he]; rfl, h1, h2, ?_, ?_⟩
        · rw [h3]
          simp only [leafHits, List.filter_cons, hhit, if_pos,
            List.length_cons]
          omega
        · intro b'' hmem hh
          rcases List.mem_cons.mp hmem with hbb | hm'
          · rw [hbb]; exact hcb
          · exact h4 _ hm' hh
      · rw [if_neg hcb] at h
        have hc : c = hits + 1 := (Sum.inl.inj h).symm
        refine ⟨[], b, tl, rfl, hhit, Bool.not_eq_true _ ▸ hcb, ?_, by simp⟩
        simp [leafHits, hc]
    · rw [if_neg hhit] at h
      obtain ⟨l, b', l2, he, h1, h2, h3, h4⟩ := ih hits c h
      refine ⟨b :: l, b', l2, by rw [he]; rfl, h1, h2, ?_, ?_⟩
      · rw [h3]
        simp only [leafHits, List.filter_cons, hhit]
        simp [leafHits]
      · intro b'' hmem hh
        rcases List.mem_cons.mp hmem with hbb | hm'
        · rw [hbb] at hh; exact absurd hh hhit
        · exact h4 _ hm' hh

/-- C5: when the user callback signals stop on a matching leaf entry,
the hit count has already been incremented for that entry, the search
terminates immediately, and the returned count is the number of
overlapping leaf entries found so far including the stopping one:
(1) characterization of the early-terminated leaf scan, (2) a leaf frame
whose scan stops makes the loop return that count at once, (3) the loop
runner returns the `done` value unchanged. -/
theorem RTreeSearchF_stop_includes_entry :
    (∀ (shcb : Int → RTreeRect α → Bool) (r : RTreeRect α)
       (bs : List (RTreeBranch α)) (hits c : Nat),
       leafScanF shcb r bs hits = Sum.inl c →
       ∃ l b l2, bs = l ++ b :: l2 ∧
         (decide (b.child ≠ 0) && RTreeOverlap r b.rect) = true ∧
         shcb b.child b.rect = false ∧
         c = hits + leafHits r l + 1 ∧
         ∀ b' ∈ l, (decide (b'.child ≠ 0) && RTreeOverlap r b'.rect) = true →
           shcb b'.child b'.rect = true) ∧
    (∀ (t : RTree α) (r : RTreeRect α) (shcb : Int → RTreeRect α → Bool)
       (f : fstack α) (rest : List (fstack α)) (hits c : Nat),
       ¬ f.sn.level > 0 →
       leafScanF shcb r (f.sn.branch.take t.leafcard) hits = Sum.inl c →
       searchStepF t r shcb ⟨f :: rest, hits⟩ = .done c) ∧
    (∀ (t : RTree α) (r : RTreeRect α) (shcb : Int → RTreeRect α → Bool)
       (st : SearchState α) (c fuel : Nat),
       searchStepF t r shcb st = .done c →
       searchRunF t r shcb (fuel + 1) st = some c) := by
  refine ⟨leafScanF_inl, ?_, ?_⟩
  · intro t r shcb f rest hits c hl hscan
    simp [searchStepF, if_neg hl, hscan]
  · intro t r shcb st c fuel hstep
    simp [searchRunF, hstep]

/-- Witness for C5's theorem at a concrete leaf scan: three entries all
overlapping the query, callback stopping on id 2; the scan stops with
count 2 = the hit that stopped it included. -/
theorem RTreeSearchF_stop_includes_entry_wit :
    ∃ l b l2,
      ([⟨⟨[1, 1], [2, 2]⟩, 1⟩, ⟨⟨[3, 3], [4, 4]⟩, 2⟩,
        ⟨⟨[5, 5], [6, 6]⟩, 3⟩] : List (RTreeBranch ℤ)) = l ++ b :: l2 ∧
      (decide (b.child ≠ 0) &&
        RTreeOverlap ⟨[0, 0], [10, 10]⟩ b.rect) = true ∧
      (fun (i : Int) (_ : RTreeRect ℤ) => decide (i ≠ 2)) b.child b.rect
        = false ∧
      2 = 0 + leafHits ⟨[0, 0], [10, 10]⟩ l + 1 ∧
      ∀ b' ∈ l, (decide (b'.child ≠ 0) &&
          RTreeOverlap ⟨[0, 0], [10, 10]⟩ b'.rect) = true →
        (fun (i : Int) (_ : RTreeRect ℤ) => decide (i ≠ 2)) b'.child b'.rect
          = true :=
  RTreeSearchF_stop_includes_entry.1
    (fun (i : Int) (_ : RTreeRect ℤ) => decide (i ≠ 2)) ⟨[0, 0], [10, 10]⟩
    [⟨⟨[1, 1], [2, 2]⟩, 1⟩, ⟨⟨[3, 3], [4, 4]⟩, 2⟩, ⟨⟨[5, 5], [6, 6]⟩, 3⟩]
    0 2 (by decide)

/-- C6: throughout any execution of `RTreeSearchF` on a well-formed
store, the traversal stack holds at most `rootlevel + 1` frames with one
open node per level: every frame sits exactly one level below its parent
(`stackChain`), so `top = rootlevel - level(top frame)` and
`0 ≤ top ≤ rootlevel` hold at every loop iteration. -/
theorem RTreeSearchF_stack_bounded (t : RTree α) (r : RTreeRect α)
    (shcb : Int → RTreeRect α → Bool) (rn : RTreeNode α)
    (hWF : WFStore t) (hroot : RTreeGetNode t t.rootpos = some rn)
    (hrl : rn.level = t.rootlevel) (st : SearchState α)
    (hreach : SearchReach t r shcb ⟨[⟨rn, t.rootpos, 0⟩], 0⟩ st) :
    stackChain t st.stack ∧ st.stack.length ≤ t.rootlevel + 1 ∧
    ∀ f frest, st.stack = f :: frest →
      f.sn.level + frest.length = t.rootlevel := by
  have hch : stackChain t st.stack := by
    induction hreach with
    | refl => exact ⟨hroot, hrl⟩
    | tail hsteps hstep ih =>
      exact searchStep_chain t r shcb hWF _ _ hstep ih
  refine ⟨hch, stackChain_length t st.stack hch, ?_⟩
  intro f frest hst
  rw [hst] at hch
  exact stackChain_head t frest f hch

/-- Witness for C6's theorem: a one-node tree (a single root leaf), the
initial state itself. -/
theorem RTreeSearchF_stack_bounded_wit :
    stackChain (⟨2, 4, 4, 2, 2, 0, false, 0, 0, 1, 1, 1,
        [(0, ⟨0, 1, [⟨⟨[1, 1], [2, 2]⟩, 5⟩]⟩)]⟩ : RTree ℤ)
      (SearchState.mk [⟨⟨0, 1, [⟨⟨[1, 1], [2, 2]⟩, 5⟩]⟩, 0, 0⟩] 0).stack ∧
    (SearchState.mk (α := ℤ)
        [⟨⟨0, 1, [⟨⟨[1, 1], [2, 2]⟩, 5⟩]⟩, 0, 0⟩] 0).stack.length
      ≤ (0 : Nat) + 1 ∧
    ∀ f frest,
      (SearchState.mk (α := ℤ)
          [⟨⟨0, 1, [⟨⟨[1, 1], [2, 2]⟩, 5⟩]⟩, 0, 0⟩] 0).stack
        = f :: frest → f.sn.level + frest.length = 0 := by
  have hWF : WFStore (⟨2, 4, 4, 2, 2, 0, false, 0, 0, 1, 1, 1,
      [(0, ⟨0, 1, [⟨⟨[1, 1], [2, 2]⟩, 5⟩]⟩)]⟩ : RTree ℤ) := by
    intro pos n h hl b hmem hv
    simp only [RTreeGetNode, List.lookup] at h
    split at h
    · cases h
      simp at hl
    · cases h
  exact RTreeSearchF_stack_bounded _ ⟨[0, 0], [3, 3]⟩ (fun _ _ => true)
    ⟨0, 1, [⟨⟨[1, 1], [2, 2]⟩, 5⟩]⟩ hWF (by decide) rfl _
    Relation.ReflTransGen.refl

theorem delete2_notfound_frame (fuel : Nat) (r : RTreeRect α) (child : Int)
    (t : RTree α) (res : Nat) (t2 : RTree α) (ee : List (RTreeNode α))
    (h : RTreeDeleteRect2F fuel r child t = some (res, t2, ee))
    (hres : res = 1) : t2 = t ∧ ee = [] := by
  subst hres
  unfold RTreeDeleteRect2F at h
  split at h
  · cases h
  · split at h
    · cases h
    · cases h; exact ⟨rfl, rfl⟩
    · cases h
    · cases h

theorem deleteF_result1_unchanged (sv : RTreeRect α → α) (fuel : Nat)
    (r : RTreeRect α) (child : Int) (t : RTree α) (res : Nat) (t' : RTree α)
    (h : RTreeDeleteRectF sv fuel r child t = some (res, t'))
    (hres : res = 1) : t' = t := by
  subst hres
  unfold RTreeDeleteRectF at h
  split at h
  · cases h
  · cases h; rfl
  · split at h
    · cases h
    · split at h
      · cases h
      · cases h

/-- C3: a deletion that finds no matching leaf entry returns 1 (NotFound)
as a normal return value and leaves the tree completely unchanged - the
non-root pass hands back the identical tree and an empty elimination
list, and the public entry point hands back the identical tree handle
(store contents, root position and level, node and leaf counters
included). -/
theorem RTreeDeleteRectF_notfound_unchanged (sv : RTreeRect α → α)
    (fuel : Nat) (r : RTreeRect α) (child : Int) (t : RTree α) :
    (∀ res t2 ee, RTreeDeleteRect2F fuel r child t = some (res, t2, ee) →
      res = 1 → t2 = t ∧ ee = []) ∧
    (∀ res t', RTreeDeleteRectF sv fuel r child t = some (res, t') →
      res = 1 → t' = t) :=
  ⟨fun res t2 ee h hres => delete2_notfound_frame fuel r child t res t2 ee h hres,
   fun res t' h hres => deleteF_result1_unchanged sv fuel r child t res t' h hres⟩

/-- Witness for C3's theorem: deleting a pair absent from a concrete
one-leaf tree returns NotFound with the tree unchanged. -/
theorem RTreeDeleteRectF_notfound_unchanged_wit :
    ((⟨2, 4, 4, 2, 2, 0, false, 0, 0, 1, 1, 1,
        [(0, ⟨0, 1, [⟨⟨[1, 1], [2, 2]⟩, 5⟩]⟩)]⟩ : RTree ℤ) =
      (⟨2, 4, 4, 2, 2, 0, false, 0, 0, 1, 1, 1,
        [(0, ⟨0, 1, [⟨⟨[1, 1], [2, 2]⟩, 5⟩]⟩)]⟩ : RTree ℤ)) ∧ ([] : List (RTreeNode ℤ)) = [] :=
  (RTreeDeleteRectF_notfound_unchanged RTreeRectVolume 9
      ⟨[0, 0], [3, 3]⟩ 7
      (⟨2, 4, 4, 2, 2, 0, false, 0, 0, 1, 1, 1,
        [(0, ⟨0, 1, [⟨⟨[1, 1], [2, 2]⟩, 5⟩]⟩)]⟩ : RTree ℤ)).1
    1 _ [] (by decide) rfl

theorem leafScanF_skip_zero (shcb : Int → RTreeRect α → Bool)
    (r : RTreeRect α) :
    ∀ (pre : List (RTreeBranch α)) (b : RTreeBranch α) post hits,
      b.child = 0 →
      leafScanF shcb r (pre ++ b :: post) hits =
        leafScanF shcb r (pre ++ post) hits := by
  intro pre
  induction pre with
  | nil =>
    intro b post hits hb
    simp [leafScanF, hb]
  | cons a pre' ih =>
    intro b post hits hb
    simp only [List.cons_append, leafScanF, List.append_eq]
    rw [ih b post hits hb, ih b post (hits + 1) hb]

theorem internalFindFrom_valid (r : RTreeRect α) (bs : List (RTreeBranch α))
    (start card i : Nat) (h : internalFindFrom r bs start card = some i) :
    RTreeValidChildF ((bs.getD i dfltBranch).child) = true := by
  have hp := List.find?_some h
  cases hbi : bs[i]? with
  | none => rw [hbi] at hp; simp at hp
  | some br =>
    rw [hbi] at hp
    simp only [Bool.and_eq_true, decide_eq_true_eq] at hp
    rw [List.getD_eq_getElem?_getD, hbi]
    exact hp.2.1

theorem deleteLeafFind_zero (card : Nat) (bs : List (RTreeBranch α)) :
    deleteLeafFind card bs 0 = none := by
  rw [deleteLeafFind, List.find?_eq_none]
  intro i _
  cases hbi : bs[i]? with
  | none => simp
  | some b =>
    simp only [Bool.and_eq_true, decide_eq_true_eq, Bool.not_eq_true]
    by_cases hb : b.child = 0
    · simp [hb]
    · simp [hb]

theorem deleteDescendF_zero (t : RTree α) (r : RTreeRect α) :
    ∀ (fuel : Nat) (stack : List (fstack α)) (d : DelFound α),
      deleteDescendF t r 0 fuel stack = some d → d = .notfound := by
  intro fuel
  induction fuel with
  | zero => intro stack d h; cases h
  | succ fuel ih =>
    intro stack d h
    cases stack with
    | nil => cases h; rfl
    | cons f rest =>
      rw [deleteDescendF] at h
      by_cases hl : f.sn.level > 0
      · rw [if_pos hl] at h
        cases hfind : internalFindFrom r f.sn.branch f.branch_id t.nodecard with
        | none => rw [hfind] at h; exact ih rest d h
        | some i =>
          rw [hfind] at h
          dsimp only at h
          cases hget : RTreeGetNode t (f.sn.branch.getD i dfltBranch).child with
          | none => rw [hget] at h; cases h
          | some cn => rw [hget] at h; exact ih _ d h
      · rw [if_neg hl] at h
        rw [deleteLeafFind_zero] at h
        exact ih rest d h

theorem delete2_zero (fuel : Nat) (r : RTreeRect α) (t : RTree α)
    (res : Nat) (t2 : RTree α) (ee : List (RTreeNode α))
    (h : RTreeDeleteRect2F fuel r 0 t = some (res, t2, ee)) :
    res = 1 ∧ t2 = t ∧ ee = [] := by
  unfold RTreeDeleteRect2F at h
  cases hroot : RTreeGetNode t t.rootpos with
  | none => rw [hroot] at h; cases h
  | some rootn =>
    rw [hroot] at h
    dsimp only at h
    cases hdesc : deleteDescendF t r 0 fuel [⟨rootn, t.rootpos, 0⟩] with
    | none => rw [hdesc] at h; cases h
    | some d =>
      have hnf := deleteDescendF_zero t r fuel _ d hdesc
      subst hnf
      rw [hdesc] at h
      cases h
      exact ⟨rfl, rfl, rfl⟩

theorem deleteF_zero (sv : RTreeRect α → α) (fuel : Nat) (r : RTreeRect α)
    (t : RTree α) (res : Nat) (t' : RTree α)
    (h : RTreeDeleteRectF sv fuel r 0 t = some (res, t')) :
    res = 1 ∧ t' = t := by
  unfold RTreeDeleteRectF at h
  cases h2 : RTreeDeleteRect2F fuel r 0 t with
  | none => rw [h2] at h; cases h
  | some v =>
    obtain ⟨n, t1, ee⟩ := v
    obtain ⟨hn, -, -⟩ := delete2_zero fuel r t n t1 ee h2
    subst hn
    rw [h2] at h
    have h' : (some (1, t) : Option (Nat × RTree α)) = some (res, t') := h
    cases h'
    exact ⟨rfl, rfl⟩

/-- C10: branch-slot occupancy is pure sentinel encoding - a leaf slot
with id 0 is invisible: the search leaf scan behaves as if the slot were
absent, the internal scans only ever select slots with `child.pos > -1`
(`RTreeValidChildF`), and deleting id 0 always returns NotFound with the
tree unchanged. -/
theorem RTree_sentinel_occupancy :
    (∀ (shcb : Int → RTreeRect α → Bool) (r : RTreeRect α)
       (pre : List (RTreeBranch α)) (b : RTreeBranch α) post hits,
       b.child = 0 →
       leafScanF shcb r (pre ++ b :: post) hits =
         leafScanF shcb r (pre ++ post) hits) ∧
    (∀ (r : RTreeRect α) (bs : List (RTreeBranch α)) start card i,
       internalFindFrom r bs start card = some i →
       RTreeValidChildF ((bs.getD i dfltBranch).child) = true) ∧
    (∀ (sv : RTreeRect α → α) (fuel : Nat) (r : RTreeRect α) (t : RTree α)
       (res : Nat) (t' : RTree α),
       RTreeDeleteRectF sv fuel r 0 t = some (res, t') →
       res = 1 ∧ t' = t) :=
  ⟨fun shcb r => leafScanF_skip_zero shcb r,
   fun r bs start card i h => internalFindFrom_valid r bs start card i h,
   fun sv fuel r t res t' h => deleteF_zero sv fuel r t res t' h⟩

/-- Witness for C10's theorem: a leaf slot with id 0 does not change a
concrete scan, and deleting id 0 from a concrete one-leaf tree returns
NotFound with the tree unchanged. -/
theorem RTree_sentinel_occupancy_wit :
    (leafScanF (fun _ _ => true) (⟨[0, 0], [9, 9]⟩ : RTreeRect ℤ)
        (([⟨⟨[1, 1], [2, 2]⟩, 5⟩] : List (RTreeBranch ℤ)) ++
          ⟨⟨[3, 3], [4, 4]⟩, 0⟩ :: [⟨⟨[5, 5], [6, 6]⟩, 7⟩]) 0 =
      leafScanF (fun _ _ => true) (⟨[0, 0], [9, 9]⟩ : RTreeRect ℤ)
        (([⟨⟨[1, 1], [2, 2]⟩, 5⟩] : List (RTreeBranch ℤ)) ++
          [⟨⟨[5, 5], [6, 6]⟩, 7⟩]) 0) ∧
    ((1 : Nat) = 1 ∧
      (⟨2, 4, 4, 2, 2, 0, false, 0, 0, 1, 1, 1,
        [(0, ⟨0, 1, [⟨⟨[1, 1], [2, 2]⟩, 5⟩]⟩)]⟩ : RTree ℤ) =
       ⟨2, 4, 4, 2, 2, 0, false, 0, 0, 1, 1, 1,
        [(0, ⟨0, 1, [⟨⟨[1, 1], [2, 2]⟩, 5⟩]⟩)]⟩) :=
  ⟨RTree_sentinel_occupancy.1 (fun _ _ => true) (⟨[0, 0], [9, 9]⟩ : RTreeRect ℤ)
      [⟨⟨[1, 1], [2, 2]⟩, 5⟩] ⟨⟨[3, 3], [4, 4]⟩, 0⟩ [⟨⟨[5, 5], [6, 6]⟩, 7⟩] 0 rfl,
   RTree_sentinel_occupancy.2.2 RTreeRectVolume 9 (⟨[0, 0], [3, 3]⟩ : RTreeRect ℤ)
      ⟨2, 4, 4, 2, 2, 0, false, 0, 0, 1, 1, 1,
        [(0, ⟨0, 1, [⟨⟨[1, 1], [2, 2]⟩, 5⟩]⟩)]⟩ 1
      ⟨2, 4, 4, 2, 2, 0, false, 0, 0, 1, 1, 1,
        [(0, ⟨0, 1, [⟨⟨[1, 1], [2, 2]⟩, 5⟩]⟩)]⟩ (by decide)⟩

theorem find?_congr_mem {β : Type} (p q : β → Bool) :
    ∀ l : List β, (∀ x ∈ l, p x = q x) → l.find? p = l.find? q := by
  intro l
  induction l with
  | nil => intro _; rfl
  | cons a tl ih =>
    intro h
    rw [List.find?_cons, List.find?_cons, h a (List.mem_cons_self a tl)]
    cases hq : q a with
    | true => rfl
    | false => exact ih (fun x hx => h x (List.mem_cons_of_mem a hx))

theorem deleteLeafFind_rect_irrelevant (card : Nat) (child : Int)
    (bs bs' : List (RTreeBranch α))
    (hmap : bs.map (fun b => b.child) = bs'.map (fun b => b.child)) :
    deleteLeafFind card bs child = deleteLeafFind card bs' child := by
  unfold deleteLeafFind
  apply find?_congr_mem
  intro i _
  have h := congrArg (fun l => l[i]?) hmap
  simp only [List.getElem?_map] at h
  cases hb : bs[i]? with
  | none =>
    rw [hb] at h
    cases hb' : bs'[i]? with
    | none => rfl
    | some c => rw [hb'] at h; cases h
  | some b =>
    rw [hb] at h
    cases hb' : bs'[i]? with
    | none => rw [hb'] at h; cases h
    | some c =>
      rw [hb'] at h
      simp only [Option.map_some'] at h
      have hbc : b.child = c.child := Option.some.inj h
      simp [hbc]

/-- C9: deletion matches leaf entries by child id alone - the leaf scan
of the delete descent depends only on the stored ids, never on the
stored rectangles; consequently deleting id 7 from `exTreeC9` with a
query rectangle that does not even overlap the entry's stored rectangle
(but overlaps the ancestor branch) still succeeds and removes the entry,
leaving only id 8 findable. -/
theorem RTreeDeleteRectF_matches_by_id :
    (∀ (card : Nat) (child : Int) (bs bs' : List (RTreeBranch α)),
       bs.map (fun b => b.child) = bs'.map (fun b => b.child) →
       deleteLeafFind card bs child = deleteLeafFind card bs' child) ∧
    (∃ t' : RTree ℤ,
       RTreeDeleteRectF RTreeRectVolume 9 (⟨[2, 2], [3, 3]⟩ : RTreeRect ℤ)
           7 exTreeC9 = some (0, t') ∧
       RTreeSearchF t' ⟨[0, 0], [9, 9]⟩ (fun _ _ => true) 9 = some 1) ∧
    RTreeOverlap (⟨[2, 2], [3, 3]⟩ : RTreeRect ℤ) ⟨[0, 0], [1, 1]⟩ = false := by
  refine ⟨fun card child bs bs' h =>
    deleteLeafFind_rect_irrelevant card child bs bs' h, ?_, by decide⟩
  refine ⟨⟨2, 4, 4, 1, 1, 0, false, 1, 0, 2, 1, 2,
    [(0, ⟨1, 1, [⟨⟨[4, 4], [5, 5]⟩, 1⟩, ⟨⟨[0, 0], [0, 0]⟩, -1⟩,
                 ⟨⟨[0, 0], [0, 0]⟩, -1⟩, ⟨⟨[0, 0], [0, 0]⟩, -1⟩]⟩),
     (1, ⟨0, 1, [⟨⟨[4, 4], [5, 5]⟩, 8⟩, ⟨⟨[0, 0], [0, 0]⟩, 0⟩,
                 ⟨⟨[0, 0], [0, 0]⟩, 0⟩, ⟨⟨[0, 0], [0, 0]⟩, 0⟩]⟩),
     (0, ⟨1, 1, [⟨⟨[0, 0], [5, 5]⟩, 1⟩, ⟨⟨[0, 0], [0, 0]⟩, -1⟩,
                 ⟨⟨[0, 0], [0, 0]⟩, -1⟩, ⟨⟨[0, 0], [0, 0]⟩, -1⟩]⟩),
     (1, ⟨0, 2, [⟨⟨[0, 0], [1, 1]⟩, 7⟩, ⟨⟨[4, 4], [5, 5]⟩, 8⟩,
                 ⟨⟨[0, 0], [0, 0]⟩, 0⟩, ⟨⟨[0, 0], [0, 0]⟩, 0⟩]⟩)]⟩,
    by decide, by decide⟩

/-- Witness for C9's theorem: the id-only scan applied to two concrete
slot lists differing only in their rectangles. -/
theorem RTreeDeleteRectF_matches_by_id_wit :
    deleteLeafFind 4 ([⟨⟨[0, 0], [1, 1]⟩, 7⟩, ⟨⟨[4, 4], [5, 5]⟩, 8⟩] :
        List (RTreeBranch ℤ)) 8 =
      deleteLeafFind 4 ([⟨⟨[9, 9], [9, 9]⟩, 7⟩, ⟨⟨[0, 0], [0, 0]⟩, 8⟩] :
        List (RTreeBranch ℤ)) 8 :=
  RTreeDeleteRectF_matches_by_id.1 4 8
    [⟨⟨[0, 0], [1, 1]⟩, 7⟩, ⟨⟨[4, 4], [5, 5]⟩, 8⟩]
    [⟨⟨[9, 9], [9, 9]⟩, 7⟩, ⟨⟨[0, 0], [0, 0]⟩, 8⟩] (by decide)

theorem getNode_putNode (t : RTree α) (pos q : Int) (n : RTreeNode α) :
    RTreeGetNode (RTreePutNode t pos n) q =
      if q = pos then some n else RTreeGetNode t q := by
  by_cases h : q = pos
  · simp [RTreeGetNode, RTreePutNode, List.lookup, h]
  · simp only [RTreeGetNode, RTreePutNode, List.lookup]
    rw [beq_eq_false_iff_ne.mpr h]
    simp [h]

/-- C8: in the upward unwinding of insertion (result: branch added) and
deletion (child still at minimum fill), the ancestor's branch rectangle
for the visited child is recomputed (combined with the inserted
rectangle, respectively the child's recomputed node cover) and written
back only if it differs from the stored one; an equal rectangle causes
no write at all, and in either case no other branch of the ancestor and
no other stored node is modified. -/
theorem unwind_rect_update_frame :
    (∀ (t : RTree α) (n : RTreeNode α) (pos : Int) (i : Nat) (nr : RTreeRect α),
       RTreeCompareRect nr ((n.branch.getD i dfltBranch).rect) = true →
       condUpdateRect t n pos i nr = (n, t)) ∧
    (∀ (t : RTree α) (n : RTreeNode α) (pos : Int) (i : Nat) (nr : RTreeRect α),
       RTreeCompareRect nr ((n.branch.getD i dfltBranch).rect) = false →
       (condUpdateRect t n pos i nr).1.count = n.count ∧
       (condUpdateRect t n pos i nr).1.level = n.level ∧
       (∀ j, j ≠ i →
         (condUpdateRect t n pos i nr).1.branch[j]? = n.branch[j]?) ∧
       (i < n.branch.length →
         (condUpdateRect t n pos i nr).1.branch[i]? =
           some ⟨nr, (n.branch.getD i dfltBranch).child⟩) ∧
       (∀ q, q ≠ pos →
         RTreeGetNode (condUpdateRect t n pos i nr).2 q = RTreeGetNode t q) ∧
       RTreeGetNode (condUpdateRect t n pos i nr).2 pos =
         some (condUpdateRect t n pos i nr).1) ∧
    (∀ (sv : RTreeRect α → α) (r : RTreeRect α) (p : fstack α) rest cnode st,
       st.result = 0 →
       insertUnwind sv r (p :: rest) cnode st =
         insertUnwind sv r rest
           (condUpdateRect st.t p.sn p.pos p.branch_id
             (RTreeCombineRect ((p.sn.branch.getD p.branch_id dfltBranch).rect)
               r)).1
           { st with t := (condUpdateRect st.t p.sn p.pos p.branch_id
             (RTreeCombineRect ((p.sn.branch.getD p.branch_id dfltBranch).rect)
               r)).2 }) ∧
    (∀ (sv : RTreeRect α → α) (r : RTreeRect α) (p : fstack α) rest cnode st,
       st.result = 2 →
       insertUnwind sv r (p :: rest) cnode st =
         insertUnwind sv r rest
           (condUpdateRect st.t p.sn p.pos p.branch_id
             (RTreeNodeCover cnode)).1
           { st with t := (condUpdateRect st.t p.sn p.pos p.branch_id
             (RTreeNodeCover cnode)).2 }) ∧
    (∀ (t : RTree α) (p : fstack α) rest (cnode : RTreeNode α) ee,
       cnode.count ≥
         (if cnode.level > 0 then t.min_node_fill else t.min_leaf_fill) →
       deleteUnwind t (p :: rest) cnode ee =
         deleteUnwind
           (condUpdateRect t p.sn p.pos (p.branch_id - 1)
             (RTreeNodeCover cnode)).2 rest
           (condUpdateRect t p.sn p.pos (p.branch_id - 1)
             (RTreeNodeCover cnode)).1 ee) := by
  refine ⟨?_, ?_, ?_, ?_, ?_⟩
  · intro t n pos i nr h
    unfold condUpdateRect
    rw [if_pos h]
  · intro t n pos i nr h
    unfold condUpdateRect
    rw [if_neg (by rw [h]; exact Bool.false_ne_true)]
    unfold RTreeUpdateRect
    refine ⟨rfl, rfl, ?_, ?_, ?_, ?_⟩
    · intro j hj
      exact List.getElem?_set_ne (fun he => hj he.symm)
    · intro hi
      rw [List.getElem?_set_self hi]
    · intro q hq
      rw [getNode_putNode]
      simp [hq]
    · rw [getNode_putNode]
      simp
  · intro sv r p rest cnode st hres
    simp only [insertUnwind]
    rw [if_pos hres]
  · intro sv r p rest cnode st hres
    simp only [insertUnwind]
    rw [if_neg (by omega), if_pos hres]
  · intro t p rest cnode ee h
    simp only [deleteUnwind]
    rw [if_pos h]

/-- Witness for C8's theorem: a concrete no-op update (equal rectangle)
via part 1. -/
theorem unwind_rect_update_frame_wit :
    condUpdateRect (⟨2, 4, 4, 2, 2, 0, false, 0, 0, 1, 1, 1,
        [(0, ⟨0, 1, [⟨⟨[1, 1], [2, 2]⟩, 5⟩]⟩)]⟩ : RTree ℤ)
      ⟨0, 1, [⟨⟨[1, 1], [2, 2]⟩, 5⟩]⟩ 0 0 ⟨[1, 1], [2, 2]⟩ =
      (⟨0, 1, [⟨⟨[1, 1], [2, 2]⟩, 5⟩]⟩,
       ⟨2, 4, 4, 2, 2, 0, false, 0, 0, 1, 1, 1,
        [(0, ⟨0, 1, [⟨⟨[1, 1], [2, 2]⟩, 5⟩]⟩)]⟩) :=
  unwind_rect_update_frame.1 _ ⟨0, 1, [⟨⟨[1, 1], [2, 2]⟩, 5⟩]⟩ 0 0
    ⟨[1, 1], [2, 2]⟩ (by decide)

theorem sameShape_refl (t : RTree α) : sameShape t t :=
  ⟨rfl, rfl, rfl, rfl, rfl, rfl, rfl, rfl, rfl⟩

theorem sameShape_trans {t1 t2 t3 : RTree α} (h1 : sameShape t1 t2)
    (h2 : sameShape t2 t3) : sameShape t1 t3 := by
  obtain ⟨a1, a2, a3, a4, a5, a6, a7, a8, a9⟩ := h1
  obtain ⟨b1, b2, b3, b4, b5, b6, b7, b8, b9⟩ := h2
  exact ⟨a1.trans b1, a2.trans b2, a3.trans b3, a4.trans b4, a5.trans b5,
    a6.trans b6, a7.trans b7, a8.trans b8, a9.trans b9⟩

theorem sameShape_putNode (t : RTree α) (pos : Int) (n : RTreeNode α) :
    sameShape (RTreePutNode t pos n) t :=
  ⟨rfl, rfl, rfl, rfl, rfl, rfl, rfl, rfl, rfl⟩

theorem sameShape_writeNode (t : RTree α) (n : RTreeNode α) :
    sameShape (RTreeWriteNode t n) t :=
  ⟨rfl, rfl, rfl, rfl, rfl, rfl, rfl, rfl, rfl⟩

theorem sameShape_condUpdate (t : RTree α) (n : RTreeNode α) (pos : Int)
    (i : Nat) (nr : RTreeRect α) :
    sameShape (condUpdateRect t n pos i nr).2 t := by
  unfold condUpdateRect
  split
  · exact sameShape_refl t
  · exact sameShape_putNode t pos _

theorem insertUnwind_sameShape (sv : RTreeRect α → α) (r : RTreeRect α) :
    ∀ (frames : List (fstack α)) (cnode : RTreeNode α) (st : IUState α),
      sameShape (insertUnwind sv r frames cnode st).t st.t := by
  intro frames
  induction frames with
  | nil => intro cnode st; exact sameShape_refl st.t
  | cons p rest ih =>
    intro cnode st
    simp only [insertUnwind]
    split
    · exact sameShape_trans (ih _ _) (sameShape_condUpdate _ _ _ _ _)
    · split
      · exact sameShape_trans (ih _ _) (sameShape_condUpdate _ _ _ _ _)
      · split
        · exact sameShape_trans (ih _ _)
            ⟨rfl, rfl, rfl, rfl, rfl, rfl, rfl, rfl, rfl⟩
        · exact sameShape_trans (ih _ _)
            ⟨rfl, rfl, rfl, rfl, rfl, rfl, rfl, rfl, rfl⟩

theorem insert2_sameShape (sv : RTreeRect α → α) (fuel : Nat)
    (r : RTreeRect α) (child : Int) (level : Nat) (t : RTree α)
    (ov : List Bool) (out : I2Out α)
    (h : RTreeInsertRect2F sv fuel r child level t ov = some out) :
    sameShape out.t t := by
  unfold RTreeInsertRect2F at h
  split at h
  · cases h
  · split at h
    · cases h
    · cases h
    · rename_i rootn hroot f parents hdesc
      cases h
      refine sameShape_trans (insertUnwind_sameShape sv r parents _ _) ?_
      refine sameShape_trans (sameShape_putNode _ _ _) ?_
      split
      · exact ⟨rfl, rfl, rfl, rfl, rfl, rfl, rfl, rfl, rfl⟩
      · exact sameShape_refl t

theorem validBranch_empty (d L : Nat) :
    validBranch L (emptyBranch d L : RTreeBranch α) = false := by
  by_cases hL : L > 0 <;>
    simp [validBranch, emptyBranch, RTreeValidChildF, hL]

theorem filter_replicate_false {β : Type} (p : β → Bool) (x : β)
    (hx : p x = false) : ∀ n, List.filter p (List.replicate n x) = [] := by
  intro n
  induction n with
  | zero => rfl
  | succ n ih => simp [List.replicate_succ, List.filter_cons, hx, ih]

theorem addSimple_fresh_two (L card d : Nat) (hL : L > 0) (hcard : 2 ≤ card)
    (b1 b2 : RTreeBranch α) (hv1 : validBranch L b1 = true)
    (hv2 : validBranch L b2 = true) :
    (RTreeAddBranchSimple b2 (RTreeAddBranchSimple b1
        ⟨L, 0, List.replicate card (emptyBranch d L)⟩)).level = L ∧
    (RTreeAddBranchSimple b2 (RTreeAddBranchSimple b1
        ⟨L, 0, List.replicate card (emptyBranch d L)⟩)).count = 2 ∧
    activeBranches (RTreeAddBranchSimple b2 (RTreeAddBranchSimple b1
        ⟨L, 0, List.replicate card (emptyBranch d L)⟩)) = [b1, b2] := by
  obtain ⟨c, rfl⟩ : ∃ c, card = c + 2 :=
    ⟨card - 2, by omega⟩
  have he := validBranch_empty (α := α) d L
  have h1 : RTreeAddBranchSimple b1
      (⟨L, 0, List.replicate (c + 2) (emptyBranch d L)⟩ : RTreeNode α) =
      ⟨L, 1, b1 :: List.replicate (c + 1) (emptyBranch d L)⟩ := by
    simp only [RTreeAddBranchSimple]
    rw [show c + 2 = (c + 1) + 1 by omega, List.replicate_succ]
    rw [List.findIdx?_cons]
    simp [he]
  rw [h1]
  have h2 : RTreeAddBranchSimple b2
      (⟨L, 1, b1 :: List.replicate (c + 1) (emptyBranch d L)⟩ : RTreeNode α) =
      ⟨L, 2, b1 :: b2 :: List.replicate c (emptyBranch d L)⟩ := by
    simp only [RTreeAddBranchSimple]
    rw [List.findIdx?_cons]
    simp only [hv1, Bool.not_true]
    rw [List.replicate_succ, List.findIdx?_cons]
    simp [he]
  rw [h2]
  refine ⟨rfl, rfl, ?_⟩
  simp [activeBranches, List.filter_cons, hv1, hv2,
    filter_replicate_false _ _ he]

/-- C7: when the descent pass `RTreeInsertRect2F` reports a root split
(result 1), `RTreeInsertRectF` creates a brand-new root one level above
the old root level, containing exactly two branches - one whose
rectangle is the node cover of the old root with the old root position
as child, and one whose rectangle is the node cover of the new sibling
with the sibling's storage position as child - then points `rootpos` at
the new root's position and increments `rootlevel` by one. -/
theorem RTreeInsertRectF_root_split (sv : RTreeRect α → α) (fuel : Nat)
    (r : RTreeRect α) (child : Int) (level : Nat) (t : RTree α)
    (out : I2Out α) (oldroot : RTreeNode α)
    (h2 : RTreeInsertRect2F sv fuel r child level t
      (List.replicate MAXLEVEL t.overflow) = some out)
    (hres : out.result = 1)
    (hroot : RTreeGetNode out.t out.t.rootpos = some oldroot)
    (hcard : 2 ≤ t.nodecard)
    (hb1 : RTreeValidChildF out.t.rootpos = true)
    (hb2 : RTreeValidChildF out.newnode_pos = true) :
    ∃ t', RTreeInsertRectF sv fuel r child level t =
        some (1, t', out.events) ∧
      out.t.rootpos = t.rootpos ∧ out.t.rootlevel = t.rootlevel ∧
      t'.rootlevel = t.rootlevel + 1 ∧
      t'.rootpos = RTreeGetNodePos out.t ∧
      ∃ newroot, RTreeGetNode t' t'.rootpos = some newroot ∧
        newroot.level = t.rootlevel + 1 ∧ newroot.count = 2 ∧
        activeBranches newroot =
          [⟨RTreeNodeCover oldroot, out.t.rootpos⟩,
           ⟨RTreeNodeCover out.newnode, out.newnode_pos⟩] := by
  have hshape := insert2_sameShape sv fuel r child level t _ out h2
  obtain ⟨hnd, hnc, hlc, hmn, hml, hme, hov, hrp, hrl⟩ := hshape
  have hvb1 : validBranch (out.t.rootlevel + 1)
      (⟨RTreeNodeCover oldroot, out.t.rootpos⟩ : RTreeBranch α) = true := by
    simp [validBranch]
    exact hb1
  have hvb2 : validBranch (out.t.rootlevel + 1)
      (⟨RTreeNodeCover out.newnode, out.newnode_pos⟩ : RTreeBranch α)
      = true := by
    simp [validBranch]
    exact hb2
  have hfresh := addSimple_fresh_two (α := α) (out.t.rootlevel + 1)
    out.t.nodecard out.t.ndims (by omega) (by omega)
    ⟨RTreeNodeCover oldroot, out.t.rootpos⟩
    ⟨RTreeNodeCover out.newnode, out.newnode_pos⟩ hvb1 hvb2
  have hgrow : growRootF out.t out.newnode out.newnode_pos =
      some { RTreeWriteNode { out.t with rootlevel := out.t.rootlevel + 1 }
          (RTreeAddBranchSimple ⟨RTreeNodeCover out.newnode, out.newnode_pos⟩
            (RTreeAddBranchSimple ⟨RTreeNodeCover oldroot, out.t.rootpos⟩
              (RTreeInitNode { out.t with rootlevel := out.t.rootlevel + 1 }
                (out.t.rootlevel + 1)))) with
        rootpos := out.t.nextpos, n_nodes := out.t.n_nodes + 1 } := by
    unfold growRootF
    rw [hroot]
    rfl
  have hinit : RTreeInitNode
      { out.t with rootlevel := out.t.rootlevel + 1 }
      (out.t.rootlevel + 1) =
      (⟨out.t.rootlevel + 1, 0, List.replicate out.t.nodecard
        (emptyBranch out.t.ndims (out.t.rootlevel + 1))⟩ : RTreeNode α) := by
    simp [RTreeInitNode, MAXKIDS]
  rw [hinit] at hgrow
  refine ⟨{ RTreeWriteNode { out.t with rootlevel := out.t.rootlevel + 1 }
      (RTreeAddBranchSimple ⟨RTreeNodeCover out.newnode, out.newnode_pos⟩
        (RTreeAddBranchSimple ⟨RTreeNodeCover oldroot, out.t.rootpos⟩
          (⟨out.t.rootlevel + 1, 0, List.replicate out.t.nodecard
            (emptyBranch out.t.ndims (out.t.rootlevel + 1))⟩ : RTreeNode α)))
      with rootpos := out.t.nextpos, n_nodes := out.t.n_nodes + 1 },
    ?_, hrp, hrl, ?_, ?_, ?_⟩
  · unfold RTreeInsertRectF
    dsimp only
    rw [h2]
    dsimp only
    rw [if_pos hres, hgrow]
  · show out.t.rootlevel + 1 = t.rootlevel + 1
    rw [hrl]
  · rfl
  · refine ⟨_, ?_, ?_, hfresh.2.1, hfresh.2.2⟩
    · show RTreeGetNode _ _ = _
      simp only [RTreeGetNode, RTreeWriteNode]
      have hb : (out.t.nextpos == out.t.nextpos) = true := beq_self_eq_true _
      simp [List.lookup, hb]
    · rw [hfresh.1, hrl]

set_option maxRecDepth 100000 in
/-- Witness for C7's theorem: inserting (5,5)-(6,6) into the full
one-leaf tree splits the root; the new root holds exactly the two
covering branches. -/
theorem RTreeInsertRectF_root_split_wit :
    ∃ t', RTreeInsertRectF RTreeRectVolume 9 (⟨[5, 5], [6, 6]⟩ : RTreeRect ℤ)
        3 0 exTreeC7 = some (1, t', exOutC7.events) ∧
      exOutC7.t.rootpos = exTreeC7.rootpos ∧
      exOutC7.t.rootlevel = exTreeC7.rootlevel ∧
      t'.rootlevel = exTreeC7.rootlevel + 1 ∧
      t'.rootpos = RTreeGetNodePos exOutC7.t ∧
      ∃ newroot, RTreeGetNode t' t'.rootpos = some newroot ∧
        newroot.level = exTreeC7.rootlevel + 1 ∧ newroot.count = 2 ∧
        activeBranches newroot =
          [⟨RTreeNodeCover ⟨0, 2, [⟨⟨[0, 0], [1, 1]⟩, 1⟩, ⟨⟨[2, 2], [3, 3]⟩, 2⟩]⟩,
             exOutC7.t.rootpos⟩,
           ⟨RTreeNodeCover exOutC7.newnode, exOutC7.newnode_pos⟩] :=
  RTreeInsertRectF_root_split RTreeRectVolume 9 ⟨[5, 5], [6, 6]⟩ 3 0
    exTreeC7 exOutC7 ⟨0, 2, [⟨⟨[0, 0], [1, 1]⟩, 1⟩, ⟨⟨[2, 2], [3, 3]⟩, 2⟩]⟩
    (by decide) (by decide) (by decide) (by decide) (by decide) (by decide)

theorem OverflowOK_refl (ov : List Bool) : OverflowOK ov ov [] :=
  ⟨fun _ => by simp, fun _ h => absurd h (List.not_mem_nil _),
   fun _ h => ⟨h, List.not_mem_nil _⟩⟩

theorem OverflowOK_comp {ov1 ov2 ov3 : List Bool} {e1 e2 : List Nat}
    (h1 : OverflowOK ov1 ov2 e1) (h2 : OverflowOK ov2 ov3 e2) :
    OverflowOK ov1 ov3 (e1 ++ e2) := by
  obtain ⟨c1, f1, s1⟩ := h1
  obtain ⟨c2, f2, s2⟩ := h2
  refine ⟨?_, ?_, ?_⟩
  · intro l
    rw [List.count_append]
    by_cases hm : l ∈ e1
    · have : l ∉ e2 := by
        intro hm2
        have := (f2 l hm2).1
        rw [(f1 l hm).2] at this
        cases this
      rw [List.count_eq_zero.mpr this]
      have := c1 l
      omega
    · rw [List.count_eq_zero.mpr hm]
      have := c2 l
      omega
  · intro l hm
    rcases List.mem_append.mp hm with hm1 | hm2
    · refine ⟨(f1 l hm1).1, ?_⟩
      by_cases h3 : ov3.getD l false = true
      · have := (s2 l h3).1
        rw [(f1 l hm1).2] at this
        cases this
      · exact Bool.not_eq_true _ ▸ h3
    · exact ⟨(s1 l (f2 l hm2).1).1, (f2 l hm2).2⟩
  · intro l h3
    obtain ⟨h2t, hne2⟩ := s2 l h3
    obtain ⟨h1t, hne1⟩ := s1 l h2t
    exact ⟨h1t, by simp [List.mem_append, hne1, hne2]⟩

theorem OverflowOK_set (ov : List Bool) (lev : Nat)
    (hl : ov.getD lev false = true) :
    OverflowOK ov (ov.set lev false) [lev] := by
  have hlen : lev < ov.length := by
    by_contra hge
    rw [List.getD_eq_default] at hl
    · cases hl
    · omega
  refine ⟨?_, ?_, ?_⟩
  · intro l
    by_cases h : l = lev <;> simp [List.count_cons, h]
  · intro l hm
    rw [List.mem_singleton] at hm
    subst hm
    refine ⟨hl, ?_⟩
    rw [List.getD_eq_getElem?_getD, List.getElem?_set_self hlen]
    rfl
  · intro l h3
    by_cases he : l = lev
    · subst he
      rw [List.getD_eq_getElem?_getD, List.getElem?_set_self hlen] at h3
      cases h3
    · constructor
      · rw [List.getD_eq_getElem?_getD,
          List.getElem?_set_ne (fun hx => he hx.symm)] at h3
        rw [List.getD_eq_getElem?_getD]
        exact h3
      · simp [he]

theorem addBranch_overflowOK (sv : RTreeRect α → α) (t : RTree α)
    (b : RTreeBranch α) (n : RTreeNode α) (cover : Option (RTreeRect α))
    (ov : List Bool) :
    OverflowOK ov (RTreeAddBranch sv t b n cover ov).ov
      (RTreeAddBranch sv t b n cover ov).events := by
  unfold RTreeAddBranch
  split
  · exact OverflowOK_refl ov
  · split
    · rename_i hfl
      exact OverflowOK_set ov n.level hfl
    · exact OverflowOK_refl ov

theorem insertUnwind_cons_spec (sv : RTreeRect α → α) (r : RTreeRect α)
    (p : fstack α) (rest : List (fstack α)) (cnode : RTreeNode α)
    (st : IUState α) :
    ∃ cn' st' evA, insertUnwind sv r (p :: rest) cnode st =
        insertUnwind sv r rest cn' st' ∧
      OverflowOK st.ov st'.ov evA ∧ st'.events = st.events ++ evA := by
  simp only [insertUnwind]
  split
  · exact ⟨_, _, [], rfl, OverflowOK_refl st.ov, by simp⟩
  · split
    · exact ⟨_, _, [], rfl, OverflowOK_refl st.ov, by simp⟩
    · split
      · exact ⟨_, _, _, rfl, addBranch_overflowOK sv st.t _ _ _ st.ov, rfl⟩
      · exact ⟨_, _, _, rfl, addBranch_overflowOK sv st.t _ _ _ st.ov, rfl⟩

theorem insertUnwind_overflowOK (sv : RTreeRect α → α) (r : RTreeRect α) :
    ∀ (frames : List (fstack α)) (cnode : RTreeNode α) (st : IUState α),
      ∃ evs', (insertUnwind sv r frames cnode st).events = st.events ++ evs' ∧
        OverflowOK st.ov (insertUnwind sv r frames cnode st).ov evs' := by
  intro frames
  induction frames with
  | nil =>
    intro cnode st
    exact ⟨[], by simp [insertUnwind], OverflowOK_refl st.ov⟩
  | cons p rest ih =>
    intro cnode st
    obtain ⟨cn', st', evA, heq, hokA, hev⟩ :=
      insertUnwind_cons_spec sv r p rest cnode st
    rw [heq]
    obtain ⟨e', he, hok⟩ := ih cn' st'
    refine ⟨evA ++ e', ?_, OverflowOK_comp hokA hok⟩
    rw [he, hev, List.append_assoc]

theorem insert2_overflowOK (sv : RTreeRect α → α) (fuel : Nat)
    (r : RTreeRect α) (child : Int) (level : Nat) (t : RTree α)
    (ov : List Bool) (out : I2Out α)
    (h : RTreeInsertRect2F sv fuel r child level t ov = some out) :
    OverflowOK ov out.ov out.events := by
  unfold RTreeInsertRect2F at h
  split at h
  · cases h
  · split at h
    · cases h
    · cases h
    · rename_i rootn hroot f parents hdesc
      cases h
      obtain ⟨e', he, hok⟩ := insertUnwind_overflowOK sv r parents _
        ⟨(RTreeAddBranch sv t ⟨r, child⟩ f.sn _ ov).result, _,
         (RTreeAddBranch sv t ⟨r, child⟩ f.sn _ ov).n2, _,
         (RTreeAddBranch sv t ⟨r, child⟩ f.sn _ ov).ee,
         (RTreeAddBranch sv t ⟨r, child⟩ f.sn _ ov).ov,
         (RTreeAddBranch sv t ⟨r, child⟩ f.sn _ ov).events⟩
      simp only
      rw [he]
      exact OverflowOK_comp (addBranch_overflowOK sv t _ _ _ ov) hok

theorem reinsertLoop_overflowOK (sv : RTreeRect α → α) (fuel0 : Nat) :
    ∀ (fuel : Nat) (list : List (RTreeListBranch α)) (ov : List Bool)
      (t : RTree α) (res : Nat) (evs : List Nat) (res' : Nat) (t' : RTree α)
      (evs' : List Nat),
      insertReinsertLoop sv fuel0 fuel list ov t res evs =
        some (res', t', evs') →
      ∃ e2 ovF, evs' = evs ++ e2 ∧ OverflowOK ov ovF e2 := by
  intro fuel
  induction fuel with
  | zero => intro list ov t res evs res' t' evs' h; cases h
  | succ fuel ih =>
    intro list ov t res evs res' t' evs' h
    cases list with
    | nil =>
      cases h
      exact ⟨[], ov, by simp, OverflowOK_refl ov⟩
    | cons e rest =>
      rw [insertReinsertLoop] at h
      cases h2 : RTreeInsertRect2F sv fuel0 e.b.rect e.b.child e.level t ov with
      | none => rw [h2] at h; cases h
      | some out =>
        rw [h2] at h
        dsimp only at h
        have hout := insert2_overflowOK sv fuel0 e.b.rect e.b.child e.level
          t ov out h2
        by_cases hres : out.result = 1
        · rw [if_pos hres] at h
          cases hgrow : growRootF out.t out.newnode out.newnode_pos with
          | none => rw [hgrow] at h; cases h
          | some tg =>
            rw [hgrow] at h
            obtain ⟨e2, ovF, hevs, hok⟩ := ih _ _ _ _ _ _ _ _ h
            exact ⟨out.events ++ e2, ovF,
              by rw [hevs, List.append_assoc], OverflowOK_comp hout hok⟩
        · rw [if_neg hres] at h
          obtain ⟨e2, ovF, hevs, hok⟩ := ih _ _ _ _ _ _ _ _ h
          exact ⟨out.events ++ e2, ovF,
            by rw [hevs, List.append_assoc], OverflowOK_comp hout hok⟩

theorem getD_replicate_false (n i : Nat) :
    (List.replicate n false).getD i false = false := by
  rw [List.getD_eq_getElem?_getD]
  cases h : (List.replicate n false)[i]? with
  | none => rfl
  | some b =>
    have := List.getElem?_mem h
    rw [List.eq_of_mem_replicate this]
    rfl

/-- C4: during one top-level `RTreeInsertRectF` call, forced reinsertion
happens at most once per tree level - the overflow flag array is
initialized once at entry, every reinsertion pass reuses it without
resetting, and the ghost log of forced-reinsertion events therefore
contains no level twice; with the quadratic strategy (initial flags all
clear) no forced reinsertion happens at all. -/
theorem RTreeInsertRectF_reinsert_once (sv : RTreeRect α → α) (fuel : Nat)
    (r : RTreeRect α) (child : Int) (level : Nat) (t : RTree α) (res : Nat)
    (t' : RTree α) (evs : List Nat)
    (h : RTreeInsertRectF sv fuel r child level t = some (res, t', evs)) :
    evs.Nodup ∧ (t.overflow = false → evs = []) := by
  have hmain : ∃ ovF, OverflowOK (List.replicate MAXLEVEL t.overflow) ovF
      evs := by
    unfold RTreeInsertRectF at h
    dsimp only at h
    cases h2 : RTreeInsertRect2F sv fuel r child level t
        (List.replicate MAXLEVEL t.overflow) with
    | none => rw [h2] at h; cases h
    | some out =>
      rw [h2] at h
      dsimp only at h
      have hout := insert2_overflowOK sv fuel r child level t _ out h2
      by_cases hres : out.result = 1
      · rw [if_pos hres] at h
        cases hgrow : growRootF out.t out.newnode out.newnode_pos with
        | none => rw [hgrow] at h; cases h
        | some tg =>
          rw [hgrow] at h
          cases h
          exact ⟨out.ov, hout⟩
      · rw [if_neg hres] at h
        by_cases hres2 : out.result = 2
        · rw [if_pos hres2] at h
          obtain ⟨e2, ovF, hevs, hok⟩ :=
            reinsertLoop_overflowOK sv fuel fuel out.ee out.ov out.t 2
              out.events res t' evs h
          subst hevs
          exact ⟨ovF, OverflowOK_comp hout hok⟩
        · rw [if_neg hres2] at h
          cases h
          exact ⟨out.ov, hout⟩
  obtain ⟨ovF, hc, hf, _⟩ := hmain
  constructor
  · rw [List.nodup_iff_count_le_one]
    exact hc
  · intro hov
    rw [List.eq_nil_iff_forall_not_mem]
    intro l hl
    have := (hf l hl).1
    rw [hov, getD_replicate_false] at this
    cases this

/-- Witness for C4's theorem: a plain insert into a non-full leaf fires
no forced reinsertion, so the event log is trivially duplicate-free. -/
theorem RTreeInsertRectF_reinsert_once_wit :
    ([] : List Nat).Nodup ∧
      ((⟨2, 2, 2, 1, 1, 0, false, 0, 0, 1, 1, 1,
        [(0, ⟨0, 1, [⟨⟨[1, 1], [2, 2]⟩, 5⟩, ⟨⟨[0, 0], [0, 0]⟩, 0⟩]⟩)]⟩ :
          RTree ℤ).overflow = false → ([] : List Nat) = []) :=
  RTreeInsertRectF_reinsert_once RTreeRectVolume 9
    (⟨[3, 3], [4, 4]⟩ : RTreeRect ℤ) 9 0
    ⟨2, 2, 2, 1, 1, 0, false, 0, 0, 1, 1, 1,
      [(0, ⟨0, 1, [⟨⟨[1, 1], [2, 2]⟩, 5⟩, ⟨⟨[0, 0], [0, 0]⟩, 0⟩]⟩)]⟩
    0
    ⟨2, 2, 2, 1, 1, 0, false, 0, 0, 1, 1, 1,
      [(0, ⟨0, 2, [⟨⟨[1, 1], [2, 2]⟩, 5⟩, ⟨⟨[3, 3], [4, 4]⟩, 9⟩]⟩),
       (0, ⟨0, 1, [⟨⟨[1, 1], [2, 2]⟩, 5⟩, ⟨⟨[0, 0], [0, 0]⟩, 0⟩]⟩)]⟩
    [] (by decide)

set_option maxRecDepth 100000 in
/-- C1: the axis-choice phase of `RTreeMethodOne` does not select the
axis minimizing the total margin sum.  On `bufC1` the code returns
`best_axis = 0` with `smallest_margin` still at its initial value 0
(the comparison `margin <= smallest_margin` can never fire for positive
margins, because `smallest_margin` is initialized to 0 while the
`DBL_MAX` sentinel is assigned to the dead variable `margin`), although
axis 1 has the strictly smaller total margin sum required by the spec
and by the function's own comment. -/
theorem RTreeMethodOne_axis_choice_bug :
    (moChooseAxis 2 2 5 4 bufC1).baxis = 0 ∧
    (moChooseAxis 2 2 5 4 bufC1).smargin = 0 ∧
    specAxisTotalMargin 2 bufC1 2 1 < specAxisTotalMargin 2 bufC1 2 0 ∧
    specAxisTotalMargin 2 bufC1 2 0 = 136 ∧
    specAxisTotalMargin 2 bufC1 2 1 = 112 :=
  ⟨by decide, by decide, by decide, by decide, by decide⟩

theorem getD_zipWith (f : α → α → α) :
    ∀ (l1 l2 : List α) (i : Nat) (d1 d2 dd : α), i < l1.length →
      i < l2.length →
      (List.zipWith f l1 l2).getD i dd = f (l1.getD i d1) (l2.getD i d2) := by
  intro l1
  induction l1 with
  | nil => intro l2 i d1 d2 dd h1; simp at h1
  | cons x tl ih =>
    intro l2 i d1 d2 dd h1 h2
    cases l2 with
    | nil => simp at h2
    | cons y tl2 =>
      cases i with
      | zero => rfl
      | succ i' =>
        simp only [List.zipWith_cons_cons, List.getD_cons_succ]
        exact ih tl2 i' d1 d2 dd (by simpa using h1) (by simpa using h2)

theorem combine_good (d : Nat) (M : α) (a b : RTreeRect α)
    (ha : RectGood d M a) (hb : RectGood d M b) :
    RectGood d M (RTreeCombineRect a b) := by
  obtain ⟨hal, hah, hai⟩ := ha
  obtain ⟨hbl, hbh, hbi⟩ := hb
  refine ⟨?_, ?_, ?_⟩
  · simp [RTreeCombineRect, hal, hbl]
  · simp [RTreeCombineRect, hah, hbh]
  · intro i hi
    have h1 := hai i hi
    have h2 := hbi i hi
    simp only [RTreeCombineRect]
    rw [getD_zipWith min a.lo b.lo i 0 0 0 (by omega) (by omega),
      getD_zipWith max a.hi b.hi i 0 0 0 (by omega) (by omega)]
    refine ⟨le_min h1.1 h2.1, max_le h1.2.1 h2.2.1, ?_⟩
    calc min (a.lo.getD i 0) (b.lo.getD i 0) ≤ a.lo.getD i 0 := min_le_left _ _
      _ ≤ a.hi.getD i 0 := h1.2.2
      _ ≤ max (a.hi.getD i 0) (b.hi.getD i 0) := le_max_left _ _

theorem SubRect_refl (r : RTreeRect α) : SubRect r r :=
  ⟨rfl, rfl, fun _ _ => le_refl _, fun _ _ => le_refl _⟩

theorem SubRect_trans {a b c : RTreeRect α} (h1 : SubRect a b)
    (h2 : SubRect b c) : SubRect a c := by
  obtain ⟨l1, h1b, lo1, hi1⟩ := h1
  obtain ⟨l2, h2b, lo2, hi2⟩ := h2
  refine ⟨l1.trans l2, h1b.trans h2b, ?_, ?_⟩
  · intro i hi
    exact le_trans (lo2 i (by omega)) (lo1 i hi)
  · intro i hi
    exact le_trans (hi1 i hi) (hi2 i (by omega))

theorem sub_combine_left (d : Nat) (a b : RTreeRect α)
    (hal : a.lo.length = d) (hah : a.hi.length = d)
    (hbl : b.lo.length = d) (hbh : b.hi.length = d) :
    SubRect a (RTreeCombineRect a b) := by
  dsimp only [RTreeCombineRect, SubRect]
  refine ⟨?_, ?_, ?_, ?_⟩
  · simp [hal, hbl]
  · simp [hah, hbh]
  · intro i hi
    rw [getD_zipWith min a.lo b.lo i 0 0 0 (by omega) (by omega)]
    exact min_le_left _ _
  · intro i hi
    rw [getD_zipWith max a.hi b.hi i 0 0 0 (by omega) (by omega)]
    exact le_max_left _ _

theorem sub_combine_right (d : Nat) (a b : RTreeRect α)
    (hal : a.lo.length = d) (hah : a.hi.length = d)
    (hbl : b.lo.length = d) (hbh : b.hi.length = d) :
    SubRect b (RTreeCombineRect a b) := by
  dsimp only [RTreeCombineRect, SubRect]
  refine ⟨?_, ?_, ?_, ?_⟩
  · simp [hal, hbl]
  · simp [hah, hbh]
  · intro i hi
    rw [getD_zipWith min a.lo b.lo i 0 0 0 (by omega) (by omega)]
    exact min_le_right _ _
  · intro i hi
    rw [getD_zipWith max a.hi b.hi i 0 0 0 (by omega) (by omega)]
    exact le_max_right _ _

theorem rectGood_lengths {d : Nat} {M : α} {r : RTreeRect α}
    (h : RectGood d M r) : r.lo.length = d ∧ r.hi.length = d :=
  ⟨h.1, h.2.1⟩

theorem foldl_combine_spec (d : Nat) (M : α) :
    ∀ (bs : List (RTreeBranch α)) (acc : RTreeRect α),
      RectGood d M acc → (∀ br ∈ bs, RectGood d M br.rect) →
      RectGood d M (bs.foldl (fun a br => RTreeCombineRect a br.rect) acc) ∧
      SubRect acc (bs.foldl (fun a br => RTreeCombineRect a br.rect) acc) ∧
      ∀ br ∈ bs, SubRect br.rect
        (bs.foldl (fun a br => RTreeCombineRect a br.rect) acc) := by
  intro bs
  induction bs with
  | nil =>
    intro acc hacc _
    exact ⟨hacc, SubRect_refl acc, fun br h => absurd h (List.not_mem_nil _)⟩
  | cons b bs ih =>
    intro acc hacc hall
    have hb := hall b (List.mem_cons_self _ _)
    have hcomb := combine_good d M acc b.rect hacc hb
    obtain ⟨hg, hsub, hmem⟩ := ih (RTreeCombineRect acc b.rect) hcomb
      (fun br h => hall br (List.mem_cons_of_mem _ h))
    refine ⟨hg, ?_, ?_⟩
    · exact SubRect_trans (sub_combine_left d acc b.rect hacc.1 hacc.2.1
        hb.1 hb.2.1) hsub
    · intro br hbr
      rcases List.mem_cons.mp hbr with rfl | hbr'
      · exact SubRect_trans (sub_combine_right d acc br.rect hacc.1 hacc.2.1
          hb.1 hb.2.1) hsub
      · exact hmem br hbr'

theorem coverSplit_spec (d : Nat) (M : α) (buf : List (RTreeBranch α))
    (hne : buf ≠ []) (hall : ∀ br ∈ buf, RectGood d M br.rect) :
    RectGood d M (CoverSplitOf buf) ∧
    ∀ br ∈ buf, SubRect br.rect (CoverSplitOf buf) := by
  cases buf with
  | nil => exact absurd rfl hne
  | cons b bs =>
    have hb := hall b (List.mem_cons_self _ _)
    obtain ⟨hg, hsub, hmem⟩ := foldl_combine_spec d M bs b.rect hb
      (fun br h => hall br (List.mem_cons_of_mem _ h))
    refine ⟨hg, ?_⟩
    intro br hbr
    rcases List.mem_cons.mp hbr with rfl | hbr'
    · exact hsub
    · exact hmem br hbr'

theorem getD_map_range (f : Nat → α) (d i : Nat) (dd : α) (h : i < d) :
    ((List.range d).map f).getD i dd = f i := by
  rw [List.getD_eq_getElem?_getD, List.getElem?_map, List.getElem?_range h]
  rfl

theorem zipSub_prod_bound (M : α) (hM : 0 ≤ M) :
    ∀ (hs ls : List α), hs.length = ls.length →
      (∀ i, i < hs.length → -M ≤ ls.getD i 0 ∧ hs.getD i 0 ≤ M ∧
        ls.getD i 0 ≤ hs.getD i 0) →
      0 ≤ (List.zipWith (fun h l => h - l) hs ls).prod ∧
      (List.zipWith (fun h l => h - l) hs ls).prod ≤ (2 * M) ^ hs.length := by
  intro hs
  induction hs with
  | nil => intro ls _ _; simp
  | cons h tl ih =>
    intro ls hlen hall
    cases ls with
    | nil => simp at hlen
    | cons l tl2 =>
      have h0 := hall 0 (by simp)
      simp only [List.getD_cons_zero] at h0
      have htl := ih tl2 (by simpa using hlen) (by
        intro i hi
        have := hall (i + 1) (by simpa using Nat.succ_lt_succ hi)
        simpa using this)
      have hnn : (0 : α) ≤ h - l := by linarith [h0.2.2]
      have hub : h - l ≤ 2 * M := by linarith [h0.1, h0.2.1]
      simp only [List.zipWith_cons_cons, List.prod_cons, List.length_cons]
      constructor
      · exact mul_nonneg hnn htl.1
      · calc (h - l) * (List.zipWith (fun h l => h - l) tl tl2).prod
            ≤ (2 * M) * (2 * M) ^ tl.length :=
              mul_le_mul hub htl.2 htl.1 (by linarith)
          _ = (2 * M) ^ (tl.length + 1) := by rw [pow_succ, mul_comm]

theorem vol_bound (d : Nat) (M : α) (hM : 0 ≤ M) (r : RTreeRect α)
    (hg : RectGood d M r) :
    0 ≤ RTreeRectVolume r ∧ RTreeRectVolume r ≤ (2 * M) ^ d := by
  obtain ⟨hl, hh, hi⟩ := hg
  unfold RTreeRectVolume
  have := zipSub_prod_bound M hM r.hi r.lo (by omega)
    (by intro i h; exact hi i (by omega))
  rw [hh] at this
  exact this

theorem moOverlapVal_bound (d : Nat) (M : α) (hM : 0 ≤ M)
    (t1 t2 : RTreeRect α) (h1 : RectGood d M t1) (h2 : RectGood d M t2) :
    0 ≤ moOverlapVal d t1 t2 ∧ moOverlapVal d t1 t2 ≤ (2 * M) ^ d := by
  unfold moOverlapVal
  split
  case isTrue hcond =>
    apply vol_bound d M hM
    refine ⟨by simp, by simp, ?_⟩
    intro i hid
    have hk := List.all_eq_true.mp hcond i (List.mem_range.mpr hid)
    have hk' : ¬(t1.lo.getD i 0 > t2.hi.getD i 0) ∧
        ¬(t1.hi.getD i 0 < t2.lo.getD i 0) := by simpa using hk
    have hpq1 : t1.lo.getD i 0 ≤ t2.hi.getD i 0 := not_lt.mp hk'.1
    have hpq2 : t2.lo.getD i 0 ≤ t1.hi.getD i 0 := not_lt.mp hk'.2
    have g1 := h1.2.2 i hid
    have g2 := h2.2.2 i hid
    rw [getD_map_range _ d i 0 hid, getD_map_range _ d i 0 hid]
    refine ⟨?_, ?_, ?_⟩
    · exact le_trans g1.1 (le_max_left _ _)
    · exact le_trans (min_le_left _ _) g1.2.1
    · exact le_min (max_le g1.2.2 hpq2) (max_le hpq1 g2.2.2)
  case isFalse =>
    have : (0 : α) ≤ 2 * M := by linarith
    exact ⟨le_refl 0, pow_nonneg this d⟩

theorem cons_set_perm {β : Type} (a : β) :
    ∀ (tl : List β) (k : Nat) (d : β), k < tl.length →
      (tl.getD k d :: tl.set k a).Perm (a :: tl) := by
  intro tl
  induction tl with
  | nil => intro k d h; simp at h
  | cons x r ih =>
    intro k d hk
    cases k with
    | zero =>
      simp only [List.getD_cons_zero, List.set_cons_zero]
      exact List.Perm.swap a x r
    | succ k2 =>
      simp only [List.getD_cons_succ, List.set_cons_succ]
      exact ((List.Perm.swap x (r.getD k2 d) (r.set k2 a)).trans
        ((ih k2 d (by simpa using hk)).cons x)).trans (List.Perm.swap a x r)

theorem set_set_getD_perm {β : Type} :
    ∀ (l : List β) (i j : Nat) (d : β), i < l.length → j < l.length →
      ((l.set i (l.getD j d)).set j (l.getD i d)).Perm l := by
  intro l
  induction l with
  | nil => intro i j d hi _; simp at hi
  | cons x tl ih =>
    intro i j d hi hj
    cases i with
    | zero =>
      cases j with
      | zero => simp
      | succ j2 =>
        simp only [List.getD_cons_zero, List.getD_cons_succ,
          List.set_cons_zero, List.set_cons_succ]
        exact cons_set_perm x tl j2 d (by simpa using hj)
    | succ i2 =>
      cases j with
      | zero =>
        simp only [List.getD_cons_zero, List.getD_cons_succ,
          List.set_cons_zero, List.set_cons_succ]
        exact cons_set_perm x tl i2 d (by simpa using hi)
      | succ j2 =>
        simp only [List.getD_cons_succ, List.set_cons_succ]
        exact (ih i2 j2 d (by simpa using hi) (by simpa using hj)).cons x

theorem swap_perm {buf : List (RTreeBranch α)} {i j : Nat}
    (hi : i < buf.length) (hj : j < buf.length) :
    (RTreeSwapBranches buf i j).Perm buf :=
  set_set_getD_perm buf i j dfltBranch hi hj

theorem partScan_spec (d side last : Nat) :
    ∀ (fuel fir piv : Nat) (buf : List (RTreeBranch α)),
      piv ≤ fir → piv ≤ last → last < buf.length →
      ((partScan d side last fuel fir piv buf).1).Perm buf ∧
      (partScan d side last fuel fir piv buf).2 ≤ last := by
  intro fuel
  induction fuel with
  | zero =>
    intro fir piv buf _ h2 _
    exact ⟨List.Perm.refl _, h2⟩
  | succ fuel ih =>
    intro fir piv buf h1 h2 h3
    simp only [partScan]
    split
    case isTrue hfl =>
      split
      case isTrue hcmp =>
        have hperm : (if piv ≠ fir then RTreeSwapBranches buf piv fir
            else buf).Perm buf := by
          split
          · exact swap_perm (by omega) (by omega)
          · exact List.Perm.refl _
        have hr := ih (fir + 1) (piv + 1) _ (by omega) (by omega)
          (by rw [hperm.length_eq]; exact h3)
        exact ⟨hr.1.trans hperm, hr.2⟩
      case isFalse =>
        exact ih (fir + 1) piv buf (by omega) h2 h3
    case isFalse =>
      exact ⟨List.Perm.refl _, h2⟩

theorem partPivot_le (d : Nat) (buf : List (RTreeBranch α))
    (first last side : Nat) (h : first ≤ last) :
    partPivot d buf first last side ≤ last := by
  unfold partPivot
  dsimp only
  split_ifs <;> first
    | omega
    | (dsimp only; omega)

theorem partition_spec (d side : Nat) (buf : List (RTreeBranch α))
    (first last : Nat) (hfl : first < last) (hlen : last < buf.length) :
    ((RTreePartitionBranchBuf d buf first last side).1).Perm buf ∧
    (RTreePartitionBranchBuf d buf first last side).2 ≤ last := by
  unfold RTreePartitionBranchBuf
  split
  · split
    · exact ⟨swap_perm (by omega) hlen, le_refl last⟩
    · exact ⟨List.Perm.refl _, le_refl _⟩
  · dsimp only
    have hp : partPivot d buf first last side < buf.length :=
      lt_of_le_of_lt (partPivot_le d buf first last side (by omega)) hlen
    generalize hB : (if partPivot d buf first last side ≠ last then
        RTreeSwapBranches buf (partPivot d buf first last side) last
        else buf) = b1
    have hb1 : b1.Perm buf := by
      rw [← hB]
      split
      · exact swap_perm hp hlen
      · exact List.Perm.refl _
    have hs := partScan_spec d side last (last - first) first first b1
      (le_refl _) (by omega) (by rw [hb1.length_eq]; exact hlen)
    refine ⟨?_, hs.2⟩
    split
    · refine (swap_perm ?_ ?_).trans (hs.1.trans hb1)
      · rw [hs.1.length_eq, hb1.length_eq]; omega
      · rw [hs.1.length_eq, hb1.length_eq]; exact hlen
    · exact hs.1.trans hb1

theorem qsLoop_perm (d side : Nat) :
    ∀ (fuel : Nat) (stk : List (Nat × Nat)) (buf : List (RTreeBranch α)),
      (∀ pr ∈ stk, pr.1 < pr.2 → pr.2 < buf.length) →
      (qsLoop d side fuel stk buf).Perm buf := by
  intro fuel
  induction fuel with
  | zero =>
    intro stk buf _
    cases stk with
    | nil => exact List.Perm.refl _
    | cons p rest => exact List.Perm.refl _
  | succ fuel ih =>
    intro stk buf hstk
    cases stk with
    | nil => exact List.Perm.refl _
    | cons p rest =>
      obtain ⟨first, last⟩ := p
      simp only [qsLoop]
      split
      case isTrue hfl =>
        split
        case isTrue hsorted =>
          have hlast : last < buf.length :=
            hstk (first, last) (List.mem_cons_self _ _) hfl
          have hps := partition_spec d side buf first last hfl hlast
          refine (ih _ _ ?_).trans hps.1
          intro pr hpr
          rcases List.mem_cons.mp hpr with rfl | hpr'
          · intro h
            rw [hps.1.length_eq]; omega
          rcases List.mem_cons.mp hpr' with rfl | hpr''
          · intro h
            rw [hps.1.length_eq]; omega
          · intro h
            rw [hps.1.length_eq]
            exact hstk pr (List.mem_cons_of_mem _ hpr'') h
        case isFalse =>
          exact ih rest buf
            (fun pr h => hstk pr (List.mem_cons_of_mem _ h))
      case isFalse =>
        exact ih rest buf
          (fun pr h => hstk pr (List.mem_cons_of_mem _ h))

theorem quicksort_perm (d side branchCount : Nat)
    (buf : List (RTreeBranch α)) (hbc : branchCount ≤ buf.length) :
    (RTreeQuicksortBranchBuf d side branchCount buf).Perm buf := by
  unfold RTreeQuicksortBranchBuf
  apply qsLoop_perm
  intro pr hpr
  rcases List.mem_cons.mp hpr with rfl | h
  · intro h2
    omega
  · simp at h

theorem getD_eq_getElem {β : Type} (l : List β) (i : Nat) (d : β)
    (h : i < l.length) : l.getD i d = l.get ⟨i, h⟩ := by
  rw [List.getD_eq_getElem?_getD, List.getElem?_eq_getElem h]
  rfl

theorem getD_mem {β : Type} (l : List β) (i : Nat) (d : β)
    (h : i < l.length) : l.getD i d ∈ l := by
  rw [getD_eq_getElem l i d h]
  exact List.getElem_mem h

theorem getD_set_self {β : Type} (l : List β) (i : Nat) (v d : β)
    (h : i < l.length) : (l.set i v).getD i d = v := by
  rw [List.getD_eq_getElem?_getD, List.getElem?_set_self h]
  rfl

theorem getD_set_ne {β : Type} (l : List β) (i k : Nat) (v d : β)
    (h : i ≠ k) : (l.set i v).getD k d = l.getD k d := by
  rw [List.getD_eq_getElem?_getD, List.getElem?_set_ne h,
    List.getD_eq_getElem?_getD]

theorem set_append_right_len {β : Type} :
    ∀ (l1 l2 : List β) (k : Nat) (v : β),
      (l1 ++ l2).set (l1.length + k) v = l1 ++ l2.set k v := by
  intro l1
  induction l1 with
  | nil => intro l2 k v; simp
  | cons x tl ih =>
    intro l2 k v
    simp only [List.cons_append, List.length_cons]
    rw [Nat.succ_add, List.set_cons_succ, ih]

theorem count_set_new (v a : Int) :
    ∀ (l : List Int) (i : Nat), i < l.length → l.getD i 0 ≠ a →
      (l.set i v).count a = l.count a + (if v = a then 1 else 0) := by
  intro l
  induction l with
  | nil => intro i h; simp at h
  | cons x tl ih =>
    intro i hi hold
    cases i with
    | zero =>
      simp only [List.getD_cons_zero] at hold
      simp only [List.set_cons_zero, List.count_cons, beq_iff_eq]
      rw [if_neg hold]
      omega
    | succ i2 =>
      simp only [List.getD_cons_succ] at hold
      simp only [List.set_cons_succ, List.count_cons]
      rw [ih i2 (by simpa using hi) hold]
      omega

theorem count01_sum_le (l : List Int) :
    l.count 0 + l.count 1 ≤ l.length := by
  induction l with
  | nil => simp
  | cons x tl ih =>
    simp only [List.count_cons, List.length_cons, beq_iff_eq]
    by_cases h0 : x = 0
    · rw [if_pos h0, if_neg (by omega)]; omega
    · rw [if_neg h0]
      by_cases h1 : x = 1
      · rw [if_pos h1]; omega
      · rw [if_neg h1]; omega

theorem count01_of_all (l : List Int)
    (h : ∀ x ∈ l, x = 0 ∨ x = 1) :
    l.count 0 + l.count 1 = l.length := by
  induction l with
  | nil => simp
  | cons x tl ih =>
    have hx := h x (List.mem_cons_self _ _)
    have htl := ih (fun y hy => h y (List.mem_cons_of_mem _ hy))
    simp only [List.count_cons, List.length_cons, beq_iff_eq]
    rcases hx with rfl | rfl
    · rw [if_pos rfl, if_neg (by omega)]; omega
    · rw [if_neg (by omega), if_pos rfl]; omega

theorem all01_of_count (l : List Int)
    (hr : ∀ x ∈ l, x = -1 ∨ x = 0 ∨ x = 1)
    (hc : l.count 0 + l.count 1 = l.length) :
    ∀ x ∈ l, x = 0 ∨ x = 1 := by
  induction l with
  | nil => intro x hx; simp at hx
  | cons y tl ih =>
    intro x hx
    have hy := hr y (List.mem_cons_self _ _)
    have hle := count01_sum_le tl
    simp only [List.count_cons, List.length_cons, beq_iff_eq] at hc
    rcases hy with rfl | rfl | rfl
    · rw [if_neg (by omega), if_neg (by omega)] at hc
      omega
    · rw [if_pos rfl, if_neg (by omega)] at hc
      rcases List.mem_cons.mp hx with rfl | hx2
      · exact Or.inl rfl
      · exact ih (fun z hz => hr z (List.mem_cons_of_mem _ hz)) (by omega) x hx2
    · rw [if_neg (by omega), if_pos rfl] at hc
      rcases List.mem_cons.mp hx with rfl | hx2
      · exact Or.inr rfl
      · exact ih (fun z hz => hr z (List.mem_cons_of_mem _ hz)) (by omega) x hx2

theorem pvInv_init (maxrects minfill : Nat) :
    pvInv (RTreeInitPVars maxrects minfill : PartitionVars α) := by
  refine ⟨by simp [RTreeInitPVars], by simp [RTreeInitPVars], ?_, ?_, ?_, ?_⟩
  · intro x hx
    exact Or.inl (List.eq_of_mem_replicate hx)
  · intro i hi
    simp only [RTreeInitPVars] at hi ⊢
    rw [List.getD_eq_getElem?_getD, List.getElem?_eq_getElem (by simpa using hi),
      List.getD_eq_getElem?_getD]
    rw [List.getElem?_eq_getElem (l := List.replicate maxrects (-1))
      (by simpa using hi)]
    simp
  · simp [RTreeInitPVars, List.count_replicate]
  · simp [RTreeInitPVars, List.count_replicate]

theorem classify_spec (sv : RTreeRect α → α) (m : Nat)
    (buf : List (RTreeBranch α)) (i g : Nat) (p : PartitionVars α)
    (hinv : pvInv p) (hi : i < p.total)
    (hnt : p.taken.getD i true = false) (hg : g = 0 ∨ g = 1) :
    pvInv (RTreeClassify sv m buf i g p) ∧
    (RTreeClassify sv m buf i g p).partition = p.partition.set i (g : Int) ∧
    (RTreeClassify sv m buf i g p).taken = p.taken.set i true ∧
    (RTreeClassify sv m buf i g p).total = p.total ∧
    (RTreeClassify sv m buf i g p).minfill = p.minfill ∧
    pCount (RTreeClassify sv m buf i g p) g = pCount p g + 1 ∧
    pCount (RTreeClassify sv m buf i g p) (1 - g) = pCount p (1 - g) := by
  have hipl : i < p.partition.length := by rw [hinv.1]; exact hi
  have hitl : i < p.taken.length := by rw [hinv.2.1]; exact hi
  have hold : p.partition.getD i (-1) = -1 := by
    by_contra h
    have h2 := (hinv.2.2.2.1 i hi).mpr h
    rw [hnt] at h2
    exact Bool.false_ne_true h2
  have hold0 : p.partition.getD i 0 = -1 := by
    rw [getD_eq_getElem _ _ _ hipl]
    rw [getD_eq_getElem _ _ _ hipl] at hold
    exact hold
  obtain ⟨hl1, hl2, hrng, hiff, hc0, hc1⟩ := hinv
  rcases hg with rfl | rfl
  · unfold RTreeClassify
    dsimp only
    rw [if_pos rfl]
    refine ⟨⟨?_, ?_, ?_, ?_, ?_, ?_⟩, rfl, rfl, rfl, rfl, ?_, ?_⟩
    · simpa using hl1
    · simpa using hl2
    · intro x hx
      rcases List.mem_or_eq_of_mem_set hx with hx2 | rfl
      · exact hrng x hx2
      · right; left; simp
    · intro k hk
      by_cases hki : k = i
      · subst hki
        rw [getD_set_self _ _ _ _ hitl, getD_set_self _ _ _ _ hipl]
        simp
      · rw [getD_set_ne _ _ _ _ _ (fun h => hki h.symm),
          getD_set_ne _ _ _ _ _ (fun h => hki h.symm)]
        exact hiff k hk
    · dsimp only
      rw [count_set_new _ _ _ _ hipl (by rw [hold0]; decide),
        if_pos (by simp)]
      omega
    · dsimp only
      rw [count_set_new _ _ _ _ hipl (by rw [hold0]; decide),
        if_neg (by simp)]
      omega
    · simp [pCount]
    · simp [pCount]
  · unfold RTreeClassify
    dsimp only
    rw [if_neg one_ne_zero]
    refine ⟨⟨?_, ?_, ?_, ?_, ?_, ?_⟩, rfl, rfl, rfl, rfl, ?_, ?_⟩
    · simpa using hl1
    · simpa using hl2
    · intro x hx
      rcases List.mem_or_eq_of_mem_set hx with hx2 | rfl
      · exact hrng x hx2
      · right; right; simp
    · intro k hk
      by_cases hki : k = i
      · subst hki
        rw [getD_set_self _ _ _ _ hitl, getD_set_self _ _ _ _ hipl]
        simp
      · rw [getD_set_ne _ _ _ _ _ (fun h => hki h.symm),
          getD_set_ne _ _ _ _ _ (fun h => hki h.symm)]
        exact hiff k hk
    · dsimp only
      rw [count_set_new _ _ _ _ hipl (by rw [hold0]; decide),
        if_neg (by simp)]
      omega
    · dsimp only
      rw [count_set_new _ _ _ _ hipl (by rw [hold0]; decide),
        if_pos (by simp)]
      omega
    · simp [pCount]
    · simp [pCount]

theorem foldl_inv {β σ : Type} (f : σ → β → σ) (P : σ → Prop) :
    ∀ (l : List β) (s : σ), P s →
      (∀ s2 x, x ∈ l → P s2 → P (f s2 x)) → P (l.foldl f s) := by
  intro l
  induction l with
  | nil => intro s hs _; exact hs
  | cons y ys ih =>
    intro s hs hstep
    exact ih (f s y) (hstep s y (List.mem_cons_self _ _) hs)
      (fun s2 x hx => hstep s2 x (List.mem_cons_of_mem _ hx))

theorem foldl_fire {β σ : Type} (f : σ → β → σ) (P S : σ → Prop) :
    ∀ (l : List β) (x : β), x ∈ l →
      (∀ s y, y ∈ l → P s → P (f s y)) →
      (∀ s y, y ∈ l → S s → S (f s y)) →
      (∀ s, P s → S (f s x)) →
      ∀ s, P s → S (l.foldl f s) := by
  intro l
  induction l with
  | nil => intro x hx; exact absurd hx (List.not_mem_nil _)
  | cons y ys ih =>
    intro x hx hP hS hfire s hs
    rcases List.mem_cons.mp hx with rfl | hx2
    · exact foldl_inv f S ys (f s x) (hfire s hs)
        (fun s2 z hz => hS s2 z (List.mem_cons_of_mem _ hz))
    · exact ih x hx2 (fun s2 z hz => hP s2 z (List.mem_cons_of_mem _ hz))
        (fun s2 z hz => hS s2 z (List.mem_cons_of_mem _ hz)) hfire
        (f s y) (hP s y (List.mem_cons_self _ _) hs)

theorem seedPairs_mem (total : Nat) (pr : Nat × Nat)
    (h : pr ∈ seedPairs total) : pr.1 < pr.2 ∧ pr.2 < total := by
  unfold seedPairs at h
  obtain ⟨i, _, hmem⟩ := List.mem_flatMap.mp h
  obtain ⟨j, hj, rfl⟩ := List.mem_map.mp hmem
  obtain ⟨hjr, hij⟩ := List.mem_filter.mp hj
  exact ⟨by simpa using hij, List.mem_range.mp hjr⟩

theorem zero_one_mem_seedPairs (total : Nat) (h : 2 ≤ total) :
    ((0, 1) : Nat × Nat) ∈ seedPairs total := by
  unfold seedPairs
  refine List.mem_flatMap.mpr ⟨0, List.mem_range.mpr (by omega), ?_⟩
  refine List.mem_map.mpr ⟨1, List.mem_filter.mpr
    ⟨List.mem_range.mpr (by omega), by decide⟩, rfl⟩

theorem seedBest_spec (sv : RTreeRect α → α) (d : Nat) (M : α)
    (buf : List (RTreeBranch α)) (total : Nat)
    (hmono : ∀ a b : RTreeRect α, SubRect a b → sv a ≤ sv b)
    (hgood : ∀ x ∈ buf, RectGood d M x.rect)
    (htot : total = buf.length) (h2 : 2 ≤ total) :
    (seedBest sv buf total).2.1 < (seedBest sv buf total).2.2 ∧
    (seedBest sv buf total).2.2 < total := by
  have hb0 : (0 : Nat) < buf.length := by omega
  have hb1 : (1 : Nat) < buf.length := by omega
  have hg0 := hgood _ (getD_mem buf 0 dfltBranch hb0)
  have hg1 := hgood _ (getD_mem buf 1 dfltBranch hb1)
  have hbufne : buf ≠ [] := by
    intro h; rw [h] at hb0; simp at hb0
  have hcs := coverSplit_spec d M buf hbufne hgood
  have hw1 : sv (buf.getD 0 dfltBranch).rect ≤
      sv (RTreeCombineRect (buf.getD 0 dfltBranch).rect
        (buf.getD 1 dfltBranch).rect) :=
    hmono _ _ (sub_combine_left d _ _ hg0.1 hg0.2.1 hg1.1 hg1.2.1)
  have hw2 : sv (buf.getD 1 dfltBranch).rect ≤ sv (CoverSplitOf buf) :=
    hmono _ _ (hcs.2 _ (getD_mem buf 1 dfltBranch hb1))
  have hbest := foldl_fire
    (f := fun (acc : α × Nat × Nat) pr =>
      let one_rect := RTreeCombineRect (buf.getD pr.1 dfltBranch).rect
        (buf.getD pr.2 dfltBranch).rect
      let waste := sv one_rect - sv (buf.getD pr.1 dfltBranch).rect -
        sv (buf.getD pr.2 dfltBranch).rect
      if waste > acc.1 then (waste, pr.1, pr.2) else acc)
    (P := fun s => s = (-(sv (CoverSplitOf buf)) - 1, 0, 0) ∨
      (-(sv (CoverSplitOf buf)) - 1 < s.1 ∧ s.2.1 < s.2.2 ∧ s.2.2 < total))
    (S := fun s => -(sv (CoverSplitOf buf)) - 1 < s.1 ∧
      s.2.1 < s.2.2 ∧ s.2.2 < total)
    (seedPairs total) (0, 1) (zero_one_mem_seedPairs total h2)
    ?hP ?hS ?hfire (-(sv (CoverSplitOf buf)) - 1, 0, 0) (Or.inl rfl)
  case hP =>
    intro s pr hpr hPs
    have hpr2 := seedPairs_mem total pr hpr
    dsimp only
    split
    case isTrue hgt =>
      right
      refine ⟨?_, hpr2.1, hpr2.2⟩
      rcases hPs with rfl | hSs
      · exact hgt
      · exact lt_trans hSs.1 hgt
    case isFalse => exact hPs
  case hS =>
    intro s pr hpr hSs
    have hpr2 := seedPairs_mem total pr hpr
    dsimp only
    split
    case isTrue hgt => exact ⟨lt_trans hSs.1 hgt, hpr2.1, hpr2.2⟩
    case isFalse => exact hSs
  case hfire =>
    intro s hPs
    dsimp only
    split
    case isTrue hgt =>
      dsimp only
      refine ⟨?_, by omega, by omega⟩
      rcases hPs with rfl | hSs
      · exact hgt
      · exact lt_trans hSs.1 hgt
    case isFalse hng =>
      rcases hPs with rfl | hSs
      · exfalso
        apply hng
        dsimp only
        linarith
      · exact hSs
  exact ⟨hbest.2.1, hbest.2.2⟩

theorem pickSeeds_spec (sv : RTreeRect α → α) (d : Nat) (M : α)
    (buf : List (RTreeBranch α)) (p : PartitionVars α)
    (hmono : ∀ a b : RTreeRect α, SubRect a b → sv a ≤ sv b)
    (hgood : ∀ x ∈ buf, RectGood d M x.rect)
    (hinv : pvInv p) (htot : p.total = buf.length) (h2 : 2 ≤ p.total)
    (huntaken : ∀ i, i < p.total → p.taken.getD i true = false) :
    pvInv (RTreePickSeeds sv buf p) ∧
    (RTreePickSeeds sv buf p).total = p.total ∧
    (RTreePickSeeds sv buf p).minfill = p.minfill ∧
    pCount (RTreePickSeeds sv buf p) 0 = pCount p 0 + 1 ∧
    pCount (RTreePickSeeds sv buf p) 1 = pCount p 1 + 1 := by
  obtain ⟨hlt, htt⟩ := seedBest_spec sv d M buf p.total hmono hgood
    (by omega) h2
  have hi0 : (seedBest sv buf p.total).2.1 < p.total := by omega
  have hs1 := classify_spec sv 0 buf (seedBest sv buf p.total).2.1 0 p
    hinv hi0 (huntaken _ hi0) (Or.inl rfl)
  have hnt2 : (RTreeClassify sv 0 buf (seedBest sv buf p.total).2.1 0
      p).taken.getD (seedBest sv buf p.total).2.2 true = false := by
    rw [hs1.2.2.1, getD_set_ne _ _ _ _ _ (by omega)]
    exact huntaken _ htt
  have hs2 := classify_spec sv 0 buf (seedBest sv buf p.total).2.2 1
    (RTreeClassify sv 0 buf (seedBest sv buf p.total).2.1 0 p)
    hs1.1 (by rw [hs1.2.2.2.1]; exact htt) hnt2 (Or.inr rfl)
  unfold RTreePickSeeds
  dsimp only
  refine ⟨hs2.1, ?_, ?_, ?_, ?_⟩
  · rw [hs2.2.2.2.1, hs1.2.2.2.1]
  · rw [hs2.2.2.2.2.1, hs1.2.2.2.2.1]
  · have h20 := hs2.2.2.2.2.2.2
    have h10 := hs1.2.2.2.2.2.1
    simpa using h20.trans h10
  · have h21 := hs2.2.2.2.2.2.1
    have h11 := hs1.2.2.2.2.2.2
    simpa using h21.trans (by simpa using h11)

theorem abs_if_nonneg (X : α) : (0 : α) ≤ if 0 ≤ X then X else -X := by
  split
  case isTrue h => exact h
  case isFalse h => linarith [lt_of_not_le h]

theorem mzChoose_spec (sv : RTreeRect α → α) (buf : List (RTreeBranch α))
    (p : PartitionVars α)
    (hex : ∃ i, i < p.total ∧ p.taken.getD i true = false) :
    (mzChoose sv buf p).1 < p.total ∧
    p.taken.getD (mzChoose sv buf p).1 true = false ∧
    ((mzChoose sv buf p).2 = 0 ∨ (mzChoose sv buf p).2 = 1) := by
  obtain ⟨w, hw, hwf⟩ := hex
  have hkey : ∀ (s : α × Nat × Nat) i, i < p.total →
      p.taken.getD i true = false →
      (s = ((-1 : α), 0, 0) ∨ (0 ≤ s.1 ∧ s.2.1 < p.total ∧
        p.taken.getD s.2.1 true = false ∧ (s.2.2 = 0 ∨ s.2.2 = 1))) →
      (0 ≤ ((fun (acc : α × Nat × Nat) i =>
        if p.taken.getD i true then acc
        else
          let r := (buf.getD i dfltBranch).rect
          let rect_0 := RTreeCombineRect r p.cover0
          let rect_1 := RTreeCombineRect r p.cover1
          let growth0 := sv rect_0 - p.area0
          let growth1 := sv rect_1 - p.area1
          let diffRaw := growth1 - growth0
          let group := if 0 ≤ diffRaw then 0 else 1
          let diff := if 0 ≤ diffRaw then diffRaw else -diffRaw
          if diff > acc.1 then (diff, i, group)
          else if diff = acc.1 ∧ pCount p group < pCount p acc.2.2 then
            (acc.1, i, group)
          else acc) s i).1 ∧
        ((fun (acc : α × Nat × Nat) i => if p.taken.getD i true then acc
          else
            let r := (buf.getD i dfltBranch).rect
            let rect_0 := RTreeCombineRect r p.cover0
            let rect_1 := RTreeCombineRect r p.cover1
            let growth0 := sv rect_0 - p.area0
            let growth1 := sv rect_1 - p.area1
            let diffRaw := growth1 - growth0
            let group := if 0 ≤ diffRaw then 0 else 1
            let diff := if 0 ≤ diffRaw then diffRaw else -diffRaw
            if diff > acc.1 then (diff, i, group)
            else if diff = acc.1 ∧ pCount p group < pCount p acc.2.2 then
              (acc.1, i, group)
            else acc) s i).2.1 < p.total ∧
        p.taken.getD ((fun (acc : α × Nat × Nat) i =>
          if p.taken.getD i true then acc
          else
            let r := (buf.getD i dfltBranch).rect
            let rect_0 := RTreeCombineRect r p.cover0
            let rect_1 := RTreeCombineRect r p.cover1
            let growth0 := sv rect_0 - p.area0
            let growth1 := sv rect_1 - p.area1
            let diffRaw := growth1 - growth0
            let group := if 0 ≤ diffRaw then 0 else 1
            let diff := if 0 ≤ diffRaw then diffRaw else -diffRaw
            if diff > acc.1 then (diff, i, group)
            else if diff = acc.1 ∧ pCount p group < pCount p acc.2.2 then
              (acc.1, i, group)
            else acc) s i).2.1 true = false ∧
        (((fun (acc : α × Nat × Nat) i => if p.taken.getD i true then acc
          else
            let r := (buf.getD i dfltBranch).rect
            let rect_0 := RTreeCombineRect r p.cover0
            let rect_1 := RTreeCombineRect r p.cover1
            let growth0 := sv rect_0 - p.area0
            let growth1 := sv rect_1 - p.area1
            let diffRaw := growth1 - growth0
            let group := if 0 ≤ diffRaw then 0 else 1
            let diff := if 0 ≤ diffRaw then diffRaw else -diffRaw
            if diff > acc.1 then (diff, i, group)
            else if diff = acc.1 ∧ pCount p group < pCount p acc.2.2 then
              (acc.1, i, group)
            else acc) s i).2.2 = 0 ∨
         ((fun (acc : α × Nat × Nat) i => if p.taken.getD i true then acc
          else
            let r := (buf.getD i dfltBranch).rect
            let rect_0 := RTreeCombineRect r p.cover0
            let rect_1 := RTreeCombineRect r p.cover1
            let growth0 := sv rect_0 - p.area0
            let growth1 := sv rect_1 - p.area1
            let diffRaw := growth1 - growth0
            let group := if 0 ≤ diffRaw then 0 else 1
            let diff := if 0 ≤ diffRaw then diffRaw else -diffRaw
            if diff > acc.1 then (diff, i, group)
            else if diff = acc.1 ∧ pCount p group < pCount p acc.2.2 then
              (acc.1, i, group)
            else acc) s i).2.2 = 1)) := by
    intro s i hit huf hPs
    dsimp only
    rw [if_neg (by rw [huf]; exact Bool.false_ne_true)]
    by_cases hsign : (0 : α) ≤
        sv (RTreeCombineRect (buf.getD i dfltBranch).rect p.cover1) -
        p.area1 -
        (sv (RTreeCombineRect (buf.getD i dfltBranch).rect p.cover0) -
        p.area0)
    · simp only [if_pos hsign]
      split
      next hgt => exact ⟨hsign, hit, huf, Or.inl rfl⟩
      next hng =>
        split
        next heq =>
          refine ⟨?_, hit, huf, Or.inl rfl⟩
          rw [← heq.1]
          exact hsign
        next =>
          rcases hPs with rfl | hSs
          · exfalso
            apply hng
            dsimp only
            linarith
          · exact hSs
    · simp only [if_neg hsign]
      have hlt := lt_of_not_le hsign
      split
      next hgt => exact ⟨by dsimp only; linarith, hit, huf, Or.inr rfl⟩
      next hng =>
        split
        next heq =>
          refine ⟨?_, hit, huf, Or.inr rfl⟩
          rw [← heq.1]
          linarith
        next =>
          rcases hPs with rfl | hSs
          · exfalso
            apply hng
            dsimp only
            linarith
          · exact hSs
  have hbest := foldl_fire
    (f := fun (acc : α × Nat × Nat) i =>
      if p.taken.getD i true then acc
      else
        let r := (buf.getD i dfltBranch).rect
        let rect_0 := RTreeCombineRect r p.cover0
        let rect_1 := RTreeCombineRect r p.cover1
        let growth0 := sv rect_0 - p.area0
        let growth1 := sv rect_1 - p.area1
        let diffRaw := growth1 - growth0
        let group := if 0 ≤ diffRaw then 0 else 1
        let diff := if 0 ≤ diffRaw then diffRaw else -diffRaw
        if diff > acc.1 then (diff, i, group)
        else if diff = acc.1 ∧ pCount p group < pCount p acc.2.2 then
          (acc.1, i, group)
        else acc)
    (P := fun s => s = ((-1 : α), 0, 0) ∨ (0 ≤ s.1 ∧ s.2.1 < p.total ∧
      p.taken.getD s.2.1 true = false ∧ (s.2.2 = 0 ∨ s.2.2 = 1)))
    (S := fun s => 0 ≤ s.1 ∧ s.2.1 < p.total ∧
      p.taken.getD s.2.1 true = false ∧ (s.2.2 = 0 ∨ s.2.2 = 1))
    (List.range p.total) w (List.mem_range.mpr hw)
    ?hP ?hS ?hfire ((-1 : α), 0, 0) (Or.inl rfl)
  case hP =>
    intro s i hi hPs
    by_cases ht : p.taken.getD i true = true
    · dsimp only
      rw [if_pos ht]
      exact hPs
    · exact Or.inr (hkey s i (List.mem_range.mp hi)
        (Bool.not_eq_true _ ▸ Bool.of_not_eq_true ht) hPs)
  case hS =>
    intro s i hi hSs
    by_cases ht : p.taken.getD i true = true
    · dsimp only
      rw [if_pos ht]
      exact hSs
    · exact hkey s i (List.mem_range.mp hi)
        (Bool.of_not_eq_true ht) (Or.inr hSs)
  case hfire =>
    intro s hPs
    exact hkey s w hw hwf hPs
  unfold mzChoose
  dsimp only
  exact ⟨hbest.2.1, hbest.2.2.1, hbest.2.2.2⟩

theorem pvInv_untaken_exists (p : PartitionVars α) (hinv : pvInv p)
    (hlt : p.count0 + p.count1 < p.total) :
    ∃ i, i < p.total ∧ p.taken.getD i true = false := by
  by_contra h
  push_neg at h
  have hall : ∀ x ∈ p.partition, x = 0 ∨ x = 1 := by
    intro x hx
    obtain ⟨n, hn, hnx⟩ := List.mem_iff_getElem.mp hx
    have hnt : n < p.total := by rw [← hinv.1]; exact hn
    have ht2 : p.taken.getD n true = true := by
      cases hb : p.taken.getD n true
      · exact absurd hb (h n hnt)
      · rfl
    have hne := (hinv.2.2.2.1 n hnt).mp ht2
    have hgx : p.partition.getD n (-1) = x := by
      rw [getD_eq_getElem _ _ _ hn, List.get_eq_getElem]
      exact hnx
    rcases hinv.2.2.1 x hx with h1 | h1 | h1
    · rw [hgx, h1] at hne
      exact absurd rfl hne
    · exact Or.inl h1
    · exact Or.inr h1
  have hcnt := count01_of_all p.partition hall
  have hc0 := hinv.2.2.2.2.1
  have hc1 := hinv.2.2.2.2.2
  have hl := hinv.1
  omega

theorem mzLoop_spec (sv : RTreeRect α → α) (buf : List (RTreeBranch α)) :
    ∀ (fuel : Nat) (p : PartitionVars α), pvInv p →
      p.total ≤ p.count0 + p.count1 + fuel →
      p.count0 ≤ p.total - p.minfill → p.count1 ≤ p.total - p.minfill →
      pvInv (mzLoop sv buf fuel p) ∧
      (mzLoop sv buf fuel p).total = p.total ∧
      (mzLoop sv buf fuel p).minfill = p.minfill ∧
      (mzLoop sv buf fuel p).count0 ≤ p.total - p.minfill ∧
      (mzLoop sv buf fuel p).count1 ≤ p.total - p.minfill ∧
      ((mzLoop sv buf fuel p).count0 + (mzLoop sv buf fuel p).count1 =
          p.total ∨
        (mzLoop sv buf fuel p).count0 = p.total - p.minfill ∨
        (mzLoop sv buf fuel p).count1 = p.total - p.minfill) := by
  intro fuel
  induction fuel with
  | zero =>
    intro p hinv hfuel hb0 hb1
    have hle := count01_sum_le p.partition
    have hc0 := hinv.2.2.2.2.1
    have hc1 := hinv.2.2.2.2.2
    have hl := hinv.1
    exact ⟨hinv, rfl, rfl, hb0, hb1,
      Or.inl (by show p.count0 + p.count1 = p.total; omega)⟩
  | succ fuel ih =>
    intro p hinv hfuel hb0 hb1
    simp only [mzLoop]
    split
    case isTrue hcond =>
      have hex := pvInv_untaken_exists p hinv hcond.1
      have hch := mzChoose_spec sv buf p hex
      have hcl := classify_spec sv 0 buf (mzChoose sv buf p).1
        (mzChoose sv buf p).2 p hinv hch.1 hch.2.1 hch.2.2
      have htt := hcl.2.2.2.1
      have hmf := hcl.2.2.2.2.1
      have hcounts : (RTreeClassify sv 0 buf (mzChoose sv buf p).1
            (mzChoose sv buf p).2 p).count0 +
          (RTreeClassify sv 0 buf (mzChoose sv buf p).1
            (mzChoose sv buf p).2 p).count1 = p.count0 + p.count1 + 1 ∧
          (RTreeClassify sv 0 buf (mzChoose sv buf p).1
            (mzChoose sv buf p).2 p).count0 ≤ p.total - p.minfill ∧
          (RTreeClassify sv 0 buf (mzChoose sv buf p).1
            (mzChoose sv buf p).2 p).count1 ≤ p.total - p.minfill := by
        rcases hch.2.2 with hg | hg <;> rw [hg] at hcl ⊢
        · have h1 := hcl.2.2.2.2.2.1
          have h2 := hcl.2.2.2.2.2.2
          simp [pCount] at h1 h2
          refine ⟨by omega, by omega, by omega⟩
        · have h1 := hcl.2.2.2.2.2.1
          have h2 := hcl.2.2.2.2.2.2
          simp [pCount] at h1 h2
          refine ⟨by omega, by omega, by omega⟩
      obtain ⟨hsum, hub0, hub1⟩ := hcounts
      have hres := ih (RTreeClassify sv 0 buf (mzChoose sv buf p).1
          (mzChoose sv buf p).2 p) hcl.1
        (by rw [htt]; omega) (by rw [htt, hmf]; omega)
        (by rw [htt, hmf]; omega)
      rw [htt, hmf] at hres
      exact hres
    case isFalse hcond =>
      have hle := count01_sum_le p.partition
      have hc0 := hinv.2.2.2.2.1
      have hc1 := hinv.2.2.2.2.2
      have hl := hinv.1
      refine ⟨hinv, rfl, rfl, hb0, hb1, ?_⟩
      rw [Classical.not_and_iff_or_not_not] at hcond
      rcases hcond with h1 | h2
      · exact Or.inl (by omega)
      · rw [Classical.not_and_iff_or_not_not] at h2
        rcases h2 with h2 | h2
        · exact Or.inr (Or.inl (by omega))
        · exact Or.inr (Or.inr (by omega))

theorem pvInv_all01 (p : PartitionVars α) (hinv : pvInv p)
    (htk : ∀ i, i < p.total → p.taken.getD i true = true) :
    ∀ x ∈ p.partition, x = 0 ∨ x = 1 := by
  intro x hx
  obtain ⟨n, hn, hnx⟩ := List.mem_iff_getElem.mp hx
  have hnt : n < p.total := by rw [← hinv.1]; exact hn
  have hne := (hinv.2.2.2.1 n hnt).mp (htk n hnt)
  have hgx : p.partition.getD n (-1) = x := by
    rw [getD_eq_getElem _ _ _ hn, List.get_eq_getElem]
    exact hnx
  rcases hinv.2.2.1 x hx with h1 | h1 | h1
  · rw [hgx, h1] at hne
    exact absurd rfl hne
  · exact Or.inl h1
  · exact Or.inr h1

theorem mzRest_fold_spec (sv : RTreeRect α → α)
    (buf : List (RTreeBranch α)) (g : Nat) (hg : g = 0 ∨ g = 1) :
    ∀ (js : List Nat) (q : PartitionVars α), pvInv q →
      (∀ j ∈ js, j < q.total) →
      pvInv (js.foldl (fun q2 i => if q2.taken.getD i true then q2
        else RTreeClassify sv 0 buf i g q2) q) ∧
      (js.foldl (fun q2 i => if q2.taken.getD i true then q2
        else RTreeClassify sv 0 buf i g q2) q).total = q.total ∧
      (js.foldl (fun q2 i => if q2.taken.getD i true then q2
        else RTreeClassify sv 0 buf i g q2) q).minfill = q.minfill ∧
      pCount (js.foldl (fun q2 i => if q2.taken.getD i true then q2
        else RTreeClassify sv 0 buf i g q2) q) (1 - g) = pCount q (1 - g) ∧
      (∀ j, q.taken.getD j true = true →
        (js.foldl (fun q2 i => if q2.taken.getD i true then q2
          else RTreeClassify sv 0 buf i g q2) q).taken.getD j true = true) ∧
      (∀ j ∈ js, (js.foldl (fun q2 i => if q2.taken.getD i true then q2
        else RTreeClassify sv 0 buf i g q2) q).taken.getD j true = true) := by
  intro js
  induction js with
  | nil =>
    intro q hq _
    exact ⟨hq, rfl, rfl, rfl, fun j h => h, fun j h => absurd h
      (List.not_mem_nil _)⟩
  | cons j js ih =>
    intro q hq hjs
    have hjt : j < q.total := hjs j (List.mem_cons_self _ _)
    by_cases ht : q.taken.getD j true = true
    · have hstep : (fun q2 i => if q2.taken.getD i true then q2
          else RTreeClassify sv 0 buf i g q2) q j = q := by
        dsimp only
        rw [if_pos ht]
      simp only [List.foldl_cons, hstep]
      obtain ⟨h1, h2, h3, h4, h5, h6⟩ := ih q hq
        (fun x hx => hjs x (List.mem_cons_of_mem _ hx))
      refine ⟨h1, h2, h3, h4, h5, ?_⟩
      intro x hx
      rcases List.mem_cons.mp hx with rfl | hx2
      · exact h5 x ht
      · exact h6 x hx2
    · have htf : q.taken.getD j true = false := by
        cases hb : q.taken.getD j true
        · rfl
        · exact absurd hb ht
      have hcl := classify_spec sv 0 buf j g q hq hjt htf hg
      have hstep : (fun q2 i => if q2.taken.getD i true then q2
          else RTreeClassify sv 0 buf i g q2) q j =
          RTreeClassify sv 0 buf j g q := by
        dsimp only
        rw [if_neg (by rw [htf]; exact Bool.false_ne_true)]
      simp only [List.foldl_cons, hstep]
      obtain ⟨h1, h2, h3, h4, h5, h6⟩ := ih (RTreeClassify sv 0 buf j g q)
        hcl.1 (fun x hx => by
          rw [hcl.2.2.2.1]
          exact hjs x (List.mem_cons_of_mem _ hx))
      have hmon : ∀ x, q.taken.getD x true = true →
          (RTreeClassify sv 0 buf j g q).taken.getD x true = true := by
        intro x hx
        rw [hcl.2.2.1]
        by_cases hxj : j = x
        · subst hxj
          exact getD_set_self _ _ _ _ (by rw [hq.2.1]; exact hjt)
        · rw [getD_set_ne _ _ _ _ _ hxj]
          exact hx
      refine ⟨h1, h2.trans hcl.2.2.2.1, h3.trans hcl.2.2.2.2.1,
        h4.trans hcl.2.2.2.2.2.2, fun x hx => h5 x (hmon x hx), ?_⟩
      intro x hx
      rcases List.mem_cons.mp hx with rfl | hx2
      · apply h5
        rw [hcl.2.2.1]
        exact getD_set_self _ _ _ _ (by rw [hq.2.1]; exact hjt)
      · exact h6 x hx2

theorem methodZero_spec (sv : RTreeRect α → α) (d : Nat) (M : α)
    (buf : List (RTreeBranch α)) (minfill : Nat)
    (hmono : ∀ a b : RTreeRect α, SubRect a b → sv a ≤ sv b)
    (hgood : ∀ x ∈ buf, RectGood d M x.rect)
    (hmf1 : 1 ≤ minfill) (hmf2 : 2 * minfill ≤ buf.length) :
    pvInv (RTreeMethodZero sv buf minfill) ∧
    (RTreeMethodZero sv buf minfill).total = buf.length ∧
    (∀ x ∈ (RTreeMethodZero sv buf minfill).partition, x = 0 ∨ x = 1) ∧
    (RTreeMethodZero sv buf minfill).count0 +
      (RTreeMethodZero sv buf minfill).count1 = buf.length ∧
    minfill ≤ (RTreeMethodZero sv buf minfill).count0 ∧
    minfill ≤ (RTreeMethodZero sv buf minfill).count1 := by
  have hp0 := pvInv_init (α := α) buf.length minfill
  have huntk : ∀ i, i < buf.length →
      (RTreeInitPVars buf.length minfill : PartitionVars α).taken.getD i
        true = false := by
    intro i hi
    show (List.replicate buf.length false).getD i true = false
    rw [List.getD_eq_getElem?_getD, List.getElem?_eq_getElem
      (by simpa using hi)]
    simp
  have hps := pickSeeds_spec sv d M buf (RTreeInitPVars buf.length minfill)
    hmono hgood hp0 rfl (by show 2 ≤ buf.length; omega) huntk
  have hPStot : (RTreePickSeeds sv buf
      (RTreeInitPVars buf.length minfill)).total = buf.length := hps.2.1
  have hPSmf : (RTreePickSeeds sv buf
      (RTreeInitPVars buf.length minfill)).minfill = minfill := hps.2.2.1
  have hPS0 : (RTreePickSeeds sv buf
      (RTreeInitPVars buf.length minfill)).count0 = 1 := by
    have := hps.2.2.2.1
    simpa [pCount, RTreeInitPVars] using this
  have hPS1 : (RTreePickSeeds sv buf
      (RTreeInitPVars buf.length minfill)).count1 = 1 := by
    have := hps.2.2.2.2
    simpa [pCount, RTreeInitPVars] using this
  have hml := mzLoop_spec sv buf buf.length
    (RTreePickSeeds sv buf (RTreeInitPVars buf.length minfill)) hps.1
    (by rw [hPStot, hPS0, hPS1]; omega)
    (by rw [hPS0, hPStot, hPSmf]; omega)
    (by rw [hPS1, hPStot, hPSmf]; omega)
  rw [hPStot, hPSmf] at hml
  obtain ⟨hinvML, htotML, hmfML, hub0, hub1, hdisj⟩ := hml
  set ML := mzLoop sv buf buf.length
    (RTreePickSeeds sv buf (RTreeInitPVars buf.length minfill)) with hMLdef
  have hML0 := hinvML.2.2.2.2.1
  have hML1 := hinvML.2.2.2.2.2
  have hMLl := hinvML.1
  have hsumle : ML.count0 + ML.count1 ≤ buf.length := by
    have := count01_sum_le ML.partition
    omega
  unfold RTreeMethodZero
  rw [← hMLdef]
  unfold mzRest
  split
  case isTrue hlt =>
    dsimp only
    obtain ⟨h1, h2, h3, h4, h5, h6⟩ := mzRest_fold_spec sv buf
      (if ML.count0 ≥ ML.total - ML.minfill then 1 else 0)
      (by split
          · exact Or.inr rfl
          · exact Or.inl rfl)
      (List.range ML.total) ML hinvML
      (fun j hj => List.mem_range.mp hj)
    rw [htotML] at hlt
    generalize hGdef : (if ML.count0 ≥ ML.total - ML.minfill
      then 1 else 0) = G at h1 h2 h3 h4 h5 h6 ⊢
    have htaken : ∀ i, i < ((List.range ML.total).foldl
        (fun q2 i => if q2.taken.getD i true then q2
          else RTreeClassify sv 0 buf i G q2) ML).total →
        ((List.range ML.total).foldl
        (fun q2 i => if q2.taken.getD i true then q2
          else RTreeClassify sv 0 buf i G q2) ML).taken.getD i true
          = true := by
      intro i hi
      rw [h2] at hi
      exact h6 i (List.mem_range.mpr hi)
    have hall01 := pvInv_all01 _ h1 htaken
    have hRc0 := h1.2.2.2.2.1
    have hRc1 := h1.2.2.2.2.2
    have hRl := h1.1
    have hsumR := count01_of_all _ hall01
    by_cases hc : ML.count0 ≥ ML.total - ML.minfill
    · rw [if_pos hc] at hGdef
      subst hGdef
      rw [htotML, hmfML] at hc
      have h4b : ((List.range ML.total).foldl
          (fun q2 i => if q2.taken.getD i true then q2
            else RTreeClassify sv 0 buf i 1 q2) ML).count0 =
          ML.count0 := by
        simpa [pCount] using h4
      refine ⟨h1, by rw [h2, htotML], hall01, ?_, ?_, ?_⟩ <;> omega
    · rw [if_neg hc] at hGdef
      subst hGdef
      rw [htotML, hmfML] at hc
      have h4b : ((List.range ML.total).foldl
          (fun q2 i => if q2.taken.getD i true then q2
            else RTreeClassify sv 0 buf i 0 q2) ML).count1 =
          ML.count1 := by
        simpa [pCount] using h4
      refine ⟨h1, by rw [h2, htotML], hall01, ?_, ?_, ?_⟩ <;> omega
  case isFalse hge =>
    rw [htotML] at hge
    have hsum : ML.count0 + ML.count1 = buf.length := by omega
    have hall01 : ∀ x ∈ ML.partition, x = 0 ∨ x = 1 :=
      all01_of_count ML.partition hinvML.2.2.1 (by omega)
    refine ⟨hinvML, htotML, hall01, hsum, by omega, by omega⟩

theorem map_getD_range {β : Type} (l : List β) (d : β) :
    (List.range l.length).map (fun i => l.getD i d) = l := by
  apply List.ext_getElem
  · simp
  · intro i h1 h2
    simp only [List.getElem_map, List.getElem_range]
    rw [getD_eq_getElem l i d h2, List.get_eq_getElem]

theorem findIdx_loaded (level d : Nat) :
    ∀ (ls : List (RTreeBranch α)) (k s : Nat),
      (∀ x ∈ ls, validBranch level x = true) → 0 < k →
      (ls ++ List.replicate k (emptyBranch d level)).findIdx?
        (fun br => !(validBranch level br)) s = some (s + ls.length) := by
  intro ls
  induction ls with
  | nil =>
    intro k s _ hk
    cases k with
    | zero => omega
    | succ k2 =>
      simp only [List.nil_append, List.replicate_succ, List.findIdx?_cons]
      rw [if_pos (by simp [validBranch_empty])]
      simp
  | cons x ls ih =>
    intro k s hall hk
    simp only [List.cons_append, List.findIdx?_cons]
    rw [if_neg (by simp [hall x (List.mem_cons_self _ _)])]
    rw [ih k (s + 1) (fun y hy => hall y (List.mem_cons_of_mem _ hy)) hk]
    congr 1
    simp only [List.length_cons]
    omega

theorem set_loaded (d level : Nat) (b : RTreeBranch α) :
    ∀ (ls : List (RTreeBranch α)) (k : Nat), 0 < k →
      (ls ++ List.replicate k (emptyBranch d level)).set ls.length b =
      (ls ++ [b]) ++ List.replicate (k - 1) (emptyBranch d level) := by
  intro ls
  induction ls with
  | nil =>
    intro k hk
    cases k with
    | zero => omega
    | succ k2 => simp [List.replicate_succ]
  | cons x ls ih =>
    intro k hk
    simp only [List.cons_append, List.length_cons, List.set_cons_succ]
    rw [ih k hk]

theorem addSimple_loaded (d level : Nat) (b : RTreeBranch α)
    (ls : List (RTreeBranch α)) (k cnt : Nat)
    (hall : ∀ x ∈ ls, validBranch level x = true) (hk : 0 < k) :
    RTreeAddBranchSimple b
      (⟨level, cnt, ls ++ List.replicate k (emptyBranch d level)⟩ :
        RTreeNode α) =
      ⟨level, cnt + 1,
       (ls ++ [b]) ++ List.replicate (k - 1) (emptyBranch d level)⟩ := by
  unfold RTreeAddBranchSimple
  rw [findIdx_loaded level d ls k 0 hall hk]
  dsimp only
  rw [Nat.zero_add, set_loaded d level b ls k hk]

theorem selIdx_succ (l : List Int) (g : Int) (j : Nat) :
    selIdx l g (j + 1) = selIdx l g j ++
      (if l.getD j (-1) = g then [j] else []) := by
  by_cases h : l.getD j (-1) = g
  · simp [selIdx, List.range_succ, List.filter_append, List.filter_cons, h]
  · simp [selIdx, List.range_succ, List.filter_append, List.filter_cons, h]

theorem selBr_succ (buf : List (RTreeBranch α)) (l : List Int) (g : Int)
    (j : Nat) :
    selBr buf l g (j + 1) = selBr buf l g j ++
      (if l.getD j (-1) = g then [buf.getD j dfltBranch] else []) := by
  unfold selBr
  rw [selIdx_succ, List.map_append]
  by_cases h : l.getD j (-1) = g
  · rw [if_pos h, if_pos h]
    rfl
  · rw [if_neg h, if_neg h]
    rfl

theorem selIdx_length_le (l : List Int) (g : Int) :
    ∀ k j, j ≤ k → (selIdx l g j).length ≤ (selIdx l g k).length := by
  intro k
  induction k with
  | zero =>
    intro j h
    have : j = 0 := by omega
    subst this
    exact le_refl _
  | succ k ih =>
    intro j h
    by_cases hje : j = k + 1
    · subst hje
      exact le_refl _
    · have h2 := ih j (by omega)
      rw [selIdx_succ, List.length_append]
      omega

theorem selIdx_length_eq_count (l : List Int) (g : Int) :
    ∀ j, j ≤ l.length → (selIdx l g j).length = (l.take j).count g := by
  intro j
  induction j with
  | zero => intro h; simp [selIdx]
  | succ j ih =>
    intro h
    have hlt : j < l.length := by omega
    rw [selIdx_succ, List.length_append, ih (by omega), List.take_succ,
      List.count_append]
    congr 1
    rw [List.getElem?_eq_getElem hlt]
    have hgd : l.getD j (-1) = l.get ⟨j, hlt⟩ := getD_eq_getElem l j (-1) hlt
    by_cases hg : l.getD j (-1) = g
    · rw [if_pos hg]
      have hx : l.get ⟨j, hlt⟩ = g := by rw [← hgd]; exact hg
      rw [List.get_eq_getElem] at hx
      simp [hx, List.count_cons]
    · rw [if_neg hg]
      have hx : ¬ l.get ⟨j, hlt⟩ = g := by rw [← hgd]; exact hg
      rw [List.get_eq_getElem] at hx
      simp [List.count_cons, hx]

theorem selIdx_length_full (l : List Int) (g : Int) :
    (selIdx l g l.length).length = l.count g := by
  rw [selIdx_length_eq_count l g l.length (le_refl _), List.take_length]

theorem selBr_mem (buf : List (RTreeBranch α)) (l : List Int) (g : Int)
    (j : Nat) (hj : j ≤ buf.length) :
    ∀ x ∈ selBr buf l g j, x ∈ buf := by
  intro x hx
  obtain ⟨i, hi, rfl⟩ := List.mem_map.mp hx
  have : i < j := List.mem_range.mp (List.mem_filter.mp hi).1
  exact getD_mem buf i dfltBranch (by omega)

theorem activeBranches_loaded (lev d cnt k : Nat)
    (ls : List (RTreeBranch α))
    (hall : ∀ x ∈ ls, validBranch lev x = true) :
    activeBranches
      (⟨lev, cnt, ls ++ List.replicate k (emptyBranch d lev)⟩ :
        RTreeNode α) = ls := by
  unfold activeBranches
  dsimp only
  rw [List.filter_append, List.filter_eq_self.mpr hall,
    filter_replicate_false _ _ (validBranch_empty d lev) k,
    List.append_nil]

theorem selBr_append_perm (buf : List (RTreeBranch α)) (l : List Int)
    (hlen : l.length = buf.length)
    (hall : ∀ x ∈ l, x = 0 ∨ x = 1) :
    (selBr buf l 0 buf.length ++ selBr buf l 1 buf.length).Perm buf := by
  unfold selBr selIdx
  rw [← List.map_append]
  have hcong : (List.range buf.length).filter
      (fun i => !decide (l.getD i (-1) = 0)) =
      (List.range buf.length).filter
      (fun i => decide (l.getD i (-1) = 1)) := by
    apply List.filter_congr
    intro i hi
    have hilt : i < l.length := by
      rw [hlen]; exact List.mem_range.mp hi
    rcases hall _ (getD_mem l i (-1) hilt) with h0 | h1
    · rw [h0]
      decide
    · rw [h1]
      decide
  have hperm := List.filter_append_perm
    (fun i => decide (l.getD i (-1) = 0)) (List.range buf.length)
  rw [hcong] at hperm
  have hm := hperm.map (fun i => buf.getD i dfltBranch)
  rw [map_getD_range buf dfltBranch] at hm
  exact hm

theorem loadNodes_inv (buf : List (RTreeBranch α)) (l : List Int)
    (lev d cap : Nat)
    (hlen : l.length = buf.length)
    (hval : ∀ x ∈ buf, validBranch lev x = true)
    (hc0 : l.count 0 ≤ cap) (hc1 : l.count 1 ≤ cap) :
    ∀ j, j ≤ buf.length →
      (List.range j).foldl
        (fun (acc : RTreeNode α × RTreeNode α) i =>
          if l.getD i (-1) = 0 then
            (RTreeAddBranchSimple (buf.getD i dfltBranch) acc.1, acc.2)
          else if l.getD i (-1) = 1 then
            (acc.1, RTreeAddBranchSimple (buf.getD i dfltBranch) acc.2)
          else acc)
        (⟨lev, 0, List.replicate cap (emptyBranch d lev)⟩,
         ⟨lev, 0, List.replicate cap (emptyBranch d lev)⟩) =
      (⟨lev, (selBr buf l 0 j).length,
         selBr buf l 0 j ++
           List.replicate (cap - (selBr buf l 0 j).length)
             (emptyBranch d lev)⟩,
       ⟨lev, (selBr buf l 1 j).length,
         selBr buf l 1 j ++
           List.replicate (cap - (selBr buf l 1 j).length)
             (emptyBranch d lev)⟩) := by
  intro j
  induction j with
  | zero =>
    intro _
    simp [selBr, selIdx]
  | succ j ih =>
    intro h
    rw [List.range_succ, List.foldl_append, ih (by omega)]
    simp only [List.foldl_cons, List.foldl_nil]
    by_cases h0 : l.getD j (-1) = 0
    · rw [if_pos h0]
      have hroom : (selBr buf l 0 j).length < cap := by
        have e1 : (selIdx l 0 (j + 1)).length ≤
            (selIdx l 0 l.length).length :=
          selIdx_length_le l 0 l.length (j + 1) (by omega)
        have e2 := selIdx_length_full l 0
        rw [selIdx_succ, if_pos h0, List.length_append] at e1
        simp only [selBr, List.length_map]
        simp at e1
        omega
      rw [addSimple_loaded d lev (buf.getD j dfltBranch)
        (selBr buf l 0 j) (cap - (selBr buf l 0 j).length) _
        (fun x hx => hval x (selBr_mem buf l 0 j (by omega) x hx))
        (by omega)]
      rw [selBr_succ buf l 0 j, if_pos h0,
        selBr_succ buf l 1 j, if_neg (by rw [h0]; decide)]
      simp [List.length_append, Nat.sub_sub]
    · by_cases h1 : l.getD j (-1) = 1
      · rw [if_neg h0, if_pos h1]
        have hroom : (selBr buf l 1 j).length < cap := by
          have e1 : (selIdx l 1 (j + 1)).length ≤
              (selIdx l 1 l.length).length :=
            selIdx_length_le l 1 l.length (j + 1) (by omega)
          have e2 := selIdx_length_full l 1
          rw [selIdx_succ, if_pos h1, List.length_append] at e1
          simp only [selBr, List.length_map]
          simp at e1
          omega
        rw [addSimple_loaded d lev (buf.getD j dfltBranch)
          (selBr buf l 1 j) (cap - (selBr buf l 1 j).length) _
          (fun x hx => hval x (selBr_mem buf l 1 j (by omega) x hx))
          (by omega)]
        rw [selBr_succ buf l 0 j, if_neg (by rw [h1]; decide),
          selBr_succ buf l 1 j, if_pos h1]
        simp [List.length_append, Nat.sub_sub]
      · rw [if_neg h0, if_neg h1]
        rw [selBr_succ buf l 0 j, if_neg h0,
          selBr_succ buf l 1 j, if_neg h1]
        simp

theorem set_pref_aux {β : Type} (b v : β) (m : Nat) (hm : 0 < m) :
    ∀ (l1 : List β) (j : Nat), l1.length = j →
      (l1 ++ List.replicate m b).set j v =
      (l1 ++ [v]) ++ List.replicate (m - 1) b := by
  intro l1
  induction l1 with
  | nil =>
    intro j hj
    rw [← hj]
    cases m with
    | zero => omega
    | succ m2 => simp [List.replicate_succ]
  | cons x tl ih =>
    intro j hj
    rw [← hj]
    simp only [List.cons_append, List.length_cons, List.set_cons_succ]
    rw [ih tl.length rfl]

theorem mo_phase1 (sv : RTreeRect α → α) (buf2 : List (RTreeBranch α))
    (total minfill : Nat) :
    ∀ j, j ≤ total →
      (List.range j).foldl (fun q i => RTreeClassify sv 1 buf2 i 0 q)
        (RTreeInitPVars total minfill) =
      ⟨List.replicate j 0 ++ List.replicate (total - j) (-1),
       List.replicate j true ++ List.replicate (total - j) false,
       j, 0, ⟨[], []⟩, ⟨[], []⟩, 0, 0, total, minfill⟩ := by
  intro j
  induction j with
  | zero =>
    intro _
    simp [RTreeInitPVars]
  | succ j ih =>
    intro h
    rw [List.range_succ, List.foldl_append, ih (by omega)]
    simp only [List.foldl_cons, List.foldl_nil]
    unfold RTreeClassify
    dsimp only
    rw [if_pos rfl]
    have hm : 0 < total - j := by omega
    rw [set_pref_aux (-1 : Int) (((0 : Nat) : Int)) (total - j) hm
      (List.replicate j 0) j (by simp)]
    rw [set_pref_aux false true (total - j) hm
      (List.replicate j true) j (by simp)]
    simp [List.replicate_succ', List.append_assoc, Nat.sub_sub]

theorem mo_phase2 (sv : RTreeRect α → α) (buf2 : List (RTreeBranch α))
    (total minfill cut : Nat) (hcut : cut ≤ total) :
    ∀ k, k ≤ total - cut →
      (List.range' cut k).foldl (fun q i => RTreeClassify sv 1 buf2 i 1 q)
        ⟨List.replicate cut 0 ++ List.replicate (total - cut) (-1),
         List.replicate cut true ++ List.replicate (total - cut) false,
         cut, 0, ⟨[], []⟩, ⟨[], []⟩, 0, 0, total, minfill⟩ =
      ⟨(List.replicate cut 0 ++ List.replicate k 1) ++
         List.replicate (total - cut - k) (-1),
       (List.replicate cut true ++ List.replicate k true) ++
         List.replicate (total - cut - k) false,
       cut, k, ⟨[], []⟩, ⟨[], []⟩, 0, 0, total, minfill⟩ := by
  intro k
  induction k with
  | zero =>
    intro _
    simp
  | succ k ih =>
    intro h
    rw [List.range'_concat, List.foldl_append, ih (by omega)]
    simp only [List.foldl_cons, List.foldl_nil, Nat.one_mul]
    unfold RTreeClassify
    dsimp only
    rw [if_neg one_ne_zero]
    have hm : 0 < total - cut - k := by omega
    rw [set_pref_aux (-1 : Int) (((1 : Nat) : Int)) (total - cut - k) hm
      (List.replicate cut 0 ++ List.replicate k 1) (cut + k) (by simp)]
    rw [set_pref_aux false true (total - cut - k) hm
      (List.replicate cut true ++ List.replicate k true) (cut + k)
      (by simp)]
    simp only [List.replicate_succ', List.append_assoc, Nat.sub_sub,
      Nat.cast_one, PartitionVars.mk.injEq, List.cons_append,
      List.nil_append, and_true, true_and]
    refine ⟨?_, ?_, ?_⟩ <;>
      simp [List.append_assoc, List.replicate_add, Nat.sub_sub,
        Nat.add_assoc] <;>
      try omega

theorem moDistStep_parts (d axis side minfill bc : Nat)
    (buf : List (RTreeBranch α)) (up : RTreeRect α) (st : MOScan α)
    (j : Nat) :
    (moDistStep d axis side minfill bc buf up st j).testrect1 =
      RTreeCombineRect st.testrect1 (buf.getD j dfltBranch).rect ∧
    ((moDistStep d axis side minfill bc buf up st j).bcut = j ∨
     (moDistStep d axis side minfill bc buf up st j).bcut = st.bcut) ∧
    ((moDistStep d axis side minfill bc buf up st j).baxis = axis ∨
     (moDistStep d axis side minfill bc buf up st j).baxis = st.baxis) := by
  unfold moDistStep
  dsimp only
  split_ifs <;>
    exact ⟨rfl, by first
      | exact Or.inl rfl
      | exact Or.inr rfl, by first
      | exact Or.inl rfl
      | exact Or.inr rfl⟩

theorem moDistStep_fire (d axis side minfill bc : Nat)
    (buf : List (RTreeBranch α)) (up : RTreeRect α) (st : MOScan α)
    (j : Nat) (hov : st.soverlap = DBL_MAX)
    (hle : moOverlapVal d
      (RTreeCombineRect st.testrect1 (buf.getD j dfltBranch).rect)
      (suffixCombine buf up (j + 1) (bc - minfill)) ≤ (DBL_MAX : α)) :
    (moDistStep d axis side minfill bc buf up st j).bcut = j := by
  unfold moDistStep
  dsimp only
  split
  next hmargin =>
    rw [if_pos (by dsimp only; rw [hov]; exact hle)]
  next hmargin =>
    rw [if_pos (by dsimp only; rw [hov]; exact hle)]

theorem moScanFold_inv (d axis side minfill bc : Nat)
    (buf : List (RTreeBranch α)) (up : RTreeRect α) (lo hi : Nat) :
    ∀ (js : List Nat), (∀ j ∈ js, lo ≤ j ∧ j ≤ hi) →
      ∀ st : MOScan α, lo ≤ st.bcut → st.bcut ≤ hi →
        lo ≤ (js.foldl (moDistStep d axis side minfill bc buf up)
          st).bcut ∧
        (js.foldl (moDistStep d axis side minfill bc buf up) st).bcut ≤
          hi := by
  intro js
  induction js with
  | nil => intro _ st h1 h2; exact ⟨h1, h2⟩
  | cons j js ih =>
    intro hjs st h1 h2
    simp only [List.foldl_cons]
    have hj := hjs j (List.mem_cons_self _ _)
    rcases (moDistStep_parts d axis side minfill bc buf up st j).2.1
      with hc | hc
    · exact ih (fun x hx => hjs x (List.mem_cons_of_mem _ hx)) _
        (by rw [hc]; omega) (by rw [hc]; omega)
    · exact ih (fun x hx => hjs x (List.mem_cons_of_mem _ hx)) _
        (by rw [hc]; omega) (by rw [hc]; omega)

theorem moScanFold_baxis (d axis side minfill bc : Nat)
    (buf : List (RTreeBranch α)) (up : RTreeRect α) :
    ∀ (js : List Nat) (st : MOScan α),
      (js.foldl (moDistStep d axis side minfill bc buf up) st).baxis =
        axis ∨
      (js.foldl (moDistStep d axis side minfill bc buf up) st).baxis =
        st.baxis := by
  intro js
  induction js with
  | nil => intro st; exact Or.inr rfl
  | cons j js ih =>
    intro st
    simp only [List.foldl_cons]
    rcases ih (moDistStep d axis side minfill bc buf up st j) with h | h
    · exact Or.inl h
    · rcases (moDistStep_parts d axis side minfill bc buf up st j).2.2
        with h2 | h2
      · exact Or.inl (h.trans h2)
      · exact Or.inr (h.trans h2)

theorem foldl_combine_f_good (d : Nat) (M : α) (f : Nat → RTreeRect α) :
    ∀ (js : List Nat) (acc : RTreeRect α), RectGood d M acc →
      (∀ j ∈ js, RectGood d M (f j)) →
      RectGood d M
        (js.foldl (fun acc k => RTreeCombineRect acc (f k)) acc) := by
  intro js
  induction js with
  | nil => intro acc h _; exact h
  | cons j js ih =>
    intro acc h hall
    simp only [List.foldl_cons]
    exact ih _ (combine_good d M acc (f j) h
        (hall j (List.mem_cons_self _ _)))
      (fun x hx => hall x (List.mem_cons_of_mem _ hx))

theorem lowerInit_good (d : Nat) (M : α) (buf : List (RTreeBranch α))
    (minfill1 : Nat) (hgood : ∀ x ∈ buf, RectGood d M x.rect)
    (hlen : 0 < buf.length) (hmf : minfill1 ≤ buf.length) :
    RectGood d M (lowerInit buf minfill1) := by
  unfold lowerInit
  apply foldl_combine_f_good d M
    (fun j => (buf.getD j dfltBranch).rect)
  · exact hgood _ (getD_mem buf 0 dfltBranch hlen)
  · intro j hj
    have := List.mem_range'_1.mp hj
    exact hgood _ (getD_mem buf j dfltBranch (by omega))

theorem upperInit_good (d : Nat) (M : α) (buf : List (RTreeBranch α))
    (maxkids minfill1 : Nat) (hgood : ∀ x ∈ buf, RectGood d M x.rect)
    (hlen : maxkids < buf.length) :
    RectGood d M (upperInit buf maxkids minfill1) := by
  unfold upperInit
  dsimp only
  apply combine_good
  · apply foldl_combine_f_good d M
      (fun j => (buf.getD (maxkids - j) dfltBranch).rect)
    · exact hgood _ (getD_mem buf maxkids dfltBranch hlen)
    · intro j hj
      exact hgood _ (getD_mem buf (maxkids - j) dfltBranch (by omega))
  · exact hgood _ (getD_mem buf (maxkids - minfill1) dfltBranch (by omega))

theorem suffixCombine_good (d : Nat) (M : α) (buf : List (RTreeBranch α))
    (upper : RTreeRect α) (lo hi : Nat)
    (hgood : ∀ x ∈ buf, RectGood d M x.rect)
    (hup : RectGood d M upper) (hhi : hi ≤ buf.length) :
    RectGood d M (suffixCombine buf upper lo hi) := by
  unfold suffixCombine
  apply foldl_combine_f_good d M
    (fun k => (buf.getD k dfltBranch).rect) _ _ hup
  intro j hj
  have := List.mem_range'_1.mp hj
  exact hgood _ (getD_mem buf j dfltBranch (by omega))

theorem moSide_bcut (d minfill bc maxkids axis s : Nat) (M : α)
    (st : MOState α) (hM : 0 ≤ M) (hDBL : (2 * M) ^ d ≤ (DBL_MAX : α))
    (hgood : ∀ x ∈ st.buf, RectGood d M x.rect)
    (hlen : st.buf.length = bc) (hbc : bc = maxkids + 1)
    (hmf1 : 1 ≤ minfill) (hmf2 : 2 * minfill ≤ bc)
    (hinit : st.soverlap = DBL_MAX ∨
      (minfill - 1 ≤ st.bcut.getD axis 0 ∧
       st.bcut.getD axis 0 ≤ bc - minfill - 1)) :
    (moSide d minfill bc maxkids axis s st).buf.Perm st.buf ∧
    (∃ c, minfill - 1 ≤ c ∧ c ≤ bc - minfill - 1 ∧
      (moSide d minfill bc maxkids axis s st).bcut =
        st.bcut.set axis c) ∧
    (∃ sd, (moSide d minfill bc maxkids axis s st).bside =
      st.bside.set axis sd) ∧
    ((moSide d minfill bc maxkids axis s st).baxis = axis ∨
     (moSide d minfill bc maxkids axis s st).baxis = st.baxis) := by
  have hperm : (RTreeQuicksortBranchBuf d (axis + s * d) bc
      st.buf).Perm st.buf :=
    quicksort_perm d (axis + s * d) bc st.buf (by omega)
  have hlen1 : (RTreeQuicksortBranchBuf d (axis + s * d) bc
      st.buf).length = bc := by
    rw [hperm.length_eq, hlen]
  have hgood1 : ∀ x ∈ RTreeQuicksortBranchBuf d (axis + s * d) bc st.buf,
      RectGood d M x.rect := by
    intro x hx
    exact hgood x (hperm.mem_iff.mp hx)
  have hcnt : 0 < bc - minfill - (minfill - 1) := by omega
  have hjsmem : ∀ j ∈ List.range' (minfill - 1)
      (bc - minfill - (minfill - 1)),
      minfill - 1 ≤ j ∧ j ≤ bc - minfill - 1 := by
    intro j hj
    have := List.mem_range'_1.mp hj
    omega
  have hbounds : minfill - 1 ≤ ((List.range' (minfill - 1)
      (bc - minfill - (minfill - 1))).foldl
      (moDistStep d axis s minfill bc
        (RTreeQuicksortBranchBuf d (axis + s * d) bc st.buf)
        (upperInit (RTreeQuicksortBranchBuf d (axis + s * d) bc st.buf)
          maxkids (minfill - 1)))
      ⟨lowerInit (RTreeQuicksortBranchBuf d (axis + s * d) bc st.buf)
        (minfill - 1), st.smargin, st.baxis, st.soverlap, st.svol,
       st.bcut.getD axis 0, st.bside.getD axis 0⟩).bcut ∧
      ((List.range' (minfill - 1)
      (bc - minfill - (minfill - 1))).foldl
      (moDistStep d axis s minfill bc
        (RTreeQuicksortBranchBuf d (axis + s * d) bc st.buf)
        (upperInit (RTreeQuicksortBranchBuf d (axis + s * d) bc st.buf)
          maxkids (minfill - 1)))
      ⟨lowerInit (RTreeQuicksortBranchBuf d (axis + s * d) bc st.buf)
        (minfill - 1), st.smargin, st.baxis, st.soverlap, st.svol,
       st.bcut.getD axis 0, st.bside.getD axis 0⟩).bcut ≤
      bc - minfill - 1 := by
    rcases hinit with hov | hrng
    · obtain ⟨n2, hn2⟩ : ∃ n2, bc - minfill - (minfill - 1) = n2 + 1 :=
        ⟨bc - minfill - (minfill - 1) - 1, by omega⟩
      rw [hn2, List.range'_succ]
      simp only [List.foldl_cons]
      have hlow : RectGood d M (lowerInit
          (RTreeQuicksortBranchBuf d (axis + s * d) bc st.buf)
          (minfill - 1)) :=
        lowerInit_good d M _ (minfill - 1) hgood1 (by omega) (by omega)
      have hup : RectGood d M (upperInit
          (RTreeQuicksortBranchBuf d (axis + s * d) bc st.buf)
          maxkids (minfill - 1)) :=
        upperInit_good d M _ maxkids (minfill - 1) hgood1 (by omega)
      have ht1 : RectGood d M (RTreeCombineRect
          (lowerInit (RTreeQuicksortBranchBuf d (axis + s * d) bc
            st.buf) (minfill - 1))
          ((RTreeQuicksortBranchBuf d (axis + s * d) bc
            st.buf).getD (minfill - 1) dfltBranch).rect) :=
        combine_good d M _ _ hlow
          (hgood1 _ (getD_mem _ _ _ (by omega)))
      have ht2 : RectGood d M (suffixCombine
          (RTreeQuicksortBranchBuf d (axis + s * d) bc st.buf)
          (upperInit (RTreeQuicksortBranchBuf d (axis + s * d) bc
            st.buf) maxkids (minfill - 1))
          ((minfill - 1) + 1) (bc - minfill)) :=
        suffixCombine_good d M _ _ _ _ hgood1 hup (by omega)
      have hfire := moDistStep_fire d axis s minfill bc _ _
        ⟨lowerInit (RTreeQuicksortBranchBuf d (axis + s * d) bc
          st.buf) (minfill - 1), st.smargin, st.baxis, st.soverlap,
         st.svol, st.bcut.getD axis 0, st.bside.getD axis 0⟩
        (minfill - 1) hov
        ((moOverlapVal_bound d M hM _ _ ht1 ht2).2.trans hDBL)
      apply moScanFold_inv d axis s minfill bc _ _
        (minfill - 1) (bc - minfill - 1) _
        (fun x hx => by
          have : x ∈ List.range' (minfill - 1)
              (bc - minfill - (minfill - 1)) := by
            rw [hn2, List.range'_succ]
            exact List.mem_cons_of_mem _ hx
          exact hjsmem x this) _
        (by rw [hfire]) (by rw [hfire]; omega)
    · exact moScanFold_inv d axis s minfill bc _ _
        (minfill - 1) (bc - minfill - 1) _ hjsmem _ hrng.1 hrng.2
  unfold moSide
  dsimp only
  refine ⟨hperm, ⟨_, hbounds.1, hbounds.2, rfl⟩, ⟨_, rfl⟩, ?_⟩
  rcases moScanFold_baxis d axis s minfill bc
      (RTreeQuicksortBranchBuf d (axis + s * d) bc st.buf)
      (upperInit (RTreeQuicksortBranchBuf d (axis + s * d) bc st.buf)
        maxkids (minfill - 1))
      (List.range' (minfill - 1) (bc - minfill - (minfill - 1)))
      ⟨lowerInit (RTreeQuicksortBranchBuf d (axis + s * d) bc st.buf)
        (minfill - 1), st.smargin, st.baxis, st.soverlap, st.svol,
       st.bcut.getD axis 0, st.bside.getD axis 0⟩ with h | h
  · exact Or.inl h
  · exact Or.inr h

theorem moAxis_spec (d minfill bc maxkids : Nat) (M : α) (st : MOState α)
    (axis : Nat) (hM : 0 ≤ M) (hDBL : (2 * M) ^ d ≤ (DBL_MAX : α))
    (hgood : ∀ x ∈ st.buf, RectGood d M x.rect)
    (hlen : st.buf.length = bc) (hbc : bc = maxkids + 1)
    (hmf1 : 1 ≤ minfill) (hmf2 : 2 * minfill ≤ bc)
    (haxlt : axis < st.bcut.length) :
    (moAxis d minfill bc maxkids st axis).buf.Perm st.buf ∧
    (moAxis d minfill bc maxkids st axis).bcut.length =
      st.bcut.length ∧
    (moAxis d minfill bc maxkids st axis).bside.length =
      st.bside.length ∧
    (minfill - 1 ≤ (moAxis d minfill bc maxkids st axis).bcut.getD
        axis 0 ∧
     (moAxis d minfill bc maxkids st axis).bcut.getD axis 0 ≤
        bc - minfill - 1) ∧
    (∀ a, a ≠ axis → (moAxis d minfill bc maxkids st axis).bcut.getD
        a 0 = st.bcut.getD a 0) ∧
    ((moAxis d minfill bc maxkids st axis).baxis = axis ∨
     (moAxis d minfill bc maxkids st axis).baxis = st.baxis) := by
  have h0 := moSide_bcut d minfill bc maxkids axis 0 M
    { st with soverlap := DBL_MAX, svol := DBL_MAX, bcut := st.bcut.set axis 0, bside := st.bside.set axis 0 }
    hM hDBL hgood hlen hbc hmf1 hmf2 (Or.inl rfl)
  obtain ⟨hperm0, ⟨c0, hc0a, hc0b, hbcut0⟩, ⟨sd0, hside0⟩, hax0⟩ := h0
  have hgood1 : ∀ x ∈ (moSide d minfill bc maxkids axis 0
      { st with soverlap := DBL_MAX, svol := DBL_MAX, bcut := st.bcut.set axis 0, bside := st.bside.set axis 0 }).buf, RectGood d M x.rect :=
    fun x hx => hgood x (hperm0.mem_iff.mp hx)
  have hlen1 : (moSide d minfill bc maxkids axis 0
      { st with soverlap := DBL_MAX, svol := DBL_MAX, bcut := st.bcut.set axis 0, bside := st.bside.set axis 0 }).buf.length = bc := by
    rw [hperm0.length_eq]
    exact hlen
  have hgdax : (moSide d minfill bc maxkids axis 0
      { st with soverlap := DBL_MAX, svol := DBL_MAX, bcut := st.bcut.set axis 0, bside := st.bside.set axis 0 }).bcut.getD axis 0 = c0 := by
    rw [hbcut0]
    exact getD_set_self _ _ _ _ (by simpa using haxlt)
  have h1 := moSide_bcut d minfill bc maxkids axis 1 M
    (moSide d minfill bc maxkids axis 0
      { st with soverlap := DBL_MAX, svol := DBL_MAX, bcut := st.bcut.set axis 0, bside := st.bside.set axis 0 })
    hM hDBL hgood1 hlen1 hbc hmf1 hmf2
    (Or.inr (by rw [hgdax]; exact ⟨hc0a, hc0b⟩))
  obtain ⟨hperm1, ⟨c1, hc1a, hc1b, hbcut1⟩, ⟨sd1, hside1⟩, hax1⟩ := h1
  unfold moAxis
  dsimp only
  refine ⟨hperm1.trans hperm0, ?_, ?_, ?_, ?_, ?_⟩
  · rw [hbcut1, hbcut0]
    simp
  · rw [hside1, hside0]
    simp
  · rw [hbcut1, hbcut0]
    constructor <;>
      rw [getD_set_self _ _ _ _ (by simpa using haxlt)]
    · exact hc1a
    · exact hc1b
  · intro a ha
    rw [hbcut1, hbcut0]
    rw [getD_set_ne _ _ _ _ _ (fun h => ha h.symm),
      getD_set_ne _ _ _ _ _ (fun h => ha h.symm),
      getD_set_ne _ _ _ _ _ (fun h => ha h.symm)]
  · rcases hax1 with h | h
    · exact Or.inl h
    · rw [h]
      rcases hax0 with h2 | h2
      · exact Or.inl h2
      · exact Or.inr h2

theorem moChooseAxis_fold (dims minfill bc maxkids : Nat) (M : α)
    (buf0 : List (RTreeBranch α)) (hM : 0 ≤ M)
    (hDBL : (2 * M) ^ dims ≤ (DBL_MAX : α))
    (hgood : ∀ x ∈ buf0, RectGood dims M x.rect)
    (hlen : buf0.length = bc) (hbc : bc = maxkids + 1)
    (hmf1 : 1 ≤ minfill) (hmf2 : 2 * minfill ≤ bc) (hd : 1 ≤ dims) :
    ∀ k, k ≤ dims →
      ((List.range k).foldl (moAxis dims minfill bc maxkids)
        ⟨buf0, 0, 0, -1, -1, List.replicate dims 0,
         List.replicate dims 0⟩).buf.Perm buf0 ∧
      ((List.range k).foldl (moAxis dims minfill bc maxkids)
        ⟨buf0, 0, 0, -1, -1, List.replicate dims 0,
         List.replicate dims 0⟩).bcut.length = dims ∧
      ((List.range k).foldl (moAxis dims minfill bc maxkids)
        ⟨buf0, 0, 0, -1, -1, List.replicate dims 0,
         List.replicate dims 0⟩).bside.length = dims ∧
      ((List.range k).foldl (moAxis dims minfill bc maxkids)
        ⟨buf0, 0, 0, -1, -1, List.replicate dims 0,
         List.replicate dims 0⟩).baxis < dims ∧
      (∀ a, a < k →
        minfill - 1 ≤ ((List.range k).foldl
          (moAxis dims minfill bc maxkids)
          ⟨buf0, 0, 0, -1, -1, List.replicate dims 0,
           List.replicate dims 0⟩).bcut.getD a 0 ∧
        ((List.range k).foldl (moAxis dims minfill bc maxkids)
          ⟨buf0, 0, 0, -1, -1, List.replicate dims 0,
           List.replicate dims 0⟩).bcut.getD a 0 ≤
          bc - minfill - 1) := by
  intro k
  induction k with
  | zero =>
    intro _
    exact ⟨List.Perm.refl _, by simp, by simp, by simpa using hd,
      fun a ha => absurd ha (by omega)⟩
  | succ k ih =>
    intro h
    obtain ⟨hperm, hlc, hls, hax, hbnd⟩ := ih (by omega)
    rw [List.range_succ, List.foldl_append]
    simp only [List.foldl_cons, List.foldl_nil]
    have hspec := moAxis_spec dims minfill bc maxkids M _ k hM hDBL
      (fun x hx => hgood x (hperm.mem_iff.mp hx))
      (by rw [hperm.length_eq]; exact hlen) hbc hmf1 hmf2
      (by rw [hlc]; omega)
    obtain ⟨hp2, hl2, hs2, hrng2, hoth2, hax2⟩ := hspec
    refine ⟨hp2.trans hperm, by rw [hl2]; exact hlc,
      by rw [hs2]; exact hls, ?_, ?_⟩
    · rcases hax2 with h2 | h2
      · rw [h2]; omega
      · rw [h2]; exact hax
    · intro a ha
      by_cases hak : a = k
      · subst hak
        exact hrng2
      · rw [hoth2 a hak]
        exact hbnd a (by omega)

theorem moChooseAxis_spec (dims minfill bc maxkids : Nat) (M : α)
    (buf0 : List (RTreeBranch α)) (hM : 0 ≤ M)
    (hDBL : (2 * M) ^ dims ≤ (DBL_MAX : α))
    (hgood : ∀ x ∈ buf0, RectGood dims M x.rect)
    (hlen : buf0.length = bc) (hbc : bc = maxkids + 1)
    (hmf1 : 1 ≤ minfill) (hmf2 : 2 * minfill ≤ bc) (hd : 1 ≤ dims) :
    (moChooseAxis dims minfill bc maxkids buf0).buf.Perm buf0 ∧
    (moChooseAxis dims minfill bc maxkids buf0).bcut.length = dims ∧
    (moChooseAxis dims minfill bc maxkids buf0).bside.length = dims ∧
    (moChooseAxis dims minfill bc maxkids buf0).baxis < dims ∧
    ∀ a, a < dims →
      minfill - 1 ≤ (moChooseAxis dims minfill bc maxkids
        buf0).bcut.getD a 0 ∧
      (moChooseAxis dims minfill bc maxkids buf0).bcut.getD a 0 ≤
        bc - minfill - 1 := by
  have h := moChooseAxis_fold dims minfill bc maxkids M buf0 hM hDBL
    hgood hlen hbc hmf1 hmf2 hd dims (le_refl _)
  unfold moChooseAxis
  exact ⟨h.1, h.2.1, h.2.2.1, h.2.2.2.1, fun a ha => h.2.2.2.2 a ha⟩

theorem methodOne_spec (sv : RTreeRect α → α) (d : Nat) (M : α)
    (buf : List (RTreeBranch α)) (minfill maxkids : Nat)
    (hM : 0 ≤ M) (hDBL : (2 * M) ^ d ≤ (DBL_MAX : α))
    (hgood : ∀ x ∈ buf, RectGood d M x.rect)
    (hlen : buf.length = maxkids + 1)
    (hmf1 : 1 ≤ minfill) (hmf2 : 2 * minfill ≤ buf.length)
    (hd : 1 ≤ d) :
    ((RTreeMethodOne sv d buf minfill maxkids).2).Perm buf ∧
    (RTreeMethodOne sv d buf minfill maxkids).1.total = buf.length ∧
    (∀ x ∈ (RTreeMethodOne sv d buf minfill maxkids).1.partition,
      x = 0 ∨ x = 1) ∧
    (RTreeMethodOne sv d buf minfill maxkids).1.partition.length =
      buf.length ∧
    (RTreeMethodOne sv d buf minfill maxkids).1.count0 =
      (RTreeMethodOne sv d buf minfill maxkids).1.partition.count 0 ∧
    (RTreeMethodOne sv d buf minfill maxkids).1.count1 =
      (RTreeMethodOne sv d buf minfill maxkids).1.partition.count 1 ∧
    (RTreeMethodOne sv d buf minfill maxkids).1.count0 +
      (RTreeMethodOne sv d buf minfill maxkids).1.count1 =
      buf.length ∧
    minfill ≤ (RTreeMethodOne sv d buf minfill maxkids).1.count0 ∧
    minfill ≤ (RTreeMethodOne sv d buf minfill maxkids).1.count1 := by
  obtain ⟨hpermST, hlc, hls, hax, hbnd⟩ := moChooseAxis_spec d minfill
    buf.length maxkids M buf hM hDBL hgood rfl hlen hmf1 hmf2 hd
  have hcut := hbnd (moChooseAxis d minfill buf.length maxkids
    buf).baxis hax
  unfold RTreeMethodOne
  dsimp only
  rw [mo_phase1 sv _ buf.length minfill
    ((moChooseAxis d minfill buf.length maxkids buf).bcut.getD
      (moChooseAxis d minfill buf.length maxkids buf).baxis 0 + 1)
    (by omega)]
  rw [mo_phase2 sv _ buf.length minfill
    ((moChooseAxis d minfill buf.length maxkids buf).bcut.getD
      (moChooseAxis d minfill buf.length maxkids buf).baxis 0 + 1)
    (by omega) (buf.length -
      ((moChooseAxis d minfill buf.length maxkids buf).bcut.getD
        (moChooseAxis d minfill buf.length maxkids buf).baxis 0 + 1))
    (le_refl _)]
  simp only [Nat.sub_self, List.replicate_zero, List.append_nil]
  refine ⟨?_, by trivial, ?_, ?_, ?_, ?_, ?_, ?_, ?_⟩
  · split <;> split <;> first
      | exact hpermST
      | (refine (quicksort_perm d _ buf.length _ ?_).trans hpermST
         rw [hpermST.length_eq])
  · intro x hx
    rcases List.mem_append.mp hx with hx2 | hx2
    · exact Or.inl (List.eq_of_mem_replicate hx2)
    · exact Or.inr (List.eq_of_mem_replicate hx2)
  · rw [List.length_append, List.length_replicate, List.length_replicate]
    omega
  · simp [List.count_append, List.count_replicate]
  · simp [List.count_append, List.count_replicate]
  · dsimp only
    omega
  · dsimp only
    omega
  · dsimp only
    omega

theorem loadNodes_final (t : RTree α) (n : RTreeNode α) (b : RTreeBranch α)
    (M : α)
    (hlen : n.branch.length = MAXKIDS n.level t)
    (hvalid : ∀ x ∈ n.branch, validBranch n.level x = true)
    (hbvalid : validBranch n.level b = true)
    (hmf1 : 1 ≤ MINFILL n.level t)
    (P : PartitionVars α) (buf2 : List (RTreeBranch α))
    (hperm2 : buf2.Perm (n.branch ++ [b]))
    (htot : P.total = (n.branch ++ [b]).length)
    (h01 : ∀ x ∈ P.partition, x = 0 ∨ x = 1)
    (hplen : P.partition.length = P.total)
    (hpc0 : P.count0 = P.partition.count 0)
    (hpc1 : P.count1 = P.partition.count 1)
    (hsum : P.count0 + P.count1 = (n.branch ++ [b]).length)
    (hf0 : MINFILL n.level t ≤ P.count0)
    (hf1 : MINFILL n.level t ≤ P.count1) :
    (RTreeLoadNodes buf2
      (⟨n.level, 0, List.replicate (MAXKIDS n.level t)
        (emptyBranch t.ndims n.level)⟩ : RTreeNode α)
      (⟨n.level, 0, List.replicate (MAXKIDS n.level t)
        (emptyBranch t.ndims n.level)⟩ : RTreeNode α) P).1.level =
      n.level ∧
    (RTreeLoadNodes buf2
      (⟨n.level, 0, List.replicate (MAXKIDS n.level t)
        (emptyBranch t.ndims n.level)⟩ : RTreeNode α)
      (⟨n.level, 0, List.replicate (MAXKIDS n.level t)
        (emptyBranch t.ndims n.level)⟩ : RTreeNode α) P).2.level =
      n.level ∧
    (RTreeLoadNodes buf2
      (⟨n.level, 0, List.replicate (MAXKIDS n.level t)
        (emptyBranch t.ndims n.level)⟩ : RTreeNode α)
      (⟨n.level, 0, List.replicate (MAXKIDS n.level t)
        (emptyBranch t.ndims n.level)⟩ : RTreeNode α) P).1.count +
    (RTreeLoadNodes buf2
      (⟨n.level, 0, List.replicate (MAXKIDS n.level t)
        (emptyBranch t.ndims n.level)⟩ : RTreeNode α)
      (⟨n.level, 0, List.replicate (MAXKIDS n.level t)
        (emptyBranch t.ndims n.level)⟩ : RTreeNode α) P).2.count =
      MAXKIDS n.level t + 1 ∧
    MINFILL n.level t ≤ (RTreeLoadNodes buf2
      (⟨n.level, 0, List.replicate (MAXKIDS n.level t)
        (emptyBranch t.ndims n.level)⟩ : RTreeNode α)
      (⟨n.level, 0, List.replicate (MAXKIDS n.level t)
        (emptyBranch t.ndims n.level)⟩ : RTreeNode α) P).1.count ∧
    MINFILL n.level t ≤ (RTreeLoadNodes buf2
      (⟨n.level, 0, List.replicate (MAXKIDS n.level t)
        (emptyBranch t.ndims n.level)⟩ : RTreeNode α)
      (⟨n.level, 0, List.replicate (MAXKIDS n.level t)
        (emptyBranch t.ndims n.level)⟩ : RTreeNode α) P).2.count ∧
    (RTreeLoadNodes buf2
      (⟨n.level, 0, List.replicate (MAXKIDS n.level t)
        (emptyBranch t.ndims n.level)⟩ : RTreeNode α)
      (⟨n.level, 0, List.replicate (MAXKIDS n.level t)
        (emptyBranch t.ndims n.level)⟩ : RTreeNode α) P).1.count =
      (activeBranches (RTreeLoadNodes buf2
      (⟨n.level, 0, List.replicate (MAXKIDS n.level t)
        (emptyBranch t.ndims n.level)⟩ : RTreeNode α)
      (⟨n.level, 0, List.replicate (MAXKIDS n.level t)
        (emptyBranch t.ndims n.level)⟩ : RTreeNode α) P).1).length ∧
    (RTreeLoadNodes buf2
      (⟨n.level, 0, List.replicate (MAXKIDS n.level t)
        (emptyBranch t.ndims n.level)⟩ : RTreeNode α)
      (⟨n.level, 0, List.replicate (MAXKIDS n.level t)
        (emptyBranch t.ndims n.level)⟩ : RTreeNode α) P).2.count =
      (activeBranches (RTreeLoadNodes buf2
      (⟨n.level, 0, List.replicate (MAXKIDS n.level t)
        (emptyBranch t.ndims n.level)⟩ : RTreeNode α)
      (⟨n.level, 0, List.replicate (MAXKIDS n.level t)
        (emptyBranch t.ndims n.level)⟩ : RTreeNode α) P).2).length ∧
    (activeBranches (RTreeLoadNodes buf2
      (⟨n.level, 0, List.replicate (MAXKIDS n.level t)
        (emptyBranch t.ndims n.level)⟩ : RTreeNode α)
      (⟨n.level, 0, List.replicate (MAXKIDS n.level t)
        (emptyBranch t.ndims n.level)⟩ : RTreeNode α) P).1 ++
     activeBranches (RTreeLoadNodes buf2
      (⟨n.level, 0, List.replicate (MAXKIDS n.level t)
        (emptyBranch t.ndims n.level)⟩ : RTreeNode α)
      (⟨n.level, 0, List.replicate (MAXKIDS n.level t)
        (emptyBranch t.ndims n.level)⟩ : RTreeNode α) P).2).Perm
      (n.branch ++ [b]) := by
  have hblen : (n.branch ++ [b]).length = MAXKIDS n.level t + 1 := by
    simp [hlen]
  have hb2len : buf2.length = (n.branch ++ [b]).length :=
    hperm2.length_eq
  have hval2 : ∀ x ∈ buf2, validBranch n.level x = true := by
    intro x hx
    rcases List.mem_append.mp (hperm2.mem_iff.mp hx) with h | h
    · exact hvalid x h
    · rw [List.mem_singleton.mp h]
      exact hbvalid
  have hcap0 : P.partition.count 0 ≤ MAXKIDS n.level t := by omega
  have hcap1 : P.partition.count 1 ≤ MAXKIDS n.level t := by omega
  have hppl : P.partition.length = buf2.length := by
    rw [hplen, htot, hb2len]
  have hinv := loadNodes_inv buf2 P.partition n.level t.ndims
    (MAXKIDS n.level t) hppl hval2 hcap0 hcap1 P.total
    (by rw [htot, ← hb2len])
  have hselfull0 : (selBr buf2 P.partition 0 P.total).length =
      P.partition.count 0 := by
    rw [selBr, List.length_map, show P.total = P.partition.length from
      hplen.symm, selIdx_length_full]
  have hselfull1 : (selBr buf2 P.partition 1 P.total).length =
      P.partition.count 1 := by
    rw [selBr, List.length_map, show P.total = P.partition.length from
      hplen.symm, selIdx_length_full]
  have hallsel0 : ∀ x ∈ selBr buf2 P.partition 0 P.total,
      validBranch n.level x = true := by
    intro x hx
    exact hval2 x (selBr_mem buf2 P.partition 0 P.total
      (by rw [htot, ← hb2len]) x hx)
  have hallsel1 : ∀ x ∈ selBr buf2 P.partition 1 P.total,
      validBranch n.level x = true := by
    intro x hx
    exact hval2 x (selBr_mem buf2 P.partition 1 P.total
      (by rw [htot, ← hb2len]) x hx)
  unfold RTreeLoadNodes
  rw [hinv]
  have hact0 := activeBranches_loaded n.level t.ndims
    (selBr buf2 P.partition 0 P.total).length
    (MAXKIDS n.level t - (selBr buf2 P.partition 0 P.total).length)
    (selBr buf2 P.partition 0 P.total) hallsel0
  have hact1 := activeBranches_loaded n.level t.ndims
    (selBr buf2 P.partition 1 P.total).length
    (MAXKIDS n.level t - (selBr buf2 P.partition 1 P.total).length)
    (selBr buf2 P.partition 1 P.total) hallsel1
  refine ⟨rfl, rfl, ?_, ?_, ?_, ?_, ?_, ?_⟩
  · dsimp only
    omega
  · dsimp only
    omega
  · dsimp only
    omega
  · dsimp only
    rw [hact0]
  · dsimp only
    rw [hact1]
  · dsimp only
    rw [hact0, hact1]
    have hsel := selBr_append_perm buf2 P.partition hppl h01
    rw [show buf2.length = P.total from by rw [htot, ← hb2len]] at hsel
    exact hsel.trans hperm2

/-- C2: `RTreeSplitNode`, under either split strategy (`t.method = 1`
gives the R*-style `RTreeMethodOne`, anything else Guttman's quadratic
`RTreeMethodZero`), partitions the `MAXKIDS + 1` branches (the full
node's plus the extra one) between the reinitialized node and the fresh
node: both results keep the original node's level, their counts sum to
`MAXKIDS + 1`, each count is at least `MINFILL` and equals the number of
active branches of its node, and the two active-branch lists together
are a permutation of the original branches plus the extra branch.  The
hypotheses ask for a monotone score function, a full node of valid
well-formed branches, a valid well-formed extra branch, `1 ≤ MINFILL`,
`2 * MINFILL ≤ MAXKIDS + 1`, at least one dimension, and coordinates
bounded by `M` with `(2M)^ndims` below the `DBL_MAX` sentinel. -/
theorem RTreeSplitNode_partition (sv : RTreeRect α → α) (t : RTree α)
    (n : RTreeNode α) (b : RTreeBranch α) (M : α)
    (hmono : ∀ a b : RTreeRect α, SubRect a b → sv a ≤ sv b)
    (hM : 0 ≤ M)
    (hlen : n.branch.length = MAXKIDS n.level t)
    (hvalid : ∀ x ∈ n.branch, validBranch n.level x = true)
    (hbvalid : validBranch n.level b = true)
    (hgood : ∀ x ∈ n.branch, RectGood t.ndims M x.rect)
    (hbgood : RectGood t.ndims M b.rect)
    (hmf1 : 1 ≤ MINFILL n.level t)
    (hmf2 : 2 * MINFILL n.level t ≤ MAXKIDS n.level t + 1)
    (hd : 1 ≤ t.ndims)
    (hDBL : (2 * M) ^ t.ndims ≤ (DBL_MAX : α)) :
    (RTreeSplitNode sv t n b).1.level = n.level ∧
    (RTreeSplitNode sv t n b).2.level = n.level ∧
    (RTreeSplitNode sv t n b).1.count + (RTreeSplitNode sv t n b).2.count
      = MAXKIDS n.level t + 1 ∧
    MINFILL n.level t ≤ (RTreeSplitNode sv t n b).1.count ∧
    MINFILL n.level t ≤ (RTreeSplitNode sv t n b).2.count ∧
    (RTreeSplitNode sv t n b).1.count =
      (activeBranches (RTreeSplitNode sv t n b).1).length ∧
    (RTreeSplitNode sv t n b).2.count =
      (activeBranches (RTreeSplitNode sv t n b).2).length ∧
    (activeBranches (RTreeSplitNode sv t n b).1 ++
     activeBranches (RTreeSplitNode sv t n b).2).Perm
      (n.branch ++ [b]) := by
  have hgood2 : ∀ x ∈ n.branch ++ [b], RectGood t.ndims M x.rect := by
    intro x hx
    rcases List.mem_append.mp hx with h | h
    · exact hgood x h
    · rw [List.mem_singleton.mp h]
      exact hbgood
  have hblen : (n.branch ++ [b]).length = MAXKIDS n.level t + 1 := by
    simp [hlen]
  have htake : n.branch.take (MAXKIDS n.level t) = n.branch := by
    rw [← hlen]
    exact List.take_length n.branch
  unfold RTreeSplitNode RTreeGetBranches RTreeInitNode
  dsimp only
  rw [htake]
  split
  case isTrue hmethod =>
    obtain ⟨hq1, hq2, hq3, hq4, hq5, hq6, hq7, hq8, hq9⟩ :=
      methodOne_spec sv t.ndims M (n.branch ++ [b])
        (MINFILL n.level t) (MAXKIDS n.level t) hM hDBL hgood2 hblen
        hmf1 (by omega) hd
    exact loadNodes_final t n b M hlen hvalid hbvalid hmf1
      (RTreeMethodOne sv t.ndims (n.branch ++ [b])
        (MINFILL n.level t) (MAXKIDS n.level t)).1
      (RTreeMethodOne sv t.ndims (n.branch ++ [b])
        (MINFILL n.level t) (MAXKIDS n.level t)).2
      hq1 (by rw [hq2]) hq3 (by rw [hq4, hq2]) hq5 hq6 hq7 hq8 hq9
  case isFalse hmethod =>
    obtain ⟨hz1, hz2, hz3, hz4, hz5, hz6⟩ :=
      methodZero_spec sv t.ndims M (n.branch ++ [b])
        (MINFILL n.level t) hmono hgood2 hmf1 (by omega)
    exact loadNodes_final t n b M hlen hvalid hbvalid hmf1
      (RTreeMethodZero sv (n.branch ++ [b]) (MINFILL n.level t))
      (n.branch ++ [b]) (List.Perm.refl _) (by rw [hz2]) hz3
      (by rw [hz1.1, hz2]) hz1.2.2.2.2.1 hz1.2.2.2.2.2 hz4 hz5 hz6

set_option maxRecDepth 100000 in
/-- Witness for C2 at a concrete split: the quadratic strategy on the
full leaf `nC2` of `tC2` with extra branch `bC2` and the constant-zero
score function. -/
theorem RTreeSplitNode_partition_wit :
    (RTreeSplitNode (fun _ => (0 : ℤ)) tC2 nC2 bC2).1.level =
      nC2.level ∧
    (RTreeSplitNode (fun _ => (0 : ℤ)) tC2 nC2 bC2).2.level =
      nC2.level ∧
    (RTreeSplitNode (fun _ => (0 : ℤ)) tC2 nC2 bC2).1.count +
      (RTreeSplitNode (fun _ => (0 : ℤ)) tC2 nC2 bC2).2.count =
      MAXKIDS nC2.level tC2 + 1 ∧
    MINFILL nC2.level tC2 ≤
      (RTreeSplitNode (fun _ => (0 : ℤ)) tC2 nC2 bC2).1.count ∧
    MINFILL nC2.level tC2 ≤
      (RTreeSplitNode (fun _ => (0 : ℤ)) tC2 nC2 bC2).2.count ∧
    (RTreeSplitNode (fun _ => (0 : ℤ)) tC2 nC2 bC2).1.count =
      (activeBranches
        (RTreeSplitNode (fun _ => (0 : ℤ)) tC2 nC2 bC2).1).length ∧
    (RTreeSplitNode (fun _ => (0 : ℤ)) tC2 nC2 bC2).2.count =
      (activeBranches
        (RTreeSplitNode (fun _ => (0 : ℤ)) tC2 nC2 bC2).2).length ∧
    (activeBranches (RTreeSplitNode (fun _ => (0 : ℤ)) tC2 nC2 bC2).1 ++
     activeBranches
       (RTreeSplitNode (fun _ => (0 : ℤ)) tC2 nC2 bC2).2).Perm
      (nC2.branch ++ [bC2]) :=
  RTreeSplitNode_partition (fun _ => (0 : ℤ)) tC2 nC2 bC2 10
    (fun a b h => le_refl 0) (by decide) (by decide) (by decide)
    (by decide) (by decide) (by decide) (by decide) (by decide)
    (by decide) (by decide)
